import Mathlib

/-!
# The subset enumerator `cnr.c` and the interval scheduler `wis.bs.c`

A shallow embedding of the two programs and proofs about them.

* `Mem`: reads and stores of `int` arrays, checked against the array bounds.
* `CnrC`: `Cnr` and `main` of `facebull/doc/cnr.c`; `main` gives the states emitted,
  `mainText` the text written by the `printf` calls.
* `WisBs`: `max`, `binSearchLast` and `main` of `gattaca/wis.bs.c`.

C `int` values are modelled by `Int`. Where a sum of the program can leave the range of
`int` (the search midpoint `low+high` and the bounds `mid+1`, `mid-1`, `n-1` derived from
it, the value sums `v[i]+M[p[i]]` and `sum += v[i]`, the record counter `line++`) it is
reduced by `Mem.wrap` to the 32-bit two's complement value the compiled program holds.
The remaining arithmetic stays between the bounds of its operands (subscripts up to the
size of a table, elements of a combination below `n`) and is left as it is. A result
`none` stands for a run that touches a subscript outside an array, or that has used up
the fuel given to a loop. Loops whose exit depends on the data take one unit of fuel per
evaluation of their condition.
-/

namespace Mem

/-- Read of `s[i]` of an `int` array holding the elements of `s`: defined only for a
subscript inside the buffer. -/
def rd (s : List Int) (i : Int) : Option Int :=
  if 0 ≤ i then s[i.toNat]? else none

/-- Store `s[i] = x`: defined only for a subscript inside the buffer. -/
def wr (s : List Int) (i : Int) (x : Int) : Option (List Int) :=
  if 0 ≤ i ∧ i < s.length then some (s.set i.toNat x) else none

/-- Total view of a buffer: the element at subscript `i` (0 outside the buffer). -/
def nth (s : List Int) (i : Int) : Int := s.getD i.toNat 0

/-- The value held by a C `int` after an arithmetic operation whose mathematical result
is `x`: `x` reduced to the 32-bit two's complement range `[-2147483648, 2147483647]`. -/
def wrap (x : Int) : Int := (x + 2147483648) % 4294967296 - 2147483648

/-- The number `x` is a value of type `int`. -/
def IsInt (x : Int) : Prop := -2147483648 ≤ x ∧ x ≤ 2147483647

instance (x : Int) : Decidable (IsInt x) :=
  inferInstanceAs (Decidable (-2147483648 ≤ x ∧ x ≤ 2147483647))

end Mem

namespace CnrC

open Mem

/-- The loop `while (s[i] == indx && i > 0) { --i; --indx; }` of `Cnr`; the result is the
final value of `i`. One unit of fuel is spent per evaluation of the loop condition. -/
def scanBack (s : List Int) : Nat → Int → Int → Option Int
  | 0, _, _ => none
  | fuel + 1, i, indx =>
    match rd s i with
    | none => none
    | some x => if x = indx ∧ i > 0 then scanBack s fuel (i - 1) (indx - 1) else some i

/-- The loop `while (i<r) { s[i] = s[i-1] + 1; ++i; }` of `Cnr`; the result is the final
buffer. One unit of fuel is spent per evaluation of the loop condition. -/
def refill (r : Int) : Nat → List Int → Int → Option (List Int)
  | 0, _, _ => none
  | fuel + 1, s, i =>
    if i < r then
      match rd s (i - 1) with
      | none => none
      | some x =>
        match wr s i (x + 1) with
        | none => none
        | some s1 => refill r fuel s1 (i + 1)
    else some s

/-- The function `Cnr(s, n, r)`: the returned flag (`TRUE`/`FALSE`) and the buffer as the
call leaves it. `none` stands for a run that touches a subscript outside the buffer. -/
def Cnr (s : List Int) (n r : Int) : Option (Bool × List Int) :=
  match rd s 0 with
  | none => none
  | some s0 =>
    if s0 = n - r then some (false, s)
    else
      match scanBack s (r.toNat + 1) (r - 1) (n - 1) with
      | none => none
      | some i =>
        match rd s i with
        | none => none
        | some si =>
          match wr s i (si + 1) with
          | none => none
          | some s1 =>
            match refill r (r.toNat + 1) s1 (i + 1) with
            | none => none
            | some s2 => some (true, s2)

/-- The buffer after `calloc(r, sizeof(int))` and `for (i=0; i<r; ++i) ar[i] = i;`. -/
def initState (r : Int) : List Int := (List.range r.toNat).map Int.ofNat

/-- The loop `do { print ar } while (Cnr(ar,n,r));` of `main`: the list of the states
printed, in order. One unit of fuel is spent per pass through the body. -/
def run (n r : Int) : Nat → List Int → Option (List (List Int))
  | 0, _ => none
  | fuel + 1, s =>
    match Cnr s n r with
    | none => none
    | some (false, _) => some [s]
    | some (true, s1) => (run n r fuel s1).map (fun l => s :: l)

/-- The program `main` called on the parsed arguments `n` and `r`: the swap when `n < r`,
the initial buffer, then the printing loop. The result is the list of states printed. -/
def main (fuel : Nat) (n r : Int) : Option (List (List Int)) :=
  if n < r then run r n fuel (initState n) else run n r fuel (initState r)

/-- A strictly increasing `r`-sequence over `[0, n-1]`. -/
def IsComb (n r : Int) (s : List Int) : Prop :=
  (s.length : Int) = r ∧ s.Sorted (· < ·) ∧ ∀ x ∈ s, 0 ≤ x ∧ x ≤ n - 1

instance (n r : Int) (s : List Int) : Decidable (IsComb n r s) := by
  unfold IsComb; infer_instance

/-- The state predicate of the enumerator: adjacent entries increase, the first entry is
at least 0 and the last at most `n-1`. -/
def StateInv (n r : Int) (s : List Int) : Prop :=
  (s.length : Int) = r ∧ s.Chain' (· < ·) ∧ (∀ a ∈ s.head?, 0 ≤ a) ∧
    (∀ b ∈ s.getLast?, b ≤ n - 1)

instance (n r : Int) (s : List Int) : Decidable (StateInv n r s) :=
  decidable_of_iff ((s.length : Int) = r ∧ s.Pairwise (· < ·) ∧ (∀ a ∈ s.head?, 0 ≤ a) ∧
    (∀ b ∈ s.getLast?, b ≤ n - 1)) (by unfold StateInv; rw [List.chain'_iff_pairwise])

/-- Strict lexicographic order on states. -/
abbrev LexLt (s t : List Int) : Prop := List.Lex (· < ·) s t

/-- The lexicographically last combination `(n-r, n-r+1, ..., n-1)`. -/
def lastComb (n r : Int) : List Int := (List.range r.toNat).map (fun i : Nat => n - r + Int.ofNat i)

/-- Subscript form of `IsComb`, the form the loops of `Cnr` are reasoned about in. -/
def Valid (n r : Int) (s : List Int) : Prop :=
  (s.length : Int) = r ∧ (∀ i j, 0 ≤ i → i < j → j < r → nth s i < nth s j) ∧
    (∀ i, 0 ≤ i → i < r → 0 ≤ nth s i ∧ nth s i ≤ n - 1)

/-- Reference enumeration (in no particular order) of the strictly increasing
`r`-sequences over `[0, n-1]`: the sublists of length `r` of `0, 1, ..., n-1`. It serves
to count them. -/
def allCombs (n r : Nat) : List (List Int) :=
  (List.sublistsLen r (List.range n)).map (List.map Int.ofNat)

/-- A piece of text written by a `printf` call of `main`: a field `%wi` holding the int
`x`, or literal text of the format string. -/
inductive Piece where
  | field : Nat → Int → Piece
  | lit : String → Piece
deriving DecidableEq

/-- The characters `printf` writes for a piece: `%wi` writes the decimal form of the int,
padded with blanks on the left to at least `w` characters. -/
def Piece.render : Piece → String
  | Piece.field w x => String.mk (List.replicate (w - (toString x).length) (Char.ofNat 32)) ++ toString x
  | Piece.lit s => s

/-- The loop `for (int i=0; i < r; ++i) { printf("%3i", ar[i]+1); if (i < (r-1))
printf(", "); else printf("."); }` of `main`, from subscript `i` on. One unit of fuel is
spent per evaluation of the loop condition. -/
def printValues (ar : List Int) (r : Int) : Nat → Int → Option (List Piece)
  | 0, _ => none
  | fuel + 1, i =>
    if i < r then
      match rd ar i with
      | none => none
      | some x =>
        (printValues ar r fuel (i + 1)).map (fun l =>
          Piece.field 3 (x + 1) :: Piece.lit (if i < r - 1 then ", " else ".") :: l)
    else some []

/-- The loop `do { printf("%4i)   ", line++); ...; printf(" "); } while (Cnr(ar,n,r));`
of `main` with its `printf` calls: the text written, piece by piece. One unit of fuel is
spent per pass through the body. -/
def runText (n r : Int) : Nat → Int → List Int → Option (List Piece)
  | 0, _, _ => none
  | fuel + 1, line, s =>
    match printValues s r (r.toNat + 1) 0 with
    | none => none
    | some vals =>
      match Cnr s n r with
      | none => none
      | some (false, _) =>
        some (Piece.field 4 line :: Piece.lit ")   " :: vals ++ [Piece.lit " "])
      | some (true, s1) =>
        (runText n r fuel (wrap (line + 1)) s1).map (fun l =>
          (Piece.field 4 line :: Piece.lit ")   " :: vals ++ [Piece.lit " "]) ++ l)

/-- The program `main` with its `printf` calls: the text it writes, piece by piece. -/
def mainText (fuel : Nat) (n r : Int) : Option (List Piece) :=
  if n < r then runText r n fuel 1 (initState n) else runText n r fuel 1 (initState r)

/-- The values of a combination as the output format describes them: each value plus one
in a 3-wide field, a comma and a blank between values, a period after the last. -/
def valuePieces : List Int → List Piece
  | [] => []
  | [x] => [Piece.field 3 (x + 1), Piece.lit "."]
  | x :: y :: rest => Piece.field 3 (x + 1) :: Piece.lit ", " :: valuePieces (y :: rest)

/-- The record of the `k`-th combination: `k` in a 4-wide field, `)` and three blanks, the
values, and one blank. -/
def recordOf (k : Int) (s : List Int) : List Piece :=
  Piece.field 4 k :: Piece.lit ")   " :: valuePieces s ++ [Piece.lit " "]

/-- The records of a list of combinations, numbered from `k` on, one after the other. -/
def recordsFrom : Int → List (List Int) → List Piece
  | _, [] => []
  | k, s :: rest => recordOf k s ++ recordsFrom (k + 1) rest

/-- The characters written for a list of pieces. -/
def renderAll (ps : List Piece) : String := String.join (ps.map Piece.render)

/-- A piece writes no newline character: fields hold digits, blanks and a sign only. -/
def Piece.NoNewline : Piece → Prop
  | Piece.field _ _ => True
  | Piece.lit s => Char.ofNat 10 ∉ s.toList

instance (p : Piece) : Decidable p.NoNewline :=
  match p with
  | Piece.field _ _ => isTrue trivial
  | Piece.lit s => inferInstanceAs (Decidable (Char.ofNat 10 ∉ s.toList))

end CnrC

namespace WisBs

open Mem

/-- The table capacity `#define TABSIZE (100)`. -/
def TABSIZE : Nat := 100

/-- The value stored in `f[0]` "for binarySearchLast". -/
def SENTINEL : Int := -999999

/-- The function `max(x, y)` of the program. -/
def max (x y : Int) : Int := if x > y then x else y

/-- The loop `while (low <= high) { mid = (low+high)/2; ... }` of `binSearchLast`; the
result is the final `high`. One unit of fuel is spent per evaluation of the loop
condition; `Int.tdiv` is the truncating division of C, and `low+high`, `mid+1`, `mid-1`
are `int` operations. -/
def binSearchLoop (a : List Int) (key : Int) : Nat → Int → Int → Option Int
  | 0, _, _ => none
  | fuel + 1, low, high =>
    if low ≤ high then
      match rd a (Int.tdiv (wrap (low + high)) 2) with
      | none => none
      | some x =>
        if x ≤ key then
          binSearchLoop a key fuel (wrap (Int.tdiv (wrap (low + high)) 2 + 1)) high
        else binSearchLoop a key fuel low (wrap (Int.tdiv (wrap (low + high)) 2 - 1))
    else some high

/-- The function `binSearchLast(a, n, key)`. `none` stands for a run that reads a
subscript outside `a`. -/
def binSearchLast (a : List Int) (n key : Int) : Option Int :=
  binSearchLoop a key (n.toNat + 1) 0 (wrap (n - 1))

/-- The global tables `s, f, v, p, M` of the program, each `int x[TABSIZE]`. -/
structure Tables where
  s : List Int
  f : List Int
  v : List Int
  p : List Int
  M : List Int
deriving DecidableEq

/-- The tables at program start: globals are zero-initialised. -/
def Tables.zero : Tables :=
  { s := List.replicate TABSIZE 0, f := List.replicate TABSIZE 0,
    v := List.replicate TABSIZE 0, p := List.replicate TABSIZE 0,
    M := List.replicate TABSIZE 0 }

/-- A scheduler input: the rows `s f v` that follow the count `n` on standard input, so
`n` is the number of rows; interval `i` (1-based) is row `i`. The tables hold `TABSIZE`
entries and interval `n` is stored at subscript `n`, so an input has at most
`TABSIZE - 1 = 99` intervals. The numbers are read with `%d` into `int` variables, so
each of them is an `int`. -/
structure Input where
  rows : List (Int × Int × Int)
  fits : rows.length < TABSIZE
  ints : ∀ r ∈ rows, IsInt r.1 ∧ IsInt r.2.1 ∧ IsInt r.2.2

/-- The count `n` read by `scanf("%d",&n)`. -/
def Input.n (inp : Input) : Int := inp.rows.length

/-- Start time of interval `i` (1-based) as given in the input. -/
def Input.start (inp : Input) (i : Int) : Int := (inp.rows.getD (i - 1).toNat (0, 0, 0)).1

/-- Finish time of interval `i` (1-based) as given in the input. -/
def Input.finish (inp : Input) (i : Int) : Int := (inp.rows.getD (i - 1).toNat (0, 0, 0)).2.1

/-- Value of interval `i` (1-based) as given in the input. -/
def Input.value (inp : Input) (i : Int) : Int := (inp.rows.getD (i - 1).toNat (0, 0, 0)).2.2

/-- The finish times of the input are non-decreasing: `f[i-1] <= f[i]` for every `i` in
`[2, n]`. -/
def Input.Ordered (inp : Input) : Prop := (inp.rows.map (fun r => r.2.1)).Sorted (· ≤ ·)

instance (inp : Input) : Decidable inp.Ordered := by
  unfold Input.Ordered; infer_instance

/-- Every interval of the input has `s[i] < f[i]` and `s[i] >= -999999`. -/
def Input.Proper (inp : Input) : Prop := ∀ r ∈ inp.rows, r.1 < r.2.1 ∧ SENTINEL ≤ r.1

instance (inp : Input) : Decidable inp.Proper := by
  unfold Input.Proper; infer_instance

/-- A set `S` of intervals among `1..i` that is pairwise non-overlapping: for `j < k` in
`S`, `f[j] <= s[k]`. -/
def Input.Feasible (inp : Input) (i : Int) (S : Finset Int) : Prop :=
  (∀ j ∈ S, 1 ≤ j ∧ j ≤ i) ∧ ∀ j ∈ S, ∀ k ∈ S, j < k → inp.finish j ≤ inp.start k

/-- The sum of the values of the intervals in `S`. -/
def Input.total (inp : Input) (S : Finset Int) : Int := S.sum (fun j => inp.value j)

/-- The loop `for (i=1;i<=n;i++) scanf("%d %d %d",&s[i],&f[i],&v[i]);`, one pass per
input row, started at subscript `i`. -/
def readRows : List (Int × Int × Int) → Int → Tables → Option Tables
  | [], _, t => some t
  | (a, b, c) :: rest, i, t =>
    match wr t.s i a, wr t.f i b, wr t.v i c with
    | some s1, some f1, some v1 => readRows rest (i + 1) { t with s := s1, f := f1, v := v1 }
    | _, _, _ => none

/-- Lines 50-54 of `main`: `f[0] = (-999999);` and the reading loop. -/
def load (rows : List (Int × Int × Int)) : Option Tables :=
  match wr Tables.zero.f 0 SENTINEL with
  | none => none
  | some f0 => readRows rows 1 { Tables.zero with f := f0 }

/-- The loop `for (i=2;i<=n && f[i-1]<=f[i];i++);`; the result is the final `i`. One unit
of fuel is spent per evaluation of the loop condition. -/
def orderScan (f : List Int) (n : Int) : Nat → Int → Option Int
  | 0, _ => none
  | fuel + 1, i =>
    if i ≤ n then
      match rd f (i - 1), rd f i with
      | some x, some y => if x ≤ y then orderScan f n fuel (i + 1) else some i
      | _, _ => none
    else some i

/-- The loop `for (i=1;i<=n;i++) p[i] = binSearchLast(f,n+1,s[i]);` from subscript `i` on;
the result is the final table `p`. -/
def fillP (s f : List Int) (n : Int) : Nat → Int → List Int → Option (List Int)
  | 0, _, _ => none
  | fuel + 1, i, p =>
    if i ≤ n then
      match rd s i with
      | none => none
      | some si =>
        match binSearchLast f (n + 1) si with
        | none => none
        | some h =>
          match wr p i h with
          | none => none
          | some p1 => fillP s f n fuel (i + 1) p1
    else some p

/-- The loop `for (i=1;i<=n;i++) M[i] = max(v[i]+M[p[i]],M[i-1]);` from subscript `i` on;
the result is the final table `M`. The sum `v[i]+M[p[i]]` is an `int` sum. -/
def fillM (v p : List Int) (n : Int) : Nat → Int → List Int → Option (List Int)
  | 0, _, _ => none
  | fuel + 1, i, M =>
    if i ≤ n then
      match rd v i, rd p i with
      | some vi, some pi =>
        match rd M pi, rd M (i - 1) with
        | some a, some b =>
          match wr M i (max (wrap (vi + a)) b) with
          | none => none
          | some M1 => fillM v p n fuel (i + 1) M1
        | _, _ => none
      | _, _ => none
    else some M

/-- The lines the program can print. -/
inductive Out where
  | notOrdered : Out
  | header : Out
  | row : Int → Int → Int → Int → Int → Int → Out
  | incl : Int → Out
  | total : Int → Out
deriving DecidableEq

/-- The loop `for (i=1;i<=n;i++) printf("%3d %3d %3d %3d %3d %3d\n",i,s[i],...);` from
subscript `i` on; the result is the list of table rows printed. -/
def printRows (t : Tables) (n : Int) : Nat → Int → Option (List Out)
  | 0, _ => none
  | fuel + 1, i =>
    if i ≤ n then
      match rd t.s i, rd t.f i, rd t.v i, rd t.p i, rd t.M i with
      | some a, some b, some c, some d, some e =>
        (printRows t n fuel (i + 1)).map (fun l => Out.row i a b c d e :: l)
      | _, _, _, _, _ => none
    else some []

/-- The reconstruction loop `for (i=n;i>0; ) if (v[i]+M[p[i]]>=M[i-1]) {...} else i--;`
from subscript `i` with running total `sum`; the result is the list of intervals
reported by "Include interval", in the order printed, and the final `sum`. One unit of
fuel is spent per evaluation of the loop condition; `v[i]+M[p[i]]` and `sum += v[i]` are
`int` sums. -/
def walk (t : Tables) : Nat → Int → Int → Option (List Int × Int)
  | 0, _, _ => none
  | fuel + 1, i, sum =>
    if i > 0 then
      match rd t.v i, rd t.p i with
      | some vi, some pi =>
        match rd t.M pi, rd t.M (i - 1) with
        | some a, some b =>
          if wrap (vi + a) ≥ b then
            (walk t fuel pi (wrap (sum + vi))).map (fun r => (i :: r.1, r.2))
          else walk t fuel (i - 1) sum
        | _, _ => none
      | _, _ => none
    else some ([], sum)

/-- The program `main` on a scheduler input: the final tables and the lines printed.
`none` stands for a run that touches a subscript outside a table, or whose reconstruction
loop is still running when `fuel` evaluations of its condition have been made. -/
def main (fuel : Nat) (inp : Input) : Option (Tables × List Out) :=
  match load inp.rows with
  | none => none
  | some t0 =>
    match orderScan t0.f inp.n (inp.n.toNat + 1) 2 with
    | none => none
    | some i =>
      if i ≤ inp.n then some (t0, [Out.notOrdered])
      else
        match fillP t0.s t0.f inp.n (inp.n.toNat + 1) 1 t0.p with
        | none => none
        | some p1 =>
          match wr t0.M 0 0 with
          | none => none
          | some M0 =>
            match fillM t0.v p1 inp.n (inp.n.toNat + 1) 1 M0 with
            | none => none
            | some M1 =>
              match printRows { t0 with p := p1, M := M1 } inp.n (inp.n.toNat + 1) 1,
                  walk { t0 with p := p1, M := M1 } fuel inp.n 0 with
              | some rows, some (incl, sum) =>
                some ({ t0 with p := p1, M := M1 },
                  Out.header :: rows ++ incl.map Out.incl ++ [Out.total sum])
              | _, _ => none

/-- A one-interval input whose start time lies below the sentinel. -/
def belowSentinelInput : Input := ⟨[(-1000000, 5, 1)], by decide, by decide⟩

/-- The reconstruction loop with the strict test: the loop `walk` of the program with
`v[i]+M[p[i]] > M[i-1]` in place of `v[i]+M[p[i]] >= M[i-1]`, everything else alike. It is
not part of the program; it is the variant the tie-break note compares the program
with. -/
def walkStrict (t : Tables) : Nat → Int → Int → Option (List Int × Int)
  | 0, _, _ => none
  | fuel + 1, i, sum =>
    if i > 0 then
      match rd t.v i, rd t.p i with
      | some vi, some pi =>
        match rd t.M pi, rd t.M (i - 1) with
        | some a, some b =>
          if wrap (vi + a) > b then
            (walkStrict t fuel pi (wrap (sum + vi))).map (fun r => (i :: r.1, r.2))
          else walkStrict t fuel (i - 1) sum
        | _, _ => none
      | _, _ => none
    else some ([], sum)

/-- The tables as lines 50-54 and 61-68 of `main` leave them (the ordering check between
them changes no table): the state in which the printing of the table and the
reconstruction loop start. -/
def computed (inp : Input) : Option Tables :=
  match load inp.rows with
  | none => none
  | some t0 =>
    match fillP t0.s t0.f inp.n (inp.n.toNat + 1) 1 t0.p with
    | none => none
    | some p1 =>
      match wr t0.M 0 0 with
      | none => none
      | some M0 =>
        match fillM t0.v p1 inp.n (inp.n.toNat + 1) 1 M0 with
        | none => none
        | some M1 => some { t0 with p := p1, M := M1 }

/-- The three-interval scenario `(1,4,3), (3,5,2), (0,6,4)`. -/
def scenarioInput : Input := ⟨[(1, 4, 3), (3, 5, 2), (0, 6, 4)], by decide, by decide⟩

/-- A one-interval input whose interval has `s = f`. -/
def zeroLengthInput : Input := ⟨[(5, 5, 1)], by decide, by decide⟩

/-- Two overlapping intervals of equal value: a tie between including interval 2 and
leaving it out. -/
def tieInput : Input := ⟨[(0, 1, 1), (0, 2, 1)], by decide, by decide⟩

/-- Two intervals that do not overlap and whose values add up to more than the largest
`int`. -/
def overflowInput : Input := ⟨[(0, 1, 2147483647), (1, 2, 1)], by decide, by decide⟩

end WisBs
namespace Mem

theorem rd_eq {s : List Int} {i : Int} (h0 : 0 ≤ i) (h1 : i < s.length) :
    rd s i = some (nth s i) := by
  have h : i.toNat < s.length := by omega
  simp [rd, nth, h0, List.getD, List.getElem?_eq_getElem h]

theorem rd_none_of_ge {s : List Int} {i : Int} (h1 : (s.length : Int) ≤ i) : rd s i = none := by
  have h : s.length ≤ i.toNat := by omega
  simp [rd, List.getElem?_eq_none h]

theorem rd_none_of_neg {s : List Int} {i : Int} (h1 : i < 0) : rd s i = none := by
  simp [rd]; omega

theorem wr_eq {s : List Int} {i : Int} (x : Int) (h0 : 0 ≤ i) (h1 : i < s.length) :
    wr s i x = some (s.set i.toNat x) := by
  simp [wr, h0, h1]

theorem nth_set {s : List Int} {i j : Int} (x : Int) (h0 : 0 ≤ i) (h1 : i < s.length)
    (hj : 0 ≤ j) : nth (s.set i.toNat x) j = if j = i then x else nth s j := by
  unfold nth
  by_cases h : j = i
  · subst h
    have h : j.toNat < s.length := by omega
    simp [List.getD, List.getElem?_set, h]
  · have h2 : i.toNat ≠ j.toNat := by omega
    simp [List.getD, List.getElem?_set, h, h2]

theorem ext_nth {s t : List Int} (hl : s.length = t.length)
    (h : ∀ i : Int, 0 ≤ i → i < s.length → nth s i = nth t i) : s = t := by
  apply List.ext_getElem hl
  intro k h1 h2
  have := h k (by omega) (by omega)
  simpa [nth, List.getD, List.getElem?_eq_getElem h1, List.getElem?_eq_getElem h2] using this

theorem nth_natCast (s : List Int) (k : Nat) (h : k < s.length) : nth s (k : Int) = s[k] := by
  simp [nth, List.getD, List.getElem?_eq_getElem h]

theorem nth_toNat (s : List Int) (i : Int) (_ : 0 ≤ i) (h : i.toNat < s.length) :
    nth s i = s[i.toNat] := by
  simp [nth, List.getD, List.getElem?_eq_getElem h]

theorem chain_iff_nth (R : Int → Int → Prop) (s : List Int) :
    s.Chain' R ↔ ∀ i : Int, 0 ≤ i → i + 1 < s.length → R (nth s i) (nth s (i + 1)) := by
  rw [List.chain'_iff_get]
  constructor
  · intro hc i hi hir
    obtain ⟨k, rfl⟩ := Int.eq_ofNat_of_zero_le hi
    have hk : k + 1 < s.length := by omega
    have h1 := hc k (by omega)
    simp only [List.get_eq_getElem] at h1
    have e : ((k : Int) + 1) = ((k + 1 : Nat) : Int) := by push_cast; ring
    rw [e, nth_natCast s k (by omega), nth_natCast s (k + 1) hk]
    exact h1
  · intro h k hk
    simp only [List.get_eq_getElem]
    have h1 := h k (by omega) (by omega)
    have e : ((k : Int) + 1) = ((k + 1 : Nat) : Int) := by push_cast; ring
    rw [e, nth_natCast s k (by omega), nth_natCast s (k + 1) (by omega)] at h1
    exact h1

theorem wrap_of_isInt {x : Int} (h : IsInt x) : wrap x = x := by
  unfold wrap; unfold IsInt at h; omega

theorem wrap_eq {x : Int} (h1 : -2147483648 ≤ x) (h2 : x ≤ 2147483647) : wrap x = x := by
  unfold wrap; omega

theorem isInt_wrap (x : Int) : IsInt (wrap x) := by
  unfold wrap IsInt; omega

end Mem

namespace CnrC

open Mem

theorem scanBack_spec (s : List Int) (fuel : Nat) :
    ∀ (i indx : Int), 0 ≤ i → i < s.length → i < fuel →
      ∃ k, scanBack s fuel i indx = some k ∧ 0 ≤ k ∧ k ≤ i ∧
        (∀ j, k < j → j ≤ i → nth s j = indx - (i - j)) ∧
        (k = 0 ∨ nth s k ≠ indx - (i - k)) := by
  induction fuel with
  | zero => intro i indx h0 _ hf; exfalso; simp at hf; omega
  | succ fuel ih =>
    intro i indx h0 h1 hf
    rw [scanBack, rd_eq h0 h1]
    by_cases hc : nth s i = indx ∧ i > 0
    · simp only [hc, and_self, if_true]
      obtain ⟨k, hk, hk0, hki, hall, hstop⟩ :=
        ih (i - 1) (indx - 1) (by omega) (by omega) (by push_cast at hf; omega)
      refine ⟨k, ?_, hk0, by omega, ?_, ?_⟩
      · simpa [hc.1] using hk
      · intro j hj1 hj2
        by_cases hji : j = i
        · subst hji; rw [hc.1]; ring
        · rw [hall j hj1 (by omega)]; ring
      · rcases hstop with h | h
        · exact Or.inl h
        · right; intro h2; apply h; rw [h2]; ring
    · simp only [hc, if_false]
      refine ⟨i, rfl, h0, le_refl _, ?_, ?_⟩
      · intro j hj1 hj2; omega
      · by_cases hi : i = 0
        · exact Or.inl hi
        · right; intro h2; apply hc; constructor
          · rw [h2]; ring
          · omega

theorem refill_spec (r : Int) (fuel : Nat) :
    ∀ (s : List Int) (i : Int), (s.length : Int) = r → 1 ≤ i → i ≤ r → r - i < fuel →
      ∃ s2, refill r fuel s i = some s2 ∧ s2.length = s.length ∧
        (∀ j, 0 ≤ j → j < i → nth s2 j = nth s j) ∧
        (∀ j, i ≤ j → j < r → nth s2 j = nth s (i - 1) + (j - i + 1)) := by
  induction fuel with
  | zero => intro s i _ _ _ hf; exfalso; simp at hf; omega
  | succ fuel ih =>
    intro s i hl h0 h1 hf
    rw [refill]
    by_cases hc : i < r
    · have hi1 : i - 1 < s.length := by omega
      have hi2 : i < s.length := by omega
      simp only [hc, if_true, rd_eq (by omega : 0 ≤ i - 1) hi1, wr_eq _ (by omega : 0 ≤ i) hi2]
      have hl2 : ((s.set i.toNat (nth s (i - 1) + 1)).length : Int) = r := by
        rw [List.length_set]; exact hl
      obtain ⟨s2, hs2, hlen, hlow, hhigh⟩ :=
        ih (s.set i.toNat (nth s (i - 1) + 1)) (i + 1) hl2 (by omega) (by omega)
          (by push_cast at hf; omega)
      refine ⟨s2, hs2, by rw [hlen, List.length_set], ?_, ?_⟩
      · intro j hj0 hj1
        rw [hlow j hj0 (by omega), nth_set _ (by omega) hi2 hj0, if_neg (by omega)]
      · intro j hj0 hj1
        by_cases hji : j = i
        · subst hji
          rw [hlow j (by omega) (by omega), nth_set _ (by omega) hi2 (by omega), if_pos rfl]
          ring
        · rw [hhigh j (by omega) hj1]
          simp only [add_sub_cancel_right]
          rw [nth_set _ (by omega) hi2 (by omega), if_pos rfl]
          ring
    · simp only [hc, if_false]
      exact ⟨s, rfl, rfl, fun _ _ _ => rfl, fun j hj0 hj1 => by omega⟩

/-- What `Cnr` does on any buffer of `r >= 1` entries: either the first entry is `n-r` and
the call returns `FALSE` leaving the buffer alone, or there is a pivot `k`, all entries to
its right are at their ceilings, and the new buffer keeps the entries left of `k` and
counts up from `s[k]+1` from `k` on. -/
theorem Cnr_spec (s : List Int) (n r : Int) (hl : (s.length : Int) = r) (hr : 1 ≤ r) :
    (nth s 0 = n - r ∧ Cnr s n r = some (false, s)) ∨
    (nth s 0 ≠ n - r ∧ ∃ k s2, Cnr s n r = some (true, s2) ∧ 0 ≤ k ∧ k < r ∧
      (s2.length : Int) = r ∧
      (∀ j, k < j → j < r → nth s j = n - r + j) ∧
      (nth s k ≠ n - r + k) ∧
      (∀ j, 0 ≤ j → j < k → nth s2 j = nth s j) ∧
      (∀ j, k ≤ j → j < r → nth s2 j = nth s k + 1 + (j - k))) := by
  have h0 : rd s 0 = some (nth s 0) := rd_eq (le_refl _) (by omega)
  by_cases hc : nth s 0 = n - r
  · left; refine ⟨hc, ?_⟩
    simp [Cnr, h0, hc]
  · right; refine ⟨hc, ?_⟩
    obtain ⟨k, hk, hk0, hki, hall, hstop⟩ :=
      scanBack_spec s (r.toNat + 1) (r - 1) (n - 1) (by omega) (by omega)
        (by push_cast; omega)
    have hkl : k < s.length := by omega
    have hl1 : ((s.set k.toNat (nth s k + 1)).length : Int) = r := by
      rw [List.length_set]; exact hl
    obtain ⟨s2, hs2, hlen, hlow, hhigh⟩ :=
      refill_spec r (r.toNat + 1) (s.set k.toNat (nth s k + 1)) (k + 1) hl1 (by omega)
        (by omega) (by push_cast; omega)
    refine ⟨k, s2, ?_, hk0, by omega, ?_, ?_, ?_, ?_, ?_⟩
    · simp [Cnr, h0, hc, hk, rd_eq hk0 hkl, wr_eq _ hk0 hkl, hs2]
    · rw [hlen]; exact hl1
    · intro j hj0 hj1
      rw [hall j hj0 (by omega)]; ring
    · rcases hstop with h | h
      · subst h; simpa using hc
      · intro h2; apply h; rw [h2]; ring
    · intro j hj0 hj1
      rw [hlow j hj0 (by omega), nth_set _ hk0 hkl hj0, if_neg (by omega)]
    · intro j hj0 hj1
      by_cases hjk : j = k
      · subst hjk
        rw [hlow j hk0 (by omega), nth_set _ hk0 hkl hk0, if_pos rfl]; ring
      · rw [hhigh j (by omega) hj1]
        simp only [add_sub_cancel_right]
        rw [nth_set _ hk0 hkl hk0, if_pos rfl]; ring

theorem isComb_iff_valid (n r : Int) (s : List Int) : IsComb n r s ↔ Valid n r s := by
  unfold IsComb Valid List.Sorted
  constructor
  · rintro ⟨hl, hs, hb⟩
    refine ⟨hl, ?_, ?_⟩
    · intro i j hi hij hj
      rw [List.pairwise_iff_getElem] at hs
      have := hs i.toNat j.toNat (by omega) (by omega) (by omega)
      rwa [← nth_toNat s i hi (by omega), ← nth_toNat s j (by omega) (by omega)] at this
    · intro i hi hir
      rw [nth_toNat s i hi (by omega)]
      exact hb _ (List.getElem_mem _)
  · rintro ⟨hl, hs, hb⟩
    refine ⟨hl, ?_, ?_⟩
    · rw [List.pairwise_iff_getElem]
      intro i j hi hj hij
      have := hs i j (by omega) (by omega) (by omega)
      rwa [nth_natCast s i hi, nth_natCast s j hj] at this
    · intro x hx
      obtain ⟨k, hk, rfl⟩ := List.mem_iff_getElem.1 hx
      have := hb k (by omega) (by omega)
      rwa [nth_natCast s k hk] at this

theorem adj_gap (s : List Int) (r : Int)
    (hadj : ∀ i, 0 ≤ i → i + 1 < r → nth s i < nth s (i + 1)) (i : Int) (hi : 0 ≤ i) :
    ∀ d : Nat, i + d < r → nth s i + d ≤ nth s (i + d) := by
  intro d
  induction d with
  | zero => intro _; simp
  | succ d ih =>
    intro h
    have h1 := ih (by push_cast at h; omega)
    have h2 := hadj (i + d) (by omega) (by push_cast at h; omega)
    have e : i + ((d + 1 : Nat) : Int) = i + d + 1 := by push_cast; ring
    rw [e]; push_cast; omega

theorem valid_of_adj (n r : Int) (s : List Int) (hl : (s.length : Int) = r)
    (hadj : ∀ i, 0 ≤ i → i + 1 < r → nth s i < nth s (i + 1))
    (hends : 1 ≤ r → 0 ≤ nth s 0 ∧ nth s (r - 1) ≤ n - 1) : Valid n r s := by
  have gap : ∀ i j, 0 ≤ i → i ≤ j → j < r → nth s i + (j - i) ≤ nth s j := by
    intro i j hi hij hj
    have := adj_gap s r hadj i hi (j - i).toNat (by omega)
    have e : ((j - i).toNat : Int) = j - i := by omega
    rw [e] at this
    simpa using this
  refine ⟨hl, ?_, ?_⟩
  · intro i j hi hij hj
    have := gap i j hi (by omega) hj
    omega
  · intro i hi hir
    have h1 := gap 0 i (le_refl _) hi hir
    have h2 := gap i (r - 1) hi (by omega) (by omega)
    have := hends (by omega)
    omega

theorem valid_gap {n r : Int} {s : List Int} (h : Valid n r s) (i j : Int) (hi : 0 ≤ i)
    (hij : i ≤ j) (hj : j < r) : nth s i + (j - i) ≤ nth s j := by
  have := adj_gap s r (fun i hi hir => h.2.1 i (i + 1) hi (by omega) hir) i hi (j - i).toNat
    (by omega)
  have e : ((j - i).toNat : Int) = j - i := by omega
  rw [e] at this
  simpa using this

theorem valid_ceiling {n r : Int} {s : List Int} (h : Valid n r s) (i : Int) (hi : 0 ≤ i)
    (hir : i < r) : nth s i ≤ n - r + i := by
  have h1 := valid_gap h i (r - 1) hi (by omega) (by omega)
  have h2 := (h.2.2 (r - 1) (by omega) (by omega)).2
  omega

theorem valid_floor {n r : Int} {s : List Int} (h : Valid n r s) (i : Int) (hi : 0 ≤ i)
    (hir : i < r) : i ≤ nth s i := by
  have h1 := valid_gap h 0 i (le_refl _) hi hir
  have h2 := (h.2.2 0 (le_refl _) (by omega)).1
  omega

theorem chain_iff_adj (s : List Int) :
    s.Chain' (· < ·) ↔ ∀ i : Int, 0 ≤ i → i + 1 < s.length → nth s i < nth s (i + 1) :=
  chain_iff_nth (· < ·) s

theorem head?_eq_nth (s : List Int) (h : 0 < s.length) : s.head? = some (nth s 0) := by
  cases s with
  | nil => simp at h
  | cons a t => simp [nth]

theorem getLast?_eq_nth (s : List Int) (h : 0 < s.length) :
    s.getLast? = some (nth s ((s.length : Int) - 1)) := by
  rw [List.getLast?_eq_getElem?, List.getElem?_eq_getElem (by omega)]
  have e : ((s.length : Int) - 1) = ((s.length - 1 : Nat) : Int) := by omega
  rw [e, nth_natCast s (s.length - 1) (by omega)]

theorem stateInv_iff_valid (n r : Int) (s : List Int) : StateInv n r s ↔ Valid n r s := by
  unfold StateInv
  rw [chain_iff_adj]
  constructor
  · rintro ⟨hl, hc, hh, ht⟩
    apply valid_of_adj n r s hl
    · intro i hi hir
      exact hc i hi (by omega)
    · intro hr
      have hlt : 0 < s.length := by omega
      rw [head?_eq_nth s hlt] at hh
      rw [getLast?_eq_nth s hlt, hl] at ht
      exact ⟨hh _ rfl, ht _ rfl⟩
  · rintro ⟨hl, hs, hb⟩
    refine ⟨hl, ?_, ?_, ?_⟩
    · intro i hi hir
      exact hs i (i + 1) hi (by omega) (by omega)
    · intro a ha
      cases s with
      | nil => simp at ha
      | cons x t =>
        have hlt : 0 < (x :: t).length := by simp
        rw [head?_eq_nth _ hlt] at ha
        cases ha
        exact (hb 0 (le_refl _) (by omega)).1
    · intro b hb2
      cases s with
      | nil => simp at hb2
      | cons x t =>
        have hlt : 0 < (x :: t).length := by simp
        rw [getLast?_eq_nth _ hlt, hl] at hb2
        cases hb2
        exact (hb (r - 1) (by omega) (by omega)).2

theorem nth_cons_zero (a : Int) (s : List Int) : nth (a :: s) 0 = a := by
  simp [nth]

theorem nth_cons_succ (a : Int) (s : List Int) (j : Int) (hj : 0 ≤ j) :
    nth (a :: s) (j + 1) = nth s j := by
  obtain ⟨k, rfl⟩ := Int.eq_ofNat_of_zero_le hj
  have e : ((k : Int) + 1).toNat = k + 1 := by omega
  simp [nth, e]

/-- Lexicographic order on buffers of equal length, by the first subscript at which they
differ. -/
theorem lex_iff_nth : ∀ (s t : List Int), s.length = t.length →
    (LexLt s t ↔ ∃ k : Int, 0 ≤ k ∧ k < s.length ∧
      (∀ j, 0 ≤ j → j < k → nth s j = nth t j) ∧ nth s k < nth t k)
  | [], [], _ => by
    constructor
    · intro h; cases h
    · rintro ⟨k, h0, h1, _⟩; simp at h1; omega
  | [], _ :: _, h => by simp at h
  | _ :: _, [], h => by simp at h
  | a :: s, b :: t, h => by
    have hl : s.length = t.length := by simpa using h
    have ih := lex_iff_nth s t hl
    constructor
    · intro hlex
      cases hlex with
      | cons h1 =>
        obtain ⟨k, hk0, hk1, hpre, hlt⟩ := ih.1 h1
        refine ⟨k + 1, by omega, by simp; omega, ?_, ?_⟩
        · intro j hj0 hj1
          by_cases hj : j = 0
          · subst hj; simp [nth_cons_zero]
          · have := hpre (j - 1) (by omega) (by omega)
            have e : j = (j - 1) + 1 := by ring
            rw [e, nth_cons_succ _ _ _ (by omega), nth_cons_succ _ _ _ (by omega)]
            exact this
        · rw [nth_cons_succ _ _ _ hk0, nth_cons_succ _ _ _ hk0]; exact hlt
      | rel h1 =>
        refine ⟨0, le_refl _, by simp, ?_, ?_⟩
        · intro j hj0 hj1; omega
        · simpa [nth_cons_zero] using h1
    · rintro ⟨k, hk0, hk1, hpre, hlt⟩
      by_cases hk : k = 0
      · subst hk
        rw [nth_cons_zero, nth_cons_zero] at hlt
        exact List.Lex.rel hlt
      · have hab : a = b := by
          have := hpre 0 (le_refl _) (by omega)
          simpa [nth_cons_zero] using this
        subst hab
        apply List.Lex.cons
        apply ih.2
        refine ⟨k - 1, by omega, by simp at hk1; omega, ?_, ?_⟩
        · intro j hj0 hj1
          have := hpre (j + 1) (by omega) (by omega)
          rwa [nth_cons_succ _ _ _ hj0, nth_cons_succ _ _ _ hj0] at this
        · have e : k = (k - 1) + 1 := by ring
          rw [e, nth_cons_succ _ _ _ (by omega), nth_cons_succ _ _ _ (by omega)] at hlt
          exact hlt

theorem lexLt_irrefl (s : List Int) : ¬ LexLt s s := by
  rw [lex_iff_nth s s rfl]
  rintro ⟨k, _, _, _, h⟩
  exact lt_irrefl _ h

theorem lexLt_trans {s t u : List Int} (h1 : s.length = t.length) (h2 : t.length = u.length)
    (hst : LexLt s t) (htu : LexLt t u) : LexLt s u := by
  rw [lex_iff_nth s t h1] at hst
  rw [lex_iff_nth t u h2] at htu
  rw [lex_iff_nth s u (h1.trans h2)]
  obtain ⟨k1, a0, a1, a2, a3⟩ := hst
  obtain ⟨k2, b0, b1, b2, b3⟩ := htu
  rcases lt_trichotomy k1 k2 with h | h | h
  · refine ⟨k1, a0, a1, ?_, ?_⟩
    · intro j hj0 hj1; rw [a2 j hj0 hj1, b2 j hj0 (by omega)]
    · rw [← b2 k1 a0 h]; exact a3
  · subst h
    refine ⟨k1, a0, a1, ?_, lt_trans a3 b3⟩
    intro j hj0 hj1; rw [a2 j hj0 hj1, b2 j hj0 hj1]
  · refine ⟨k2, b0, by omega, ?_, ?_⟩
    · intro j hj0 hj1; rw [a2 j hj0 (by omega), b2 j hj0 hj1]
    · rw [a2 k2 b0 h]; exact b3

theorem lexLt_total {s t : List Int} (h : s.length = t.length) :
    LexLt s t ∨ s = t ∨ LexLt t s := by
  by_cases he : s = t
  · exact Or.inr (Or.inl he)
  · -- a first subscript of difference exists
    have hex : ∃ k : Nat, k < s.length ∧ nth s k ≠ nth t k := by
      by_contra hc
      push_neg at hc
      apply he
      apply ext_nth h
      intro i hi0 hi1
      obtain ⟨k, rfl⟩ := Int.eq_ofNat_of_zero_le hi0
      exact hc k (by omega)
    classical
    let k := Nat.find hex
    have hk : k < s.length ∧ nth s k ≠ nth t k := Nat.find_spec hex
    have hmin : ∀ j : Int, 0 ≤ j → j < k → nth s j = nth t j := by
      intro j hj0 hj1
      obtain ⟨m, rfl⟩ := Int.eq_ofNat_of_zero_le hj0
      have hm : m < k := by omega
      have := Nat.find_min hex hm
      by_contra hne
      exact this ⟨by omega, hne⟩
    rcases lt_or_gt_of_ne hk.2 with hlt | hgt
    · left
      rw [lex_iff_nth s t h]
      exact ⟨k, by omega, by omega, hmin, hlt⟩
    · right; right
      rw [lex_iff_nth t s h.symm]
      exact ⟨k, by omega, by omega, fun j a b => (hmin j a b).symm, hgt⟩

theorem Cnr_step (n r : Int) (s : List Int) (hv : Valid n r s) (hr : 1 ≤ r)
    (h0 : nth s 0 ≠ n - r) :
    ∃ k s2, Cnr s n r = some (true, s2) ∧ 0 ≤ k ∧ k < r ∧ Valid n r s2 ∧
      (∀ j, k < j → j < r → nth s j = n - r + j) ∧ nth s k < n - r + k ∧
      (∀ j, 0 ≤ j → j < k → nth s2 j = nth s j) ∧
      (∀ j, k ≤ j → j < r → nth s2 j = nth s k + 1 + (j - k)) := by
  rcases Cnr_spec s n r hv.1 hr with ⟨h, _⟩ | ⟨_, k, s2, hC, hk0, hkr, hlen, hceil, hne, hlow, hhigh⟩
  · exact absurd h h0
  · have hlt : nth s k < n - r + k := lt_of_le_of_ne (valid_ceiling hv k hk0 hkr) hne
    refine ⟨k, s2, hC, hk0, hkr, ?_, hceil, hlt, hlow, hhigh⟩
    refine ⟨hlen, ?_, ?_⟩
    · intro i j hi hij hj
      by_cases hjk : j < k
      · rw [hlow i hi (by omega), hlow j (by omega) hjk]
        exact hv.2.1 i j hi hij hj
      · by_cases hik : i < k
        · rw [hlow i hi hik, hhigh j (by omega) hj]
          have := hv.2.1 i k hi hik hkr
          omega
        · rw [hhigh i (by omega) (by omega), hhigh j (by omega) hj]
          omega
    · intro i hi hir
      by_cases hik : i < k
      · rw [hlow i hi hik]; exact hv.2.2 i hi hir
      · rw [hhigh i (by omega) hir]
        have := (hv.2.2 k hk0 hkr).1
        omega

theorem step_lex (r : Int) (s s2 : List Int) (k : Int) (hl : (s.length : Int) = r)
    (hl2 : (s2.length : Int) = r) (hk0 : 0 ≤ k) (hkr : k < r)
    (hlow : ∀ j, 0 ≤ j → j < k → nth s2 j = nth s j)
    (hhigh : ∀ j, k ≤ j → j < r → nth s2 j = nth s k + 1 + (j - k)) : LexLt s s2 := by
  rw [lex_iff_nth s s2 (by omega)]
  refine ⟨k, hk0, by omega, fun j a b => (hlow j a b).symm, ?_⟩
  rw [hhigh k (le_refl _) hkr]; omega

theorem step_least (n r : Int) (s s2 t : List Int) (k : Int) (hv : Valid n r s)
    (hl2 : (s2.length : Int) = r) (hk0 : 0 ≤ k) (hkr : k < r)
    (hceil : ∀ j, k < j → j < r → nth s j = n - r + j)
    (hlow : ∀ j, 0 ≤ j → j < k → nth s2 j = nth s j)
    (hhigh : ∀ j, k ≤ j → j < r → nth s2 j = nth s k + 1 + (j - k))
    (ht : Valid n r t) (hst : LexLt s t) : t = s2 ∨ LexLt s2 t := by
  have hls : (s.length : Int) = r := hv.1
  have hlt : (t.length : Int) = r := ht.1
  rw [lex_iff_nth s t (by omega)] at hst
  obtain ⟨m, hm0, hm1, hpre, hlt1⟩ := hst
  have hmk : m ≤ k := by
    by_contra hc
    have h1 := hceil m (by omega) (by omega)
    have h2 := valid_ceiling ht m hm0 (by omega)
    omega
  rcases lexLt_total (by omega : s2.length = t.length) with h | h | h
  · exact Or.inr h
  · exact Or.inl h.symm
  · exfalso
    rw [lex_iff_nth t s2 (by omega)] at h
    obtain ⟨q, hq0, hq1, hpre2, hlt2⟩ := h
    by_cases hqk : q < k
    · rw [hlow q hq0 hqk] at hlt2
      by_cases hqm : q < m
      · have := hpre q hq0 hqm; omega
      · by_cases hqm2 : q = m
        · subst hqm2; omega
        · have e1 := hpre2 m hm0 (by omega)
          rw [hlow m hm0 (by omega)] at e1
          omega
    · rw [hhigh q (by omega) (by omega)] at hlt2
      by_cases hmk2 : m < k
      · have e1 := hpre2 m hm0 (by omega)
        rw [hlow m hm0 hmk2] at e1
        omega
      · have hmk3 : m = k := by omega
        subst hmk3
        by_cases hqm : q = m
        · subst hqm; omega
        · have e1 := hpre2 m hm0 (by omega)
          rw [hhigh m (le_refl _) hkr] at e1
          have := valid_gap ht m q hm0 (by omega) (by omega)
          omega

theorem nth_lastComb (n r i : Int) (h0 : 0 ≤ i) (h1 : i < r) :
    nth (lastComb n r) i = n - r + i := by
  obtain ⟨k, rfl⟩ := Int.eq_ofNat_of_zero_le h0
  have hk : k < r.toNat := by omega
  have hk2 : k < (lastComb n r).length := by
    unfold lastComb; rw [List.length_map, List.length_range]; exact hk
  rw [nth_natCast _ k hk2]
  unfold lastComb
  rw [List.getElem_map, List.getElem_range]
  rfl

theorem length_lastComb (n r : Int) (h : 0 ≤ r) : ((lastComb n r).length : Int) = r := by
  unfold lastComb; rw [List.length_map, List.length_range]; omega

theorem nth_initState (r i : Int) (h0 : 0 ≤ i) (h1 : i < r) : nth (initState r) i = i := by
  obtain ⟨k, rfl⟩ := Int.eq_ofNat_of_zero_le h0
  have hk : k < r.toNat := by omega
  have hk2 : k < (initState r).length := by
    unfold initState; rw [List.length_map, List.length_range]; exact hk
  rw [nth_natCast _ k hk2]
  unfold initState
  rw [List.getElem_map, List.getElem_range]
  rfl

theorem length_initState (r : Int) (h : 0 ≤ r) : ((initState r).length : Int) = r := by
  unfold initState; rw [List.length_map, List.length_range]; omega

theorem initState_valid (n r : Int) (h0 : 0 ≤ r) (h1 : r ≤ n) : Valid n r (initState r) := by
  refine ⟨length_initState r h0, ?_, ?_⟩
  · intro i j hi hij hj
    rw [nth_initState r i hi (by omega), nth_initState r j (by omega) hj]; exact hij
  · intro i hi hir
    rw [nth_initState r i hi hir]; omega

theorem lastComb_valid (n r : Int) (h0 : 0 ≤ r) (h1 : r ≤ n) : Valid n r (lastComb n r) := by
  refine ⟨length_lastComb n r h0, ?_, ?_⟩
  · intro i j hi hij hj
    rw [nth_lastComb n r i hi (by omega), nth_lastComb n r j (by omega) hj]; omega
  · intro i hi hir
    rw [nth_lastComb n r i hi hir]; omega

theorem valid_first_eq_iff (n r : Int) (s : List Int) (hv : Valid n r s) (hr : 1 ≤ r) :
    nth s 0 = n - r ↔ s = lastComb n r := by
  constructor
  · intro h
    have hl := length_lastComb n r (by omega)
    apply ext_nth (by have := hv.1; omega)
    intro i hi0 hi1
    have hir : i < r := by have := hv.1; omega
    rw [nth_lastComb n r i hi0 hir]
    have h1 := valid_gap hv 0 i (le_refl _) hi0 hir
    have h2 := valid_ceiling hv i hi0 hir
    omega
  · intro h
    rw [h, nth_lastComb n r 0 (le_refl _) (by omega)]; ring

theorem lastComb_max (n r : Int) (t : List Int) (ht : Valid n r t) (hr : 0 ≤ r) :
    ¬ LexLt (lastComb n r) t := by
  have hl := length_lastComb n r hr
  rw [lex_iff_nth _ _ (by have := ht.1; omega)]
  rintro ⟨k, hk0, hk1, _, hlt⟩
  rw [nth_lastComb n r k hk0 (by omega)] at hlt
  have := valid_ceiling ht k hk0 (by omega)
  omega

theorem initState_min (n r : Int) (t : List Int) (ht : Valid n r t) (hr : 0 ≤ r) :
    ¬ LexLt t (initState r) := by
  have hl := length_initState r hr
  rw [lex_iff_nth _ _ (by have := ht.1; omega)]
  rintro ⟨k, hk0, hk1, _, hlt⟩
  have hkr : k < r := by have := ht.1; omega
  rw [nth_initState r k hk0 hkr] at hlt
  have := valid_floor ht k hk0 hkr
  omega

theorem mem_allCombs (n r : Nat) (t : List Int) : t ∈ allCombs n r ↔ IsComb n r t := by
  unfold allCombs IsComb
  rw [List.mem_map]
  constructor
  · rintro ⟨l, hl, rfl⟩
    rw [List.mem_sublistsLen] at hl
    obtain ⟨hsub, hlen⟩ := hl
    refine ⟨by simp [hlen], ?_, ?_⟩
    · have hs : l.Sorted (· < ·) := (List.sorted_lt_range n).sublist hsub
      unfold List.Sorted at hs ⊢
      rw [List.pairwise_map]
      exact hs.imp (fun h => by exact Int.ofNat_lt.2 h)
    · intro x hx
      rw [List.mem_map] at hx
      obtain ⟨y, hy, rfl⟩ := hx
      have := List.mem_range.1 (hsub.subset hy)
      constructor
      · exact Int.ofNat_zero_le y
      · have : (y : Int) < n := Int.ofNat_lt.2 this
        show (y : Int) ≤ (n : Int) - 1
        omega
  · rintro ⟨hl, hs, hb⟩
    refine ⟨t.map Int.toNat, ?_, ?_⟩
    · rw [List.mem_sublistsLen]
      constructor
      · have hs2 : (t.map Int.toNat).Sorted (· < ·) := by
          unfold List.Sorted at hs ⊢
          rw [List.pairwise_map]
          refine List.Pairwise.imp_of_mem ?_ hs
          intro a b ha hb2 hab
          have := (hb a ha).1
          omega
        have hnd : (t.map Int.toNat).Nodup := hs2.nodup
        have hsub : t.map Int.toNat ⊆ List.range n := by
          intro x hx
          rw [List.mem_map] at hx
          obtain ⟨y, hy, rfl⟩ := hx
          rw [List.mem_range]
          have := hb y hy
          omega
        exact List.sublist_of_subperm_of_sorted (List.subperm_of_subset hnd hsub) hs2
          (List.sorted_lt_range n)
      · rw [List.length_map]; omega
    · rw [List.map_map]
      conv_rhs => rw [← List.map_id t]
      apply List.map_congr_left
      intro a ha
      have := (hb a ha).1
      simp only [Function.comp_apply, id_eq]
      exact Int.toNat_of_nonneg this

theorem nodup_allCombs (n r : Nat) : (allCombs n r).Nodup := by
  unfold allCombs
  apply List.Nodup.map
  · intro a b hab
    have := congrArg (List.map Int.toNat) hab
    simpa [List.map_map, Function.comp_def] using this
  · exact List.nodup_sublistsLen r (List.nodup_range n)

theorem length_allCombs (n r : Nat) : (allCombs n r).length = Nat.choose n r := by
  unfold allCombs
  rw [List.length_map, List.length_sublistsLen, List.length_range]

/-- A list with no repetition whose members are exactly the strictly increasing
`r`-sequences over `[0, n-1]` has `C(n, r)` entries. -/
theorem length_eq_choose (n r : Nat) (L : List (List Int)) (hnd : L.Nodup)
    (hmem : ∀ t, t ∈ L ↔ IsComb n r t) : L.length = Nat.choose n r := by
  rw [← length_allCombs]
  apply List.Perm.length_eq
  rw [List.perm_ext_iff_of_nodup hnd (nodup_allCombs n r)]
  intro t
  rw [hmem, mem_allCombs]

/-- The printing loop started in a valid state `s`: with fuel above the number of
combinations beyond `s` it ends, and prints `s` followed by all combinations greater than
`s`, in increasing order. -/
theorem run_spec (n r : Nat) (hr : 1 ≤ r) :
    ∀ (m : Nat) (s : List Int), Valid n r s →
      ((allCombs n r).toFinset.filter (fun t => LexLt s t)).card ≤ m →
      ∀ fuel : Nat, m + 1 ≤ fuel →
        ∃ L, run n r fuel s = some L ∧ L.head? = some s ∧ L.Sorted LexLt ∧
          (∀ t, t ∈ L ↔ (Valid n r t ∧ (t = s ∨ LexLt s t))) := by
  intro m
  induction m with
  | zero =>
    intro s hv hcard fuel hfuel
    obtain ⟨f, rfl⟩ : ∃ f, fuel = f + 1 := ⟨fuel - 1, by omega⟩
    have hempty : ∀ t, Valid n r t → ¬ LexLt s t := by
      intro t ht hlt
      have hmem : t ∈ (allCombs n r).toFinset.filter (fun t => LexLt s t) := by
        rw [Finset.mem_filter, List.mem_toFinset, mem_allCombs, isComb_iff_valid]
        exact ⟨ht, hlt⟩
      have := Finset.card_pos.2 ⟨t, hmem⟩
      omega
    rcases Cnr_spec s n r hv.1 (by omega) with ⟨_, hC⟩ | ⟨h0, _⟩
    · refine ⟨[s], by simp [run, hC], rfl, List.sorted_singleton _, ?_⟩
      intro t
      rw [List.mem_singleton]
      constructor
      · rintro rfl; exact ⟨hv, Or.inl rfl⟩
      · rintro ⟨ht, h | h⟩
        · exact h
        · exact absurd h (hempty t ht)
    · exfalso
      obtain ⟨k, s2, _, hk0, hkr, hv2, _, _, hlow, hhigh⟩ := Cnr_step n r s hv (by omega) h0
      exact hempty s2 hv2 (step_lex r s s2 k hv.1 hv2.1 hk0 hkr hlow hhigh)
  | succ m ih =>
    intro s hv hcard fuel hfuel
    obtain ⟨f, rfl⟩ : ∃ f, fuel = f + 1 := ⟨fuel - 1, by omega⟩
    rcases Cnr_spec s n r hv.1 (by omega) with ⟨h0, hC⟩ | ⟨h0, _⟩
    · have hlast : s = lastComb n r := (valid_first_eq_iff n r s hv (by omega)).1 h0
      refine ⟨[s], by simp [run, hC], rfl, List.sorted_singleton _, ?_⟩
      intro t
      rw [List.mem_singleton]
      constructor
      · rintro rfl; exact ⟨hv, Or.inl rfl⟩
      · rintro ⟨ht, h | h⟩
        · exact h
        · rw [hlast] at h
          exact absurd h (lastComb_max n r t ht (by omega))
    · obtain ⟨k, s2, hC, hk0, hkr, hv2, hceil, _, hlow, hhigh⟩ :=
        Cnr_step n r s hv (by omega) h0
      have hlt : LexLt s s2 := step_lex r s s2 k hv.1 hv2.1 hk0 hkr hlow hhigh
      have hleast : ∀ t, Valid n r t → LexLt s t → t = s2 ∨ LexLt s2 t :=
        fun t ht hst => step_least n r s s2 t k hv hv2.1 hk0 hkr hceil hlow hhigh ht hst
      have hup : ∀ t, Valid n r t → (t = s2 ∨ LexLt s2 t) → LexLt s t := by
        intro t ht h
        rcases h with rfl | h
        · exact hlt
        · exact lexLt_trans (by have := hv.1; have := hv2.1; omega)
            (by have := ht.1; have := hv2.1; omega) hlt h
      have hcard2 : ((allCombs n r).toFinset.filter (fun t => LexLt s2 t)).card ≤ m := by
        have hss : (allCombs n r).toFinset.filter (fun t => LexLt s2 t) ⊂
            (allCombs n r).toFinset.filter (fun t => LexLt s t) := by
          rw [Finset.ssubset_iff_of_subset]
          · refine ⟨s2, ?_, ?_⟩
            · rw [Finset.mem_filter, List.mem_toFinset, mem_allCombs, isComb_iff_valid]
              exact ⟨hv2, hlt⟩
            · rw [Finset.mem_filter]
              rintro ⟨_, h⟩
              exact lexLt_irrefl s2 h
          · intro t ht
            rw [Finset.mem_filter, List.mem_toFinset, mem_allCombs, isComb_iff_valid] at ht ⊢
            exact ⟨ht.1, hup t ht.1 (Or.inr ht.2)⟩
        have := Finset.card_lt_card hss
        omega
      obtain ⟨L, hrun, hhead, hsorted, hmem⟩ := ih s2 hv2 hcard2 f (by omega)
      refine ⟨s :: L, by simp [run, hC, hrun], rfl, ?_, ?_⟩
      · apply List.Pairwise.cons _ hsorted
        intro t ht
        have := (hmem t).1 ht
        exact hup t this.1 this.2
      · intro t
        rw [List.mem_cons, hmem]
        constructor
        · rintro (rfl | ⟨ht, h⟩)
          · exact ⟨hv, Or.inl rfl⟩
          · exact ⟨ht, Or.inr (hup t ht h)⟩
        · rintro ⟨ht, rfl | h⟩
          · exact Or.inl rfl
          · exact Or.inr ⟨ht, hleast t ht h⟩

theorem sorted_lex_nodup (L : List (List Int)) (h : L.Sorted LexLt) : L.Nodup := by
  unfold List.Sorted at h
  exact h.imp (fun {a b} hab heq => by subst heq; exact lexLt_irrefl a hab)

/-- The whole run of the enumerator for `1 <= r <= n`. -/
theorem main_spec (n r : Nat) (hr : 1 ≤ r) (hrn : r ≤ n) (fuel : Nat)
    (hfuel : Nat.choose n r ≤ fuel) :
    ∃ L, main fuel n r = some L ∧ L.head? = some (initState r) ∧ L.Sorted LexLt ∧
      (∀ t, t ∈ L ↔ IsComb n r t) ∧ L.length = Nat.choose n r := by
  have hv0 : Valid n r (initState r) := initState_valid n r (by omega) (by omega)
  have hcard : ((allCombs n r).toFinset.filter (fun t => LexLt (initState r) t)).card ≤
      Nat.choose n r - 1 := by
    have hss : (allCombs n r).toFinset.filter (fun t => LexLt (initState r) t) ⊆
        (allCombs n r).toFinset.erase (initState r) := by
      intro t ht
      rw [Finset.mem_filter] at ht
      rw [Finset.mem_erase]
      refine ⟨?_, ht.1⟩
      rintro rfl
      exact lexLt_irrefl _ ht.2
    have h1 := Finset.card_le_card hss
    have hmem0 : initState r ∈ (allCombs n r).toFinset := by
      rw [List.mem_toFinset, mem_allCombs, isComb_iff_valid]; exact hv0
    rw [Finset.card_erase_of_mem hmem0, List.toFinset_card_of_nodup (nodup_allCombs n r),
      length_allCombs] at h1
    exact h1
  have hpos : 0 < Nat.choose n r := Nat.choose_pos hrn
  obtain ⟨L, hrun, hhead, hsorted, hmem⟩ :=
    run_spec n r hr (Nat.choose n r - 1) (initState r) hv0 hcard fuel (by omega)
  have hmem2 : ∀ t, t ∈ L ↔ IsComb n r t := by
    intro t
    rw [hmem, isComb_iff_valid]
    constructor
    · exact fun h => h.1
    · intro ht
      refine ⟨ht, ?_⟩
      have hlen : (initState r).length = t.length := by
        have := hv0.1; have := ht.1; omega
      rcases lexLt_total hlen with h | h | h
      · exact Or.inr h
      · exact Or.inl h.symm
      · exact absurd h (initState_min n r t ht (by omega))
  refine ⟨L, ?_, hhead, hsorted, hmem2, length_eq_choose n r L (sorted_lex_nodup L hsorted) hmem2⟩
  have hnr : ¬ ((n : Int) < (r : Int)) := by omega
  simp only [main, hnr, if_false]
  exact hrun

theorem run_valid (n r : Int) (hr : 1 ≤ r) :
    ∀ (fuel : Nat) (s : List Int) (L : List (List Int)), Valid n r s →
      run n r fuel s = some L → ∀ t ∈ L, Valid n r t := by
  intro fuel
  induction fuel with
  | zero => intro s L _ h; simp [run] at h
  | succ f ih =>
    intro s L hv h t ht
    rcases Cnr_spec s n r hv.1 hr with ⟨_, hC⟩ | ⟨h0, _⟩
    · simp only [run, hC, Option.some.injEq] at h
      subst h
      rw [List.mem_singleton] at ht
      subst ht; exact hv
    · obtain ⟨k, s2, hC, _, _, hv2, _⟩ := Cnr_step n r s hv hr h0
      simp only [run, hC, Option.map_eq_some'] at h
      obtain ⟨L2, hL2, rfl⟩ := h
      rcases List.mem_cons.1 ht with rfl | ht2
      · exact hv
      · exact ih s2 L2 hv2 hL2 t ht2

/-- C1: for `1 <= r <= n` the run of the enumerator (initial state `(0,1,...,r-1)`, then
`Cnr` until it returns `FALSE`) terminates, with any fuel of at least `C(n,r)` passes, and
the list of states it emits starts with the initial state, is strictly ascending in
lexicographic order, contains exactly the strictly increasing `r`-sequences over
`[0, n-1]`, and has `C(n,r)` entries. -/
theorem enumerator_run_complete (n r : Nat) (hr : 1 ≤ r) (hrn : r ≤ n) (fuel : Nat)
    (hfuel : Nat.choose n r ≤ fuel) :
    ∃ L, main fuel n r = some L ∧ L.head? = some (initState r) ∧ L.Sorted LexLt ∧
      (∀ t, t ∈ L ↔ IsComb n r t) ∧ L.Nodup ∧ L.length = Nat.choose n r := by
  obtain ⟨L, h1, h2, h3, h4, h5⟩ := main_spec n r hr hrn fuel hfuel
  exact ⟨L, h1, h2, h3, h4, sorted_lex_nodup L h3, h5⟩

theorem enumerator_run_complete_witness :
    main 10 5 2 = some [[0, 1], [0, 2], [0, 3], [0, 4], [1, 2], [1, 3], [1, 4], [2, 3],
      [2, 4], [3, 4]] ∧
    ∃ L, main 10 (5 : Nat) (2 : Nat) = some L ∧ L.head? = some (initState (2 : Nat)) ∧
      L.Sorted LexLt ∧ (∀ t, t ∈ L ↔ IsComb (5 : Nat) (2 : Nat) t) ∧ L.Nodup ∧
      L.length = Nat.choose 5 2 :=
  ⟨by decide, enumerator_run_complete 5 2 (by decide) (by decide) 10 (by decide)⟩

/-- C8: for `1 <= r` and a strictly increasing `r`-sequence `s` over `[0, n-1]` (so
`r <= n`) with `s[0] != n-r`, `Cnr(s, n, r)` returns `TRUE` and leaves in `s` the
lexicographically least strictly increasing `r`-sequence over `[0, n-1]` that is greater
than the input; it is obtained by incrementing the rightmost position `i` whose value is
below its ceiling `n-r+i` and setting each position to its right to one more than its left
neighbour. -/
theorem Cnr_next_combination (n r : Int) (s : List Int) (hr : 1 ≤ r) (hs : IsComb n r s)
    (h0 : nth s 0 ≠ n - r) :
    ∃ s2, Cnr s n r = some (true, s2) ∧ IsComb n r s2 ∧ LexLt s s2 ∧
      (∀ t, IsComb n r t → LexLt s t → t = s2 ∨ LexLt s2 t) ∧
      ∃ i, 0 ≤ i ∧ i < r ∧ nth s i < n - r + i ∧
        (∀ j, i < j → j < r → ¬ nth s j < n - r + j) ∧
        (∀ j, 0 ≤ j → j < i → nth s2 j = nth s j) ∧
        nth s2 i = nth s i + 1 ∧
        (∀ j, i < j → j < r → nth s2 j = nth s2 (j - 1) + 1) := by
  rw [isComb_iff_valid] at hs
  obtain ⟨k, s2, hC, hk0, hkr, hv2, hceil, hlt, hlow, hhigh⟩ := Cnr_step n r s hs hr h0
  refine ⟨s2, hC, (isComb_iff_valid n r s2).2 hv2,
    step_lex r s s2 k hs.1 hv2.1 hk0 hkr hlow hhigh, ?_, k, hk0, hkr, hlt, ?_, hlow, ?_, ?_⟩
  · intro t ht hst
    rw [isComb_iff_valid] at ht
    exact step_least n r s s2 t k hs hv2.1 hk0 hkr hceil hlow hhigh ht hst
  · intro j hj0 hj1
    rw [hceil j hj0 hj1]; omega
  · rw [hhigh k (le_refl _) hkr]; ring
  · intro j hj0 hj1
    rw [hhigh j (by omega) hj1, hhigh (j - 1) (by omega) (by omega)]; ring

theorem Cnr_next_combination_witness :
    ∃ s2, Cnr [0, 3, 4] 5 3 = some (true, s2) ∧ IsComb 5 3 s2 ∧ LexLt [0, 3, 4] s2 ∧
      (∀ t, IsComb 5 3 t → LexLt [0, 3, 4] t → t = s2 ∨ LexLt s2 t) ∧
      ∃ i, 0 ≤ i ∧ i < (3 : Int) ∧ nth [0, 3, 4] i < 5 - 3 + i ∧
        (∀ j, i < j → j < 3 → ¬ nth [0, 3, 4] j < 5 - 3 + j) ∧
        (∀ j, 0 ≤ j → j < i → nth s2 j = nth [0, 3, 4] j) ∧
        nth s2 i = nth [0, 3, 4] i + 1 ∧
        (∀ j, i < j → j < 3 → nth s2 j = nth s2 (j - 1) + 1) :=
  Cnr_next_combination 5 3 [0, 3, 4] (by decide) (by decide) (by decide)

/-- C9: for `1 <= r` and a strictly increasing `r`-sequence `s` over `[0, n-1]`,
`Cnr(s, n, r)` returns, it returns `FALSE` exactly when `s[0] = n-r`, that is exactly when
`s` is the last combination `(n-r, n-r+1, ..., n-1)`, and when it returns `FALSE` the
state is unchanged. -/
theorem Cnr_false_iff_last (n r : Int) (s : List Int) (hr : 1 ≤ r) (hs : IsComb n r s) :
    (∃ b s2, Cnr s n r = some (b, s2) ∧ (b = false ↔ nth s 0 = n - r) ∧
      (b = false → s2 = s)) ∧
    (nth s 0 = n - r ↔ s = lastComb n r) := by
  rw [isComb_iff_valid] at hs
  refine ⟨?_, valid_first_eq_iff n r s hs hr⟩
  rcases Cnr_spec s n r hs.1 hr with ⟨h, hC⟩ | ⟨h, k, s2, hC, _⟩
  · exact ⟨false, s, hC, by simp [h], fun _ => rfl⟩
  · exact ⟨true, s2, hC, by simp [h], by simp⟩

theorem Cnr_false_iff_last_witness :
    (∃ b s2, Cnr [2, 3, 4] 5 3 = some (b, s2) ∧ (b = false ↔ nth [2, 3, 4] 0 = 5 - 3) ∧
      (b = false → s2 = [2, 3, 4])) ∧
    (nth [2, 3, 4] 0 = 5 - 3 ↔ [2, 3, 4] = lastComb 5 3) :=
  Cnr_false_iff_last 5 3 [2, 3, 4] (by decide) (by decide)

/-- C10: for `1 <= r <= n` the state predicate (adjacent entries increase, first entry
at least 0, last entry at most `n-1`) holds for the initial state `(0,1,...,r-1)`, every
call of `Cnr` on a state satisfying it returns and leaves a state satisfying it, whether
the call returns `TRUE` or `FALSE`, and so it holds for every state the run emits. -/
theorem stateInv_initial_and_preserved (n r : Nat) (hr : 1 ≤ r) (hrn : r ≤ n) :
    StateInv n r (initState r) ∧
    (∀ s, StateInv n r s → ∃ b s2, Cnr s n r = some (b, s2) ∧ StateInv n r s2) ∧
    (∀ fuel L, run n r fuel (initState r) = some L → ∀ t ∈ L, StateInv n r t) ∧
    (∃ fuel L, run n r fuel (initState r) = some L) := by
  have hv0 : Valid n r (initState r) := initState_valid n r (by omega) (by omega)
  refine ⟨(stateInv_iff_valid n r _).2 hv0, ?_, ?_, ?_⟩
  · intro s hs
    rw [stateInv_iff_valid] at hs
    rcases Cnr_spec s n r hs.1 (by omega) with ⟨_, hC⟩ | ⟨h0, _⟩
    · exact ⟨false, s, hC, (stateInv_iff_valid n r s).2 hs⟩
    · obtain ⟨k, s2, hC, _, _, hv2, _⟩ := Cnr_step n r s hs (by omega) h0
      exact ⟨true, s2, hC, (stateInv_iff_valid n r s2).2 hv2⟩
  · intro fuel L hL t ht
    exact (stateInv_iff_valid n r t).2 (run_valid n r (by omega) fuel _ L hv0 hL t ht)
  · obtain ⟨L, hL, _⟩ := main_spec n r hr hrn (Nat.choose n r) (le_refl _)
    have hnr : ¬ ((n : Int) < (r : Int)) := by omega
    simp only [main, hnr, if_false] at hL
    exact ⟨_, L, hL⟩

theorem stateInv_initial_and_preserved_witness :
    StateInv (5 : Nat) (2 : Nat) (initState (2 : Nat)) ∧
    (∀ s, StateInv (5 : Nat) (2 : Nat) s →
      ∃ b s2, Cnr s (5 : Nat) (2 : Nat) = some (b, s2) ∧ StateInv (5 : Nat) (2 : Nat) s2) ∧
    (∀ fuel L, run (5 : Nat) (2 : Nat) fuel (initState (2 : Nat)) = some L →
      ∀ t ∈ L, StateInv (5 : Nat) (2 : Nat) t) ∧
    (∃ fuel L, run (5 : Nat) (2 : Nat) fuel (initState (2 : Nat)) = some L) :=
  stateInv_initial_and_preserved 5 2 (by decide) (by decide)

theorem valuePieces_cons (x : Int) (rest : List Int) :
    valuePieces (x :: rest) =
      Piece.field 3 (x + 1) :: Piece.lit (if rest.length = 0 then "." else ", ") ::
        valuePieces rest := by
  cases rest with
  | nil => simp [valuePieces]
  | cons y ys => simp [valuePieces]

theorem printValues_spec (s : List Int) (r : Int) (hl : (s.length : Int) = r) (fuel : Nat) :
    ∀ i : Int, 0 ≤ i → i ≤ r → r - i < fuel →
      printValues s r fuel i = some (valuePieces (s.drop i.toNat)) := by
  induction fuel with
  | zero => intro i _ _ hf; exfalso; simp at hf; omega
  | succ fuel ih =>
    intro i h0 hir hf
    rw [printValues]
    by_cases hc : i < r
    · have hlt : i.toNat < s.length := by omega
      have hrd : rd s i = some (nth s i) := rd_eq h0 (by omega)
      have hih := ih (i + 1) (by omega) (by omega) (by push_cast at hf; omega)
      have e1 : (i + 1).toNat = i.toNat + 1 := by omega
      rw [e1] at hih
      simp only [hc, if_true, hrd, hih, Option.map_some']
      rw [List.drop_eq_getElem_cons hlt, valuePieces_cons, nth_toNat s i h0 hlt]
      have hlen : (s.drop (i.toNat + 1)).length = s.length - (i.toNat + 1) := List.length_drop _ _
      by_cases hlast : i < r - 1
      · have : ¬ (s.drop (i.toNat + 1)).length = 0 := by rw [hlen]; omega
        simp only [hlast, this, if_true, if_false]
      · have : (s.drop (i.toNat + 1)).length = 0 := by rw [hlen]; omega
        simp only [hlast, this, if_true, if_false]
    · have hi : i = r := by omega
      have hd : s.drop i.toNat = [] := List.drop_eq_nil_of_le (by omega)
      simp only [hc, if_false, hd, valuePieces]

theorem run_length_pos (n r : Int) (fuel : Nat) (s : List Int) (L : List (List Int))
    (h : run n r fuel s = some L) : 1 ≤ L.length := by
  cases fuel with
  | zero => simp [run] at h
  | succ f =>
    rw [run] at h
    split at h
    · cases h
    · cases h; simp
    · simp only [Option.map_eq_some'] at h
      obtain ⟨l, _, rfl⟩ := h
      simp

/-- The printing loop writes, for the states the loop emits, their records numbered from
`line` on, as long as the `int` counter `line` does not pass the largest `int`. -/
theorem runText_of_run (n r : Int) (hr : 1 ≤ r) (fuel : Nat) :
    ∀ (line : Int) (s : List Int) (L : List (List Int)), (s.length : Int) = r →
      run n r fuel s = some L → -2147483648 ≤ line → line + L.length ≤ 2147483648 →
      runText n r fuel line s = some (recordsFrom line L) := by
  induction fuel with
  | zero => intro line s L _ h; simp [run] at h
  | succ fuel ih =>
    intro line s L hl hrun hlo hhi
    have hpv : printValues s r (r.toNat + 1) 0 = some (valuePieces s) := by
      have := printValues_spec s r hl (r.toNat + 1) 0 (le_refl _) (by omega)
        (by push_cast; omega)
      simpa using this
    rcases Cnr_spec s n r hl hr with ⟨_, hC⟩ | ⟨_, k, s2, hC, _, _, hl2, _⟩
    · simp only [run, hC, Option.some.injEq] at hrun
      subst hrun
      simp only [runText, hpv, hC, recordsFrom, recordOf, List.append_nil]
    · simp only [run, hC, Option.map_eq_some'] at hrun
      obtain ⟨L2, hL2, rfl⟩ := hrun
      have hpos := run_length_pos n r fuel s2 L2 hL2
      simp only [List.length_cons] at hhi
      push_cast at hhi
      have hw : wrap (line + 1) = line + 1 := wrap_eq (by omega) (by omega)
      have := ih (line + 1) s2 L2 hl2 hL2 (by omega) (by omega)
      simp only [runText, hpv, hC, hw, this, Option.map_some', recordsFrom, recordOf]

theorem noNewline_valuePieces : ∀ s : List Int, ∀ p ∈ valuePieces s, p.NoNewline
  | [], p, hp => by simp [valuePieces] at hp
  | [x], p, hp => by
    simp only [valuePieces, List.mem_cons, List.mem_singleton, List.not_mem_nil,
      or_false] at hp
    rcases hp with rfl | rfl
    · trivial
    · decide
  | x :: y :: rest, p, hp => by
    simp only [valuePieces, List.mem_cons] at hp
    rcases hp with rfl | rfl | hp
    · trivial
    · decide
    · exact noNewline_valuePieces (y :: rest) p hp

theorem noNewline_recordsFrom : ∀ (L : List (List Int)) (k : Int),
    ∀ p ∈ recordsFrom k L, p.NoNewline
  | [], k, p, hp => by simp [recordsFrom] at hp
  | s :: rest, k, p, hp => by
    simp only [recordsFrom, recordOf, List.cons_append, List.mem_cons, List.mem_append,
      List.mem_singleton, List.not_mem_nil, or_false] at hp
    rcases hp with rfl | rfl | (hp | rfl) | hp
    · trivial
    · decide
    · exact noNewline_valuePieces s p hp
    · decide
    · exact noNewline_recordsFrom rest (k + 1) p hp

theorem initState_natCast (r : Nat) : initState (r : Int) = (List.range r).map Int.ofNat := by
  simp [initState]

theorem field_mem_valuePieces : ∀ (s : List Int) (w : Nat) (x : Int),
    Piece.field w x ∈ valuePieces s → ∃ y ∈ s, x = y + 1
  | [], w, x, hp => by simp [valuePieces] at hp
  | [a], w, x, hp => by
    simp only [valuePieces, List.mem_cons, List.mem_singleton, List.not_mem_nil,
      or_false] at hp
    rcases hp with h | h
    · cases h; exact ⟨a, by simp, rfl⟩
    · cases h
  | a :: b :: rest, w, x, hp => by
    simp only [valuePieces, List.mem_cons] at hp
    rcases hp with h | h | h
    · cases h; exact ⟨a, by simp, rfl⟩
    · cases h
    · obtain ⟨y, hy, rfl⟩ := field_mem_valuePieces (b :: rest) w x h
      exact ⟨y, List.mem_cons_of_mem _ hy, rfl⟩

theorem field_mem_recordsFrom : ∀ (L : List (List Int)) (k : Int) (w : Nat) (x : Int),
    Piece.field w x ∈ recordsFrom k L →
      (k ≤ x ∧ x < k + L.length) ∨ ∃ s ∈ L, ∃ y ∈ s, x = y + 1
  | [], k, w, x, hp => by simp [recordsFrom] at hp
  | s :: rest, k, w, x, hp => by
    simp only [recordsFrom, recordOf, List.cons_append, List.mem_cons, List.mem_append,
      List.mem_singleton, List.not_mem_nil, or_false] at hp
    rcases hp with h | h | (h | h) | h
    · cases h
      left
      simp only [List.length_cons]
      push_cast
      omega
    · cases h
    · obtain ⟨y, hy, rfl⟩ := field_mem_valuePieces s w x h
      exact Or.inr ⟨s, by simp, y, hy, rfl⟩
    · cases h
    · rcases field_mem_recordsFrom rest (k + 1) w x h with h1 | ⟨s2, hs2, y, hy, rfl⟩
      · left
        simp only [List.length_cons]
        push_cast
        omega
      · exact Or.inr ⟨s2, List.mem_cons_of_mem _ hs2, y, hy, rfl⟩

/-- The swap of `main`: called with the smaller argument first, the enumerator is the
same run, states and text, as called with the larger argument first. -/
theorem swap_same_run (n r : Int) (hrn : r < n) (fuel : Nat) :
    main fuel r n = main fuel n r ∧ mainText fuel r n = mainText fuel n r := by
  have h2 : ¬ (n < r) := by omega
  constructor
  · simp only [main, hrn, h2, if_true, if_false]
  · simp only [mainText, hrn, h2, if_true, if_false]

/-- C11 fails on the code at `r = 0`: called with `(n, 0)` or with `(0, n)` the
enumerator sets up an empty buffer (after the swap in the second case) and its first call
of `Cnr` reads `s[0]`, outside the buffer; neither run is defined, so neither enumerates
the 0-combinations of an `n`-set. It is the defect of C12. For `1 <= r < n` the claim
holds: the two calls are the same run, and with enough fuel that run enumerates the
`r`-combinations of an `n`-set. -/
theorem swapped_runs_undefined_at_zero (n : Nat) (fuel : Nat) :
    (rd (initState 0) 0 = none ∧ Cnr (initState 0) n 0 = none ∧
      main fuel n 0 = none ∧ main fuel 0 n = none ∧
      mainText fuel n 0 = none ∧ mainText fuel 0 n = none) ∧
    (∀ r : Nat, 1 ≤ r → r < n →
      main fuel r n = main fuel n r ∧ mainText fuel r n = mainText fuel n r ∧
      (Nat.choose n r ≤ fuel →
        ∃ L, main fuel r n = some L ∧ main fuel n r = some L ∧
          (∀ t, t ∈ L ↔ IsComb n r t))) := by
  have hr : rd (initState 0) 0 = none := rfl
  have hC : Cnr (initState 0) n 0 = none := by simp [Cnr, hr]
  have hn : ¬ ((n : Int) < 0) := by omega
  have hm : main fuel n 0 = none := by
    cases fuel with
    | zero => simp [main, run, hn]
    | succ f => simp only [main, hn, if_false, run, hC]
  have ht : mainText fuel n 0 = none := by
    cases fuel with
    | zero => simp [mainText, runText, hn]
    | succ f =>
      simp only [mainText, hn, if_false, runText, hC]
      split <;> rfl
  refine ⟨⟨hr, hC, hm, ?_, ht, ?_⟩, ?_⟩
  · rcases Nat.eq_zero_or_pos n with h0 | hpos
    · subst h0; exact hm
    · rw [(swap_same_run n 0 (by exact_mod_cast hpos) fuel).1]; exact hm
  · rcases Nat.eq_zero_or_pos n with h0 | hpos
    · subst h0; exact ht
    · rw [(swap_same_run n 0 (by exact_mod_cast hpos) fuel).2]; exact ht
  · intro r hr1 hrn
    obtain ⟨e1, e2⟩ := swap_same_run n r (by exact_mod_cast hrn) fuel
    refine ⟨e1, e2, ?_⟩
    intro hfuel
    obtain ⟨L, hL, _, _, hmem, _⟩ := main_spec n r hr1 (by omega) fuel hfuel
    exact ⟨L, by rw [e1]; exact hL, hL, hmem⟩

/-- C12 fails on the code: with `r = 0` the buffer is empty, the value loop of the first
record reads nothing, and then the first call of `Cnr` reads `s[0]`, outside the buffer;
no run of the enumerator with `r = 0` is defined. -/
theorem empty_buffer_read_outside (n : Nat) :
    initState 0 = [] ∧ printValues (initState 0) 0 1 0 = some [] ∧
    rd (initState 0) 0 = none ∧ Cnr (initState 0) n 0 = none ∧
    ∀ fuel, main fuel n 0 = none ∧ mainText fuel n 0 = none := by
  have hr : rd (initState 0) 0 = none := rfl
  have hC : Cnr (initState 0) n 0 = none := by simp [Cnr, hr]
  have hn : ¬ ((n : Int) < 0) := by omega
  refine ⟨rfl, rfl, hr, hC, ?_⟩
  intro fuel
  cases fuel with
  | zero => simp [main, mainText, run, runText, hn]
  | succ f =>
    constructor
    · simp only [main, hn, if_false, run, hC]
    · simp only [mainText, hn, if_false, runText, hC]
      split <;> rfl

/-- C13: for `n >= 1` the enumerator run with `r = n` emits exactly one combination, the
full set `(0, 1, ..., n-1)`, printed as record 1, because the first call of `Cnr` on the
initial state returns `FALSE` (and leaves the state alone). -/
theorem full_set_emitted_once (n : Nat) (hn : 1 ≤ n) (fuel : Nat) (hfuel : 1 ≤ fuel) :
    initState n = (List.range n).map Int.ofNat ∧
    Cnr (initState n) n n = some (false, initState n) ∧
    main fuel n n = some [initState n] ∧
    mainText fuel n n = some (recordOf 1 (initState n)) := by
  have hl : ((initState n).length : Int) = n := length_initState n (by omega)
  have h0 : nth (initState (n : Int)) 0 = (n : Int) - n := by
    rw [nth_initState n 0 (le_refl _) (by omega)]; ring
  have hC : Cnr (initState n) n n = some (false, initState n) := by
    rcases Cnr_spec (initState n) n n hl (by omega) with ⟨_, hC⟩ | ⟨hne, _⟩
    · exact hC
    · exact absurd h0 hne
  obtain ⟨f, rfl⟩ : ∃ f, fuel = f + 1 := ⟨fuel - 1, by omega⟩
  have hrun : run n n (f + 1) (initState n) = some [initState n] := by
    simp only [run, hC]
  have hnn : ¬ ((n : Int) < (n : Int)) := lt_irrefl _
  refine ⟨initState_natCast n, hC, ?_, ?_⟩
  · simp only [main, hnn, if_false, hrun]
  · simp only [mainText, hnn, if_false]
    have hb : (1 : Int) + (([initState (n : Int)].length : Nat) : Int) ≤ 2147483648 := by
      simp
    rw [runText_of_run n n (by omega) (f + 1) 1 (initState n) [initState n] hl hrun
      (by omega) hb]
    simp [recordsFrom]

theorem full_set_emitted_once_witness :
    initState (3 : Nat) = (List.range 3).map Int.ofNat ∧
    Cnr (initState (3 : Nat)) (3 : Nat) (3 : Nat) = some (false, initState (3 : Nat)) ∧
    main 1 (3 : Nat) (3 : Nat) = some [initState (3 : Nat)] ∧
    mainText 1 (3 : Nat) (3 : Nat) = some (recordOf 1 (initState (3 : Nat))) :=
  full_set_emitted_once 3 (by decide) 1 (by decide)

/-- C17 as stated fails. For `n = 2`, `r = 1` the program writes the two records one
after the other with a blank between them and no newline character, so a record is not a
line of its own. And the counter is an `int`: the record that follows record 2147483647
is numbered -2147483648 (shown on the loop started with that counter), which `n = 34`,
`r = 17`, with its 2333606220 combinations, reaches. -/
theorem records_share_a_line_counterexample :
    (mainText 2 2 1).map renderAll = some "   1)     1.    2)     2. " ∧
    Char.ofNat 10 ∉ ("   1)     1.    2)     2. ").toList ∧
    (runText 2 1 2 2147483647 [0]).map renderAll =
      some "2147483647)     1. -2147483648)     2. " ∧
    Nat.choose 34 17 = 2333606220 := by
  refine ⟨by decide, by decide, by decide, ?_⟩
  rw [Nat.choose_eq_factorial_div_factorial (by decide)]
  rfl

/-- C17, amended: for `1 <= r <= n <= 2147483647` with at most 2147483647 combinations
(`n`, `r` and the record counter are `int`s), the `k`-th emitted combination (`k` counted
from 1) is printed as the record made of `k` right-justified in a 4-wide field, `)` and
three blanks, the `r` values of the combination plus one, each right-justified in a
3-wide field, with a comma and a blank between values and a period after the last, and
one blank; the records follow one another, no newline is written, and every number
printed is an `int`. -/
theorem records_printed (n r : Nat) (hr : 1 ≤ r) (hrn : r ≤ n) (hn : n ≤ 2147483647)
    (hc : Nat.choose n r ≤ 2147483647) (fuel : Nat) (hfuel : Nat.choose n r ≤ fuel) :
    ∃ L, main fuel n r = some L ∧ mainText fuel n r = some (recordsFrom 1 L) ∧
      (∀ p ∈ recordsFrom 1 L, p.NoNewline) ∧
      (∀ w x, Piece.field w x ∈ recordsFrom 1 L → IsInt x) := by
  obtain ⟨L, hL, _, _, hmem, hlen⟩ := main_spec n r hr hrn fuel hfuel
  have h2 : ¬ ((n : Int) < (r : Int)) := by omega
  have hrun : run n r fuel (initState r) = some L := by
    simpa only [main, h2, if_false] using hL
  refine ⟨L, hL, ?_, noNewline_recordsFrom L 1, ?_⟩
  · simp only [mainText, h2, if_false]
    exact runText_of_run n r (by omega) fuel 1 (initState r) L
      (length_initState r (by omega)) hrun (by decide) (by omega)
  · intro w x hx
    unfold IsInt
    rcases field_mem_recordsFrom L 1 w x hx with h | ⟨s, hs, y, hy, rfl⟩
    · omega
    · have := ((hmem s).1 hs).2.2 y hy
      omega

theorem records_printed_witness :
    (mainText 3 3 2).map renderAll =
      some "   1)     1,   2.    2)     1,   3.    3)     2,   3. " ∧
    ∃ L, main 3 (3 : Nat) (2 : Nat) = some L ∧
      mainText 3 (3 : Nat) (2 : Nat) = some (recordsFrom 1 L) ∧
      (∀ p ∈ recordsFrom 1 L, p.NoNewline) ∧
      (∀ w x, Piece.field w x ∈ recordsFrom 1 L → IsInt x) :=
  ⟨by decide, records_printed 3 2 (by decide) (by decide) (by decide) (by decide) 3
    (by decide)⟩

end CnrC

namespace WisBs

open Mem

theorem tdiv_two_bounds (low high : Int) (h0 : 0 ≤ low) (h : low ≤ high) :
    low ≤ Int.tdiv (low + high) 2 ∧ Int.tdiv (low + high) 2 ≤ high := by
  rw [Int.tdiv_eq_ediv (by omega) (by omega)]
  omega

/-- The sums and the midpoint of one pass of the search loop stay inside `int` as long as
`high` is below `2^30`. -/
theorem mid_wraps (low high : Int) (h0 : 0 ≤ low) (hc : low ≤ high)
    (hb : high < 1073741824) :
    wrap (low + high) = low + high ∧
    wrap (Int.tdiv (low + high) 2 + 1) = Int.tdiv (low + high) 2 + 1 ∧
    wrap (Int.tdiv (low + high) 2 - 1) = Int.tdiv (low + high) 2 - 1 := by
  obtain ⟨hm1, hm2⟩ := tdiv_two_bounds low high h0 hc
  exact ⟨wrap_eq (by omega) (by omega), wrap_eq (by omega) (by omega),
    wrap_eq (by omega) (by omega)⟩

/-- The search loop on any array, with `high` below `2^30`: it ends within
`high - low + 2` evaluations of its condition, reads only subscripts between `low` and
`high`, and returns a value between `low - 1` and `high`. -/
theorem binSearchLoop_total (a : List Int) (key : Int) (fuel : Nat) :
    ∀ (low high : Int), 0 ≤ low → high < a.length → high < 1073741824 → low ≤ high + 1 →
      high - low + 1 < fuel →
      ∃ h, binSearchLoop a key fuel low high = some h ∧ low - 1 ≤ h ∧ h ≤ high := by
  induction fuel with
  | zero => intro low high _ _ _ _ hf; exfalso; simp at hf; omega
  | succ fuel ih =>
    intro low high h0 h1 hb h2 hf
    rw [binSearchLoop]
    by_cases hc : low ≤ high
    · obtain ⟨hm1, hm2⟩ := tdiv_two_bounds low high h0 hc
      obtain ⟨hw1, hw2, hw3⟩ := mid_wraps low high h0 hc hb
      rw [hw1, hw2, hw3]
      have hrd : rd a (Int.tdiv (low + high) 2) = some (nth a (Int.tdiv (low + high) 2)) :=
        rd_eq (by omega) (by omega)
      simp only [hc, if_true, hrd]
      by_cases hk : nth a (Int.tdiv (low + high) 2) ≤ key
      · simp only [hk, if_true]
        obtain ⟨h, hh, hl, hu⟩ := ih (Int.tdiv (low + high) 2 + 1) high (by omega) h1 hb
          (by omega) (by push_cast at hf; omega)
        exact ⟨h, hh, by omega, hu⟩
      · simp only [hk, if_false]
        obtain ⟨h, hh, hl, hu⟩ := ih low (Int.tdiv (low + high) 2 - 1) h0 (by omega)
          (by omega) (by omega) (by push_cast at hf; omega)
        exact ⟨h, hh, hl, by omega⟩
    · simp only [hc, if_false]
      exact ⟨high, rfl, by omega, le_refl _⟩

/-- The search loop on the first `n <= 2^30` elements of an array in which the elements
`<= key` come first: the returned subscript is the boundary between them and the elements
`> key`. -/
theorem binSearchLoop_spec (a : List Int) (key n : Int) (hn : n ≤ a.length)
    (hb : n ≤ 1073741824)
    (hmono : ∀ i j, 0 ≤ i → i ≤ j → j < n → nth a j ≤ key → nth a i ≤ key) (fuel : Nat) :
    ∀ (low high : Int), 0 ≤ low → high < n → low ≤ high + 1 → high - low + 1 < fuel →
      (∀ j, 0 ≤ j → j < low → nth a j ≤ key) → (∀ j, high < j → j < n → key < nth a j) →
      ∃ h, binSearchLoop a key fuel low high = some h ∧ -1 ≤ h ∧ h < n ∧
        (∀ j, 0 ≤ j → j ≤ h → nth a j ≤ key) ∧ (∀ j, h < j → j < n → key < nth a j) := by
  induction fuel with
  | zero => intro low high _ _ _ hf; exfalso; simp at hf; omega
  | succ fuel ih =>
    intro low high h0 h1 h2 hf hlo hhi
    rw [binSearchLoop]
    by_cases hc : low ≤ high
    · obtain ⟨hm1, hm2⟩ := tdiv_two_bounds low high h0 hc
      obtain ⟨hw1, hw2, hw3⟩ := mid_wraps low high h0 hc (by omega)
      rw [hw1, hw2, hw3]
      have hrd : rd a (Int.tdiv (low + high) 2) = some (nth a (Int.tdiv (low + high) 2)) :=
        rd_eq (by omega) (by omega)
      simp only [hc, if_true, hrd]
      by_cases hk : nth a (Int.tdiv (low + high) 2) ≤ key
      · simp only [hk, if_true]
        apply ih (Int.tdiv (low + high) 2 + 1) high (by omega) h1 (by omega)
          (by push_cast at hf; omega) _ hhi
        intro j hj0 hj1
        exact hmono j (Int.tdiv (low + high) 2) hj0 (by omega) (by omega) hk
      · simp only [hk, if_false]
        apply ih low (Int.tdiv (low + high) 2 - 1) h0 (by omega) (by omega)
          (by push_cast at hf; omega) hlo
        intro j hj0 hj1
        by_contra hcon
        exact hk (hmono (Int.tdiv (low + high) 2) j (by omega) (by omega) hj1 (by omega))
    · simp only [hc, if_false]
      refine ⟨high, rfl, by omega, h1, ?_, hhi⟩
      intro j hj0 hj1
      exact hlo j hj0 (by omega)

theorem binSearchLast_spec (a : List Int) (key n : Int) (h0 : 0 ≤ n) (hn : n ≤ a.length)
    (hb : n ≤ 1073741824)
    (hmono : ∀ i j, 0 ≤ i → i ≤ j → j < n → nth a j ≤ key → nth a i ≤ key) :
    ∃ h, binSearchLast a n key = some h ∧ -1 ≤ h ∧ h < n ∧
      (∀ j, 0 ≤ j → j ≤ h → nth a j ≤ key) ∧ (∀ j, h < j → j < n → key < nth a j) := by
  unfold binSearchLast
  rw [wrap_eq (by omega) (by omega)]
  apply binSearchLoop_spec a key n hn hb hmono (n.toNat + 1) 0 (n - 1) (le_refl _) (by omega)
    (by omega) (by push_cast; omega)
  · intro j hj0 hj1; omega
  · intro j hj0 hj1; omega

theorem sorted_nth_le (a : List Int) (hs : a.Sorted (· ≤ ·)) (i j : Int) (hi : 0 ≤ i)
    (hij : i ≤ j) (hj : j < a.length) : nth a i ≤ nth a j := by
  obtain ⟨ki, rfl⟩ := Int.eq_ofNat_of_zero_le hi
  obtain ⟨kj, rfl⟩ := Int.eq_ofNat_of_zero_le (by omega : 0 ≤ j)
  rw [nth_natCast a ki (by omega), nth_natCast a kj (by omega)]
  rcases Nat.eq_or_lt_of_le (by omega : ki ≤ kj) with h | h
  · subst h; exact le_refl _
  · unfold List.Sorted at hs
    rw [List.pairwise_iff_getElem] at hs
    exact hs ki kj (by omega) (by omega) h

theorem nth_replicate (k : Nat) (x j : Int) (h0 : 0 ≤ j) (h1 : j < k) :
    nth (List.replicate k x) j = x := by
  unfold nth
  have h : j.toNat < (List.replicate k x).length := by rw [List.length_replicate]; omega
  rw [List.getD_eq_getElem _ _ h, List.getElem_replicate]

theorem sorted_replicate (k : Nat) (x : Int) : (List.replicate k x).Sorted (· ≤ ·) := by
  unfold List.Sorted
  rw [List.pairwise_replicate]
  exact Or.inr (le_refl _)

/-- One pass of the search loop on an array of `2^30 + 1` elements none of which is above
the key, with `high = 2^30` and `low` below it: the sum `low + high` is still an `int`,
and the pass moves `low` to `mid + 1`. -/
theorem binSearchLoop_step_up (a : List Int) (key : Int) (hlen : (a.length : Int) = 1073741825)
    (hall : ∀ j, 0 ≤ j → j < 1073741825 → nth a j ≤ key) (fuel : Nat) (low : Int)
    (h0 : 0 ≤ low) (h1 : low < 1073741824) :
    binSearchLoop a key (fuel + 1) low 1073741824 =
      binSearchLoop a key fuel (Int.tdiv (low + 1073741824) 2 + 1) 1073741824 := by
  obtain ⟨hm1, hm2⟩ := tdiv_two_bounds low 1073741824 h0 (by omega)
  have hm3 : Int.tdiv (low + 1073741824) 2 < 1073741824 := by
    rw [Int.tdiv_eq_ediv (by omega) (by omega)]; omega
  have hrd : rd a (Int.tdiv (low + 1073741824) 2) =
      some (nth a (Int.tdiv (low + 1073741824) 2)) := rd_eq (by omega) (by omega)
  rw [binSearchLoop, wrap_eq (by omega : -2147483648 ≤ low + 1073741824) (by omega),
    wrap_eq (by omega : -2147483648 ≤ Int.tdiv (low + 1073741824) 2 + 1) (by omega)]
  simp only [show low ≤ 1073741824 by omega, if_true, hrd,
    hall _ (by omega : 0 ≤ Int.tdiv (low + 1073741824) 2) (by omega)]

/-- The pass of the search loop with `low = high = 2^30`: the `int` sum `low + high` is
`-2^31`, the midpoint `-2^30`, and the read of `a[mid]` is outside the array. -/
theorem binSearchLoop_overflow (a : List Int) (key : Int) (fuel : Nat) :
    wrap (1073741824 + 1073741824) = -2147483648 ∧
    Int.tdiv (wrap (1073741824 + 1073741824)) 2 = -1073741824 ∧
    rd a (Int.tdiv (wrap (1073741824 + 1073741824)) 2) = none ∧
    binSearchLoop a key fuel 1073741824 1073741824 = none := by
  have h1 : wrap (1073741824 + 1073741824) = -2147483648 := by decide
  have h2 : Int.tdiv (wrap (1073741824 + 1073741824)) 2 = -1073741824 := by decide
  have h3 : rd a (Int.tdiv (wrap (1073741824 + 1073741824)) 2) = none := by
    rw [h2]; exact rd_none_of_neg (by decide)
  refine ⟨h1, h2, h3, ?_⟩
  cases fuel with
  | zero => rfl
  | succ f =>
    rw [binSearchLoop]
    simp only [le_refl, if_true, h3]

/-- On an array of `2^30 + 1` elements none of which is above the key, the search loop
started with `high = 2^30` and `low = 2^30 - (P - 1)`, `P = 2^k`, reaches
`low = high = 2^30` after `k` passes. -/
theorem binSearchLoop_climb (a : List Int) (key : Int) (hlen : (a.length : Int) = 1073741825)
    (hall : ∀ j, 0 ≤ j → j < 1073741825 → nth a j ≤ key) :
    ∀ (k : Nat) (P : Int), P = 2 ^ k → P ≤ 1073741824 → ∀ fuel : Nat,
      binSearchLoop a key (fuel + k) (1073741824 - (P - 1)) 1073741824 =
        binSearchLoop a key fuel 1073741824 1073741824 := by
  intro k
  induction k with
  | zero =>
    intro P hP _ fuel
    have : P = 1 := by rw [hP]; rfl
    subst this
    rfl
  | succ k ih =>
    intro P hP hPb fuel
    have hP2 : P = 2 * 2 ^ k := by rw [hP, pow_succ]; ring
    have hpos : (0 : Int) < 2 ^ k := by positivity
    have e : fuel + (k + 1) = (fuel + k) + 1 := rfl
    rw [e, binSearchLoop_step_up a key hlen hall (fuel + k) _ (by omega) (by omega)]
    have hm : Int.tdiv (1073741824 - (P - 1) + 1073741824) 2 + 1 =
        1073741824 - (2 ^ k - 1) := by
      rw [Int.tdiv_eq_ediv (by omega) (by omega)]
      omega
    rw [hm]
    exact ih (2 ^ k) rfl (by omega) fuel

/-- On an array of `2^30 + 1` elements none of which is above the key,
`binSearchLast(a, 2^30 + 1, key)` makes 30 passes that move `low` up to `high = 2^30`, and
its 31st pass reads `a[-1073741824]`: the call has no defined result. -/
theorem binSearchLast_overflow (a : List Int) (key : Int)
    (hlen : (a.length : Int) = 1073741825)
    (hall : ∀ j, 0 ≤ j → j < 1073741825 → nth a j ≤ key) :
    binSearchLast a 1073741825 key = none ∧
    ∀ fuel, binSearchLoop a key (fuel + 30) 0 1073741824 =
      binSearchLoop a key fuel 1073741824 1073741824 := by
  have hclimb : ∀ fuel, binSearchLoop a key (fuel + 30) 0 1073741824 =
      binSearchLoop a key fuel 1073741824 1073741824 := by
    intro fuel
    have e : fuel + 30 = (fuel + 29) + 1 := rfl
    rw [e, binSearchLoop_step_up a key hlen hall (fuel + 29) 0 (le_refl _) (by decide)]
    have hm : Int.tdiv (0 + 1073741824) 2 + 1 = 1073741824 - ((2 : Int) ^ 29 - 1) := by
      decide
    rw [hm]
    exact binSearchLoop_climb a key hlen hall 29 (2 ^ 29) rfl (by decide) fuel
  refine ⟨?_, hclimb⟩
  unfold binSearchLast
  have e1 : wrap (1073741825 - 1) = 1073741824 := by decide
  have e2 : (1073741825 : Int).toNat + 1 = 1073741796 + 30 := by decide
  rw [e1, e2, hclimb]
  exact (binSearchLoop_overflow a key 1073741796).2.2.2

/-- C5 as stated fails: the array of `n = 2^30 + 1 = 1073741825` zeros is in ascending
order, and `binSearchLast(a, n, 0)` returns no subscript: after 30 passes `low = high =
2^30`, the `int` sum `low + high` is `-2^31`, and the next pass reads `a[-1073741824]`,
outside the array. -/
theorem binSearchLast_long_array_counterexample :
    (List.replicate 1073741825 (0 : Int)).Sorted (· ≤ ·) ∧
    (1 : Int) ≤ (List.replicate 1073741825 (0 : Int)).length ∧
    binSearchLast (List.replicate 1073741825 (0 : Int))
      (List.replicate 1073741825 (0 : Int)).length 0 = none ∧
    (∀ fuel, binSearchLoop (List.replicate 1073741825 (0 : Int)) 0 (fuel + 30) 0 1073741824 =
      binSearchLoop (List.replicate 1073741825 (0 : Int)) 0 fuel 1073741824 1073741824) ∧
    Int.tdiv (wrap (1073741824 + 1073741824)) 2 = -1073741824 ∧
    rd (List.replicate 1073741825 (0 : Int)) (Int.tdiv (wrap (1073741824 + 1073741824)) 2) =
      none := by
  have hlen : (((List.replicate 1073741825 (0 : Int)).length : Nat) : Int) = 1073741825 := by
    rw [List.length_replicate]; rfl
  have hall : ∀ j, 0 ≤ j → j < 1073741825 →
      nth (List.replicate 1073741825 (0 : Int)) j ≤ 0 := by
    intro j h0 h1
    rw [nth_replicate 1073741825 0 j h0 (by exact_mod_cast h1)]
  obtain ⟨hnone, hclimb⟩ := binSearchLast_overflow _ 0 hlen hall
  obtain ⟨_, h2, h3, _⟩ := binSearchLoop_overflow (List.replicate 1073741825 (0 : Int)) 0 0
  refine ⟨sorted_replicate _ _, by rw [hlen]; decide, ?_, hclimb, h2, h3⟩
  rw [hlen]
  exact hnone

/-- C5, amended: for an array `a` of `n` ints in ascending order, `1 <= n <= 2^30 =
1073741824`, and any key, `binSearchLast(a, n, key)` terminates and returns the subscript
`h` of the last element `<= key`: `-1 <= h <= n-1`, `a[j] <= key` for every `j <= h`,
`a[j] > key` for every `j > h`; it is `-1` when `key < a[0]`, and it is the only subscript
with `a[h] <= key < a[h+1]` wherever those elements exist. -/
theorem binSearchLast_last_le (a : List Int) (key : Int) (hn : 1 ≤ a.length)
    (hb : a.length ≤ 1073741824) (hs : a.Sorted (· ≤ ·)) :
    ∃ h, binSearchLast a a.length key = some h ∧ -1 ≤ h ∧ h ≤ (a.length : Int) - 1 ∧
      (∀ j, 0 ≤ j → j ≤ h → nth a j ≤ key) ∧
      (∀ j, h < j → j < a.length → key < nth a j) ∧
      (key < nth a 0 → h = -1) ∧
      (∀ h2 : Int, -1 ≤ h2 → h2 < a.length → (0 ≤ h2 → nth a h2 ≤ key) →
        (h2 + 1 < a.length → key < nth a (h2 + 1)) → h2 = h) := by
  have hmono : ∀ i j, 0 ≤ i → i ≤ j → j < (a.length : Int) → nth a j ≤ key → nth a i ≤ key :=
    fun i j hi hij hj hk => le_trans (sorted_nth_le a hs i j hi hij hj) hk
  obtain ⟨h, hh, h1, h2, h3, h4⟩ :=
    binSearchLast_spec a key a.length (by omega) (le_refl _) (by omega) hmono
  refine ⟨h, hh, h1, by omega, h3, h4, ?_, ?_⟩
  · intro hk
    by_contra hne
    have := h3 0 (le_refl _) (by omega)
    omega
  · intro h2' hl hu hle hgt
    by_contra hne
    rcases lt_or_gt_of_ne hne with hlt | hgt2
    · have := h3 (h2' + 1) (by omega) (by omega)
      have := hgt (by omega)
      omega
    · have := h4 h2' hgt2 hu
      have := hle (by omega)
      omega

theorem binSearchLast_last_le_witness :
    ∃ h, binSearchLast [1, 3, 3, 7] ([1, 3, 3, 7] : List Int).length 4 = some h ∧ -1 ≤ h ∧
      h ≤ (([1, 3, 3, 7] : List Int).length : Int) - 1 ∧
      (∀ j, 0 ≤ j → j ≤ h → nth [1, 3, 3, 7] j ≤ 4) ∧
      (∀ j, h < j → j < ([1, 3, 3, 7] : List Int).length → 4 < nth [1, 3, 3, 7] j) ∧
      ((4 : Int) < nth [1, 3, 3, 7] 0 → h = -1) ∧
      (∀ h2 : Int, -1 ≤ h2 → h2 < ([1, 3, 3, 7] : List Int).length →
        (0 ≤ h2 → nth [1, 3, 3, 7] h2 ≤ 4) →
        (h2 + 1 < ([1, 3, 3, 7] : List Int).length → 4 < nth [1, 3, 3, 7] (h2 + 1)) →
        h2 = h) :=
  binSearchLast_last_le [1, 3, 3, 7] 4 (by decide) (by decide) (by decide)

theorem readRows_spec : ∀ (rows : List (Int × Int × Int)) (i : Int) (t : Tables),
    0 ≤ i → i + rows.length ≤ TABSIZE → t.s.length = TABSIZE → t.f.length = TABSIZE →
    t.v.length = TABSIZE →
    ∃ t1, readRows rows i t = some t1 ∧ t1.s.length = TABSIZE ∧ t1.f.length = TABSIZE ∧
      t1.v.length = TABSIZE ∧ t1.p = t.p ∧ t1.M = t.M ∧
      (∀ j, 0 ≤ j → j < i →
        nth t1.s j = nth t.s j ∧ nth t1.f j = nth t.f j ∧ nth t1.v j = nth t.v j) ∧
      (∀ k : Nat, k < rows.length →
        nth t1.s (i + k) = (rows.getD k (0, 0, 0)).1 ∧
        nth t1.f (i + k) = (rows.getD k (0, 0, 0)).2.1 ∧
        nth t1.v (i + k) = (rows.getD k (0, 0, 0)).2.2)
  | [], i, t, _, _, hs, hf, hv =>
    ⟨t, rfl, hs, hf, hv, rfl, rfl, fun _ _ _ => ⟨rfl, rfl, rfl⟩, fun k hk => by simp at hk⟩
  | (a, b, c) :: rest, i, t, h0, hcap, hs, hf, hv => by
    have hlen : ((a, b, c) :: rest).length = rest.length + 1 := rfl
    rw [hlen] at hcap
    push_cast at hcap
    have his : i < t.s.length := by rw [hs]; omega
    have hif : i < t.f.length := by rw [hf]; omega
    have hiv : i < t.v.length := by rw [hv]; omega
    obtain ⟨t1, ht1, hs1, hf1, hv1, hp1, hM1, hlow, hhigh⟩ :=
      readRows_spec rest (i + 1)
        { t with s := t.s.set i.toNat a, f := t.f.set i.toNat b, v := t.v.set i.toNat c }
        (by omega) (by omega) (by simp [hs]) (by simp [hf]) (by simp [hv])
    refine ⟨t1, ?_, hs1, hf1, hv1, hp1, hM1, ?_, ?_⟩
    · simp only [readRows, wr_eq _ h0 his, wr_eq _ h0 hif, wr_eq _ h0 hiv]
      exact ht1
    · intro j hj0 hj1
      obtain ⟨e1, e2, e3⟩ := hlow j hj0 (by omega)
      simp only at e1 e2 e3
      rw [e1, e2, e3, nth_set _ h0 his hj0, nth_set _ h0 hif hj0, nth_set _ h0 hiv hj0]
      simp [show j ≠ i by omega]
    · intro k hk
      cases k with
      | zero =>
        obtain ⟨e1, e2, e3⟩ := hlow i h0 (by omega)
        simp only at e1 e2 e3
        simp only [Nat.cast_zero, add_zero, List.getD_cons_zero]
        rw [e1, e2, e3, nth_set _ h0 his h0, nth_set _ h0 hif h0, nth_set _ h0 hiv h0]
        simp
      | succ k =>
        have := hhigh k (by simp at hk; omega)
        have e : i + ((k + 1 : Nat) : Int) = i + 1 + k := by push_cast; ring
        rw [e]
        simpa using this

/-- Lines 50-54 on a scheduler input: the tables keep their size, `f[0]` holds the
sentinel, rows `1..n` of `s`, `f`, `v` hold the input, `p` and `M` are untouched. -/
theorem load_spec (inp : Input) :
    ∃ t, load inp.rows = some t ∧ t.s.length = TABSIZE ∧ t.f.length = TABSIZE ∧
      t.v.length = TABSIZE ∧ t.p = Tables.zero.p ∧ t.M = Tables.zero.M ∧
      nth t.f 0 = SENTINEL ∧
      (∀ i, 1 ≤ i → i ≤ inp.n →
        nth t.s i = inp.start i ∧ nth t.f i = inp.finish i ∧ nth t.v i = inp.value i) := by
  have hT : TABSIZE = 100 := rfl
  have hfits := inp.fits
  have hz : (Tables.zero.f).length = TABSIZE := by simp [Tables.zero]
  have hw : wr Tables.zero.f 0 SENTINEL = some (Tables.zero.f.set (0 : Int).toNat SENTINEL) :=
    wr_eq _ (le_refl _) (by rw [hz]; omega)
  obtain ⟨t1, ht1, hs1, hf1, hv1, hp1, hM1, hlow, hhigh⟩ :=
    readRows_spec inp.rows 1
      { Tables.zero with f := Tables.zero.f.set (0 : Int).toNat SENTINEL }
      (by omega) (by omega) (by simp [Tables.zero]) (by simp [Tables.zero])
      (by simp [Tables.zero])
  refine ⟨t1, ?_, hs1, hf1, hv1, hp1, hM1, ?_, ?_⟩
  · simp only [load, hw]; exact ht1
  · rw [(hlow 0 (le_refl _) (by omega)).2.1]
    simp only
    rw [nth_set _ (le_refl _) (by rw [hz]; omega) (le_refl _)]
    simp
  · intro i hi1 hi2
    unfold Input.n at hi2
    have := hhigh (i - 1).toNat (by omega)
    have e : (1 : Int) + ((i - 1).toNat : Int) = i := by omega
    rw [e] at this
    exact this

theorem orderScan_spec (f : List Int) (n : Int) (hn : n < f.length) (fuel : Nat) :
    ∀ i : Int, 1 ≤ i → n + 1 - i < fuel → 0 < fuel →
      ∃ k, orderScan f n fuel i = some k ∧ i ≤ k ∧
        (∀ j, i ≤ j → j < k → nth f (j - 1) ≤ nth f j) ∧
        (k ≤ n → nth f k < nth f (k - 1)) := by
  induction fuel with
  | zero =>
    intro i _ _ hf; exact absurd hf (lt_irrefl _)
  | succ fuel ih =>
    intro i hi hf _
    rw [orderScan]
    by_cases hc : i ≤ n
    · have h1 : rd f (i - 1) = some (nth f (i - 1)) := rd_eq (by omega) (by omega)
      have h2 : rd f i = some (nth f i) := rd_eq (by omega) (by omega)
      simp only [hc, if_true, h1, h2]
      by_cases hle : nth f (i - 1) ≤ nth f i
      · simp only [hle, if_true]
        obtain ⟨k, hk, hik, hall, hstop⟩ := ih (i + 1) (by omega) (by push_cast at hf; omega)
          (by push_cast at hf; omega)
        refine ⟨k, hk, by omega, ?_, hstop⟩
        intro j hj0 hj1
        by_cases hji : j = i
        · subst hji; exact hle
        · exact hall j (by omega) hj1
      · simp only [hle, if_false]
        exact ⟨i, rfl, le_refl _, fun j a b => by omega, fun _ => by omega⟩
    · simp only [hc, if_false]
      exact ⟨i, rfl, le_refl _, fun j a b => by omega, fun h => by omega⟩

theorem printRows_spec (t : Tables) (n : Int) (hs : n < t.s.length) (hf : n < t.f.length)
    (hv : n < t.v.length) (hp : n < t.p.length) (hM : n < t.M.length) (fuel : Nat) :
    ∀ i : Int, 0 ≤ i → n + 1 - i < fuel → 0 < fuel →
      ∃ rows, printRows t n fuel i = some rows ∧
        ∀ x ∈ rows, ∃ a b c d e g, x = Out.row a b c d e g := by
  induction fuel with
  | zero => intro i _ _ hf; exact absurd hf (lt_irrefl _)
  | succ fuel ih =>
    intro i hi hf _
    rw [printRows]
    by_cases hc : i ≤ n
    · have h1 : rd t.s i = some (nth t.s i) := rd_eq hi (by omega)
      have h2 : rd t.f i = some (nth t.f i) := rd_eq hi (by omega)
      have h3 : rd t.v i = some (nth t.v i) := rd_eq hi (by omega)
      have h4 : rd t.p i = some (nth t.p i) := rd_eq hi (by omega)
      have h5 : rd t.M i = some (nth t.M i) := rd_eq hi (by omega)
      obtain ⟨rows, hrows, hall⟩ := ih (i + 1) (by omega) (by push_cast at hf; omega)
        (by push_cast at hf; omega)
      simp only [hc, if_true, h1, h2, h3, h4, h5, hrows, Option.map_some']
      refine ⟨_, rfl, ?_⟩
      intro x hx
      rcases List.mem_cons.1 hx with rfl | hx
      · exact ⟨_, _, _, _, _, _, rfl⟩
      · exact hall x hx
    · simp only [hc, if_false]
      exact ⟨[], rfl, fun x hx => by simp at hx⟩

/-- The ordering check of a scheduler input ends, and it ends with `i <= n` exactly when
some finish time is smaller than the one before it. -/
theorem orderScan_input (inp : Input) (t : Tables) (hf : t.f.length = TABSIZE)
    (hrows : ∀ i, 1 ≤ i → i ≤ inp.n → nth t.f i = inp.finish i) :
    ∃ k, orderScan t.f inp.n (inp.n.toNat + 1) 2 = some k ∧
      (k ≤ inp.n ↔ ∃ i, 2 ≤ i ∧ i ≤ inp.n ∧ inp.finish i < inp.finish (i - 1)) := by
  have hT : TABSIZE = 100 := rfl
  have hfits := inp.fits
  have hn : inp.n = inp.rows.length := rfl
  obtain ⟨k, hk, h2k, hall, hstop⟩ :=
    orderScan_spec t.f inp.n (by omega) (inp.n.toNat + 1) 2 (by omega) (by push_cast; omega)
      (by omega)
  refine ⟨k, hk, ?_⟩
  constructor
  · intro hkn
    refine ⟨k, h2k, hkn, ?_⟩
    have := hstop hkn
    rwa [hrows k (by omega) hkn, hrows (k - 1) (by omega) (by omega)] at this
  · rintro ⟨i, hi2, hin, hlt⟩
    by_contra hc
    have := hall i hi2 (by omega)
    rw [hrows i (by omega) hin, hrows (i - 1) (by omega) (by omega)] at this
    omega

/-- When the ordering check passes, anything `main` prints starts with the table header,
continues with table rows and "Include interval" lines, and ends with the sum line. -/
theorem main_passed_shape (fuel : Nat) (inp : Input) (t0 : Tables) (k : Int)
    (hload : load inp.rows = some t0)
    (hk : orderScan t0.f inp.n (inp.n.toNat + 1) 2 = some k) (hkn : ¬ k ≤ inp.n)
    (t : Tables) (out : List Out) (hmain : main fuel inp = some (t, out)) :
    ∃ p1 M0 M1 rows incl sum,
      fillP t0.s t0.f inp.n (inp.n.toNat + 1) 1 t0.p = some p1 ∧
      wr t0.M 0 0 = some M0 ∧
      fillM t0.v p1 inp.n (inp.n.toNat + 1) 1 M0 = some M1 ∧
      printRows { t0 with p := p1, M := M1 } inp.n (inp.n.toNat + 1) 1 = some rows ∧
      walk { t0 with p := p1, M := M1 } fuel inp.n 0 = some (incl, sum) ∧
      t = { t0 with p := p1, M := M1 } ∧
      out = Out.header :: rows ++ incl.map Out.incl ++ [Out.total sum] := by
  simp only [main, hload, hk, hkn, if_false] at hmain
  split at hmain
  · cases hmain
  · rename_i p1 hp1
    split at hmain
    · cases hmain
    · rename_i M0 hM0
      split at hmain
      · cases hmain
      · rename_i M1 hM1
        split at hmain
        · rename_i rows incl sum hrows hwalk
          simp only [Option.some.injEq, Prod.mk.injEq] at hmain
          exact ⟨p1, M0, M1, rows, incl, sum, hp1, hM0, hM1, hrows, hwalk, hmain.1.symm,
            hmain.2.symm⟩
        · cases hmain

/-- C7: on every scheduler input the program prints the ordering-violation message and
stops if and only if some `i` in `[2, n]` has `f[i-1] > f[i]`; whenever it prints that
message it prints nothing else (no header, row, "Include interval" or sum line) and the
tables `p` and `M` are still as at program start. -/
theorem ordering_violation_iff (fuel : Nat) (inp : Input) :
    ((∃ t, main fuel inp = some (t, [Out.notOrdered])) ↔
      ∃ i, 2 ≤ i ∧ i ≤ inp.n ∧ inp.finish i < inp.finish (i - 1)) ∧
    (∀ t out, main fuel inp = some (t, out) → Out.notOrdered ∈ out →
      out = [Out.notOrdered] ∧ t.p = Tables.zero.p ∧ t.M = Tables.zero.M) := by
  obtain ⟨t0, hload, hs, hf, hv, hp, hM, hf0, hrows⟩ := load_spec inp
  obtain ⟨k, hk, hiff⟩ := orderScan_input inp t0 hf (fun i h1 h2 => (hrows i h1 h2).2.1)
  by_cases hkn : k ≤ inp.n
  · have hmain : main fuel inp = some (t0, [Out.notOrdered]) := by
      simp only [main, hload, hk, hkn, if_true]
    refine ⟨⟨fun _ => hiff.1 hkn, fun _ => ⟨t0, hmain⟩⟩, ?_⟩
    intro t out h _
    rw [hmain] at h
    simp only [Option.some.injEq, Prod.mk.injEq] at h
    obtain ⟨rfl, rfl⟩ := h
    exact ⟨rfl, hp, hM⟩
  · have hnot : ∀ t out, main fuel inp = some (t, out) → Out.notOrdered ∉ out := by
      intro t out hmain hmem
      obtain ⟨p1, M0, M1, rows, incl, sum, _, _, _, hr, _, _, rfl⟩ :=
        main_passed_shape fuel inp t0 k hload hk hkn t out hmain
      have hT : TABSIZE = 100 := rfl
      have hfits := inp.fits
      have hn : inp.n = inp.rows.length := rfl
      have hrec : ∀ (fuel2 : Nat) (i : Int) (rows2 : List Out),
          printRows { t0 with p := p1, M := M1 } inp.n fuel2 i = some rows2 →
          Out.notOrdered ∉ rows2 := by
        intro fuel2
        induction fuel2 with
        | zero => intro i rows2 h2; simp [printRows] at h2
        | succ f2 ih =>
          intro i rows2 h2
          rw [printRows] at h2
          split at h2
          · split at h2
            · simp only [Option.map_eq_some'] at h2
              obtain ⟨l, hl, rfl⟩ := h2
              intro hm
              rcases List.mem_cons.1 hm with hm | hm
              · cases hm
              · exact ih _ _ hl hm
            · cases h2
          · cases h2; simp
      rcases List.mem_append.1 hmem with h | h
      · rcases List.mem_append.1 h with h | h
        · rcases List.mem_cons.1 h with h | h
          · cases h
          · exact hrec _ _ _ hr h
        · obtain ⟨a, _, ha⟩ := List.mem_map.1 h
          cases ha
      · rw [List.mem_singleton] at h
        cases h
    refine ⟨⟨?_, fun h => absurd (hiff.2 h) hkn⟩, ?_⟩
    · rintro ⟨t, ht⟩
      exact absurd (List.mem_singleton.2 rfl) (hnot t _ ht)
    · intro t out h hmem
      exact absurd hmem (hnot t out h)

theorem finish_eq_nth (inp : Input) (i : Int) (h1 : 1 ≤ i) (h2 : i ≤ inp.n) :
    inp.finish i = nth (inp.rows.map (fun r => r.2.1)) (i - 1) := by
  unfold Input.n at h2
  have hk : (i - 1).toNat < inp.rows.length := by omega
  unfold Input.finish nth
  rw [List.getD_eq_getElem _ _ hk, List.getD_eq_getElem _ _ (by rw [List.length_map]; exact hk),
    List.getElem_map]

theorem ordered_adj (inp : Input) (h : inp.Ordered) (i : Int) (h2 : 2 ≤ i) (hn : i ≤ inp.n) :
    inp.finish (i - 1) ≤ inp.finish i := by
  unfold Input.Ordered List.Sorted at h
  rw [← List.chain'_iff_pairwise, chain_iff_nth] at h
  have hn2 : inp.n = inp.rows.length := rfl
  have := h (i - 2) (by omega) (by rw [List.length_map]; omega)
  rw [finish_eq_nth inp i (by omega) hn, finish_eq_nth inp (i - 1) (by omega) (by omega)]
  have e1 : i - 1 - 1 = i - 2 := by ring
  have e2 : i - 2 + 1 = i - 1 := by ring
  rw [e1]; rw [e2] at this; exact this

theorem ordered_mono (inp : Input) (h : inp.Ordered) (a : Int) (ha : 1 ≤ a) :
    ∀ d : Nat, a + d ≤ inp.n → inp.finish a ≤ inp.finish (a + d) := by
  intro d
  induction d with
  | zero => intro _; simp
  | succ d ih =>
    intro hb
    push_cast at hb
    have h1 := ih (by omega)
    have h2 := ordered_adj inp h (a + d + 1) (by omega) (by omega)
    have e : a + d + 1 - 1 = a + d := by ring
    rw [e] at h2
    have e2 : a + ((d + 1 : Nat) : Int) = a + d + 1 := by push_cast; ring
    rw [e2]
    exact le_trans h1 h2

theorem ordered_le (inp : Input) (h : inp.Ordered) (a b : Int) (ha : 1 ≤ a) (hab : a ≤ b)
    (hb : b ≤ inp.n) : inp.finish a ≤ inp.finish b := by
  have := ordered_mono inp h a ha (b - a).toNat (by omega)
  have e : a + ((b - a).toNat : Int) = b := by omega
  rwa [e] at this

theorem proper_at (inp : Input) (h : inp.Proper) (i : Int) (h1 : 1 ≤ i) (h2 : i ≤ inp.n) :
    inp.start i < inp.finish i ∧ SENTINEL ≤ inp.start i := by
  unfold Input.n at h2
  have hk : (i - 1).toNat < inp.rows.length := by omega
  unfold Input.start Input.finish
  rw [List.getD_eq_getElem _ _ hk]
  exact h _ (List.getElem_mem _)

theorem value_isInt (inp : Input) (i : Int) (h1 : 1 ≤ i) (h2 : i ≤ inp.n) :
    IsInt (inp.value i) := by
  unfold Input.n at h2
  have hk : (i - 1).toNat < inp.rows.length := by omega
  unfold Input.value
  rw [List.getD_eq_getElem _ _ hk]
  exact (inp.ints _ (List.getElem_mem _)).2.2

/-- On any array of at least `n` ints, `n <= 2^30`, sorted or not,
`binSearchLast(a, n, key)` returns a value between `-1` and `n-1`. -/
theorem binSearchLast_total (a : List Int) (n key : Int) (h0 : 0 ≤ n) (hn : n ≤ a.length)
    (hb : n ≤ 1073741824) :
    ∃ h, binSearchLast a n key = some h ∧ -1 ≤ h ∧ h ≤ n - 1 := by
  unfold binSearchLast
  rw [wrap_eq (by omega) (by omega)]
  obtain ⟨h, hh, h1, h2⟩ := binSearchLoop_total a key (n.toNat + 1) 0 (n - 1) (le_refl _)
    (by omega) (by omega) (by omega) (by push_cast; omega)
  exact ⟨h, hh, by omega, h2⟩

theorem fillP_spec (s f : List Int) (n : Int) (hs : n < s.length) (hf : n < f.length)
    (hb : n < 1073741824) (fuel : Nat) :
    ∀ (i : Int) (p : List Int), 1 ≤ i → n + 1 - i < fuel → 0 < fuel → n < p.length →
      ∃ p1, fillP s f n fuel i p = some p1 ∧ p1.length = p.length ∧
        (∀ j, 0 ≤ j → j < i → nth p1 j = nth p j) ∧
        (∀ j, i ≤ j → j ≤ n → binSearchLast f (n + 1) (nth s j) = some (nth p1 j)) := by
  induction fuel with
  | zero => intro i p _ _ h; exact absurd h (lt_irrefl _)
  | succ fuel ih =>
    intro i p hi hfu _ hp
    rw [fillP]
    by_cases hc : i ≤ n
    · have h1 : rd s i = some (nth s i) := rd_eq (by omega) (by omega)
      obtain ⟨h, hh, _, _⟩ := binSearchLast_total f (n + 1) (nth s i) (by omega) (by omega)
        (by omega)
      have hw : wr p i h = some (p.set i.toNat h) := wr_eq _ (by omega) (by omega)
      obtain ⟨p1, hp1, hlen, hlow, hhigh⟩ := ih (i + 1) (p.set i.toNat h) (by omega)
        (by push_cast at hfu; omega) (by push_cast at hfu; omega)
        (by rw [List.length_set]; exact hp)
      simp only [hc, if_true, h1, hh, hw]
      refine ⟨p1, hp1, by rw [hlen, List.length_set], ?_, ?_⟩
      · intro j hj0 hj1
        rw [hlow j hj0 (by omega), nth_set _ (by omega) (by omega) hj0, if_neg (by omega)]
      · intro j hj0 hj1
        by_cases hji : j = i
        · subst hji
          rw [hlow j (by omega) (by omega), nth_set _ (by omega) (by omega) (by omega),
            if_pos rfl]
          exact hh
        · exact hhigh j (by omega) hj1
    · simp only [hc, if_false]
      exact ⟨p, rfl, rfl, fun _ _ _ => rfl, fun j a b => by omega⟩

theorem fillM_spec (v p : List Int) (n : Int) (hv : n < v.length) (hp : n < p.length)
    (hpred : ∀ i, 1 ≤ i → i ≤ n → 0 ≤ nth p i ∧ nth p i < i) (fuel : Nat) :
    ∀ (i : Int) (M : List Int), 1 ≤ i → n + 1 - i < fuel → 0 < fuel → n < M.length →
      ∃ M1, fillM v p n fuel i M = some M1 ∧ M1.length = M.length ∧
        (∀ j, 0 ≤ j → j < i → nth M1 j = nth M j) ∧
        (∀ j, i ≤ j → j ≤ n →
          nth M1 j = max (wrap (nth v j + nth M1 (nth p j))) (nth M1 (j - 1))) := by
  induction fuel with
  | zero => intro i p _ _ h; exact absurd h (lt_irrefl _)
  | succ fuel ih =>
    intro i M hi hfu _ hM
    rw [fillM]
    by_cases hc : i ≤ n
    · obtain ⟨hp0, hp1⟩ := hpred i hi hc
      have h1 : rd v i = some (nth v i) := rd_eq (by omega) (by omega)
      have h2 : rd p i = some (nth p i) := rd_eq (by omega) (by omega)
      have h3 : rd M (nth p i) = some (nth M (nth p i)) := rd_eq hp0 (by omega)
      have h4 : rd M (i - 1) = some (nth M (i - 1)) := rd_eq (by omega) (by omega)
      have hw : wr M i (max (wrap (nth v i + nth M (nth p i))) (nth M (i - 1))) =
          some (M.set i.toNat (max (wrap (nth v i + nth M (nth p i))) (nth M (i - 1)))) :=
        wr_eq _ (by omega) (by omega)
      obtain ⟨M1, hM1, hlen, hlow, hhigh⟩ := ih (i + 1)
        (M.set i.toNat (max (wrap (nth v i + nth M (nth p i))) (nth M (i - 1)))) (by omega)
        (by push_cast at hfu; omega) (by push_cast at hfu; omega)
        (by rw [List.length_set]; exact hM)
      simp only [hc, if_true, h1, h2, h3, h4, hw]
      refine ⟨M1, hM1, by rw [hlen, List.length_set], ?_, ?_⟩
      · intro j hj0 hj1
        rw [hlow j hj0 (by omega), nth_set _ (by omega) (by omega) hj0, if_neg (by omega)]
      · intro j hj0 hj1
        by_cases hji : j = i
        · subst hji
          rw [hlow j (by omega) (by omega), hlow (nth p j) hp0 (by omega),
            hlow (j - 1) (by omega) (by omega),
            nth_set _ (by omega) (by omega) (by omega), if_pos rfl,
            nth_set _ (by omega) (by omega) hp0, if_neg (by omega),
            nth_set _ (by omega) (by omega) (by omega), if_neg (by omega)]
        · exact hhigh j (by omega) hj1
    · simp only [hc, if_false]
      exact ⟨M, rfl, rfl, fun _ _ _ => rfl, fun j a b => by omega⟩

theorem max_of_ge (x y : Int) (h : x ≥ y) : max x y = x := by
  unfold max
  by_cases hxy : x > y
  · simp [hxy]
  · simp only [hxy, if_false]; omega

theorem max_of_not_ge (x y : Int) (h : ¬ x ≥ y) : max x y = y := by
  unfold max
  have : ¬ x > y := by omega
  simp [this]

theorem le_max_fst (x y : Int) : x ≤ max x y := by
  unfold max
  by_cases hxy : x > y
  · simp [hxy]
  · simp only [hxy, if_false]; omega

theorem le_max_snd (x y : Int) : y ≤ max x y := by
  unfold max
  by_cases hxy : x > y
  · simp only [hxy, if_true]; omega
  · simp [hxy]

theorem isInt_max (x y : Int) (hx : IsInt x) (hy : IsInt y) : IsInt (max x y) := by
  unfold max
  by_cases hxy : x > y
  · simp only [hxy, if_true]; exact hx
  · simp only [hxy, if_false]; exact hy

/-- An `int` sum `v + a` of an `int` and a non-negative `int` that comes out non-negative
has not overflowed. -/
theorem wrap_exact (v a : Int) (hv : IsInt v) (ha0 : 0 ≤ a) (ha1 : a ≤ 2147483647)
    (h : 0 ≤ wrap (v + a)) : wrap (v + a) = v + a := by
  unfold wrap at h ⊢
  unfold IsInt at hv
  omega

/-- A table that obeys `M[0] = 0` and the recurrence of the `M` loop holds non-negative
`int`s and is non-decreasing. -/
theorem table_bounds (v p M : List Int) (n : Int) (hM0 : nth M 0 = 0)
    (hrec : ∀ i, 1 ≤ i → i ≤ n →
      nth M i = max (wrap (nth v i + nth M (nth p i))) (nth M (i - 1))) :
    ∀ k : Nat, (k : Int) ≤ n →
      0 ≤ nth M k ∧ nth M k ≤ 2147483647 ∧ ∀ j, 0 ≤ j → j ≤ (k : Int) → nth M j ≤ nth M k := by
  intro k
  induction k with
  | zero =>
    intro _
    simp only [Nat.cast_zero, hM0]
    refine ⟨le_refl _, by decide, ?_⟩
    intro j h0 h1
    have : j = 0 := by omega
    subst this
    rw [hM0]
  | succ k ih =>
    intro hk
    push_cast at hk ⊢
    obtain ⟨h0, h1, hmono⟩ := ih (by omega)
    have hr := hrec (k + 1) (by omega) hk
    simp only [add_sub_cancel_right] at hr
    have hsnd := le_max_snd (wrap (nth v (k + 1) + nth M (nth p (k + 1)))) (nth M k)
    have hint := isInt_max (wrap (nth v (k + 1) + nth M (nth p (k + 1)))) (nth M k)
      (isInt_wrap _) ⟨by omega, h1⟩
    rw [← hr] at hsnd hint
    refine ⟨by omega, hint.2, ?_⟩
    intro j hj0 hj1
    by_cases hj : j = (k : Int) + 1
    · subst hj; exact le_refl _
    · exact le_trans (hmono j hj0 (by omega)) hsnd

theorem table_bounds_at (v p M : List Int) (n : Int) (hM0 : nth M 0 = 0)
    (hrec : ∀ i, 1 ≤ i → i ≤ n →
      nth M i = max (wrap (nth v i + nth M (nth p i))) (nth M (i - 1)))
    (i : Int) (h0 : 0 ≤ i) (hn : i ≤ n) :
    0 ≤ nth M i ∧ nth M i ≤ 2147483647 ∧ ∀ j, 0 ≤ j → j ≤ i → nth M j ≤ nth M i := by
  have := table_bounds v p M n hM0 hrec i.toNat (by omega)
  have e : ((i.toNat : Nat) : Int) = i := by omega
  rwa [e] at this

/-- The reconstruction loop on tables whose `p` and `M` obey `0 <= p[i] < i` and the
recurrence, and whose values are `int`s: from subscript `i` it ends within `i + 1`
evaluations of its condition, adds `M[i]` to the running sum (no `int` sum it makes
overflows, when the running sum is non-negative and `sum + M[i]` is an `int`), and reports
intervals each of which is at most the predecessor of every interval reported before
it. -/
theorem walk_spec (t : Tables) (n : Int) (hv : n < t.v.length) (hp : n < t.p.length)
    (hM : n < t.M.length)
    (hpred : ∀ i, 1 ≤ i → i ≤ n → 0 ≤ nth t.p i ∧ nth t.p i < i)
    (hvint : ∀ i, 1 ≤ i → i ≤ n → IsInt (nth t.v i))
    (hM0 : nth t.M 0 = 0)
    (hrec : ∀ i, 1 ≤ i → i ≤ n →
      nth t.M i = max (wrap (nth t.v i + nth t.M (nth t.p i))) (nth t.M (i - 1)))
    (fuel : Nat) :
    ∀ (i sum : Int), 0 ≤ i → i ≤ n → i < fuel → 0 ≤ sum → sum + nth t.M i ≤ 2147483647 →
      ∃ incl, walk t fuel i sum = some (incl, sum + nth t.M i) ∧
        (∀ j ∈ incl, 1 ≤ j ∧ j ≤ i) ∧
        incl.Pairwise (fun k j => j ≤ nth t.p k) ∧
        (incl.map (nth t.v)).sum = nth t.M i := by
  induction fuel with
  | zero => intro i sum h0 _ hf; exfalso; simp at hf; omega
  | succ fuel ih =>
    intro i sum h0 hin hf hs0 hs1
    rw [walk]
    by_cases hc : i > 0
    · obtain ⟨hp0, hp1⟩ := hpred i (by omega) hin
      have h1 : rd t.v i = some (nth t.v i) := rd_eq (by omega) (by omega)
      have h2 : rd t.p i = some (nth t.p i) := rd_eq (by omega) (by omega)
      have h3 : rd t.M (nth t.p i) = some (nth t.M (nth t.p i)) := rd_eq hp0 (by omega)
      have h4 : rd t.M (i - 1) = some (nth t.M (i - 1)) := rd_eq (by omega) (by omega)
      obtain ⟨hb0, hb1, hbm⟩ := table_bounds_at t.v t.p t.M n hM0 hrec i h0 hin
      obtain ⟨hq0, hq1, _⟩ :=
        table_bounds_at t.v t.p t.M n hM0 hrec (nth t.p i) hp0 (by omega)
      obtain ⟨hm0, _, _⟩ := table_bounds_at t.v t.p t.M n hM0 hrec (i - 1) (by omega) (by omega)
      have hqi := hbm (nth t.p i) hp0 (by omega)
      simp only [hc, if_true, h1, h2, h3, h4]
      by_cases hge : wrap (nth t.v i + nth t.M (nth t.p i)) ≥ nth t.M (i - 1)
      · have hx : wrap (nth t.v i + nth t.M (nth t.p i)) = nth t.v i + nth t.M (nth t.p i) :=
          wrap_exact _ _ (hvint i (by omega) hin) hq0 hq1 (by omega)
        have hMi : nth t.M i = nth t.v i + nth t.M (nth t.p i) := by
          rw [hrec i (by omega) hin, max_of_ge _ _ hge, hx]
        have hsw : wrap (sum + nth t.v i) = sum + nth t.v i :=
          wrap_eq (by omega) (by omega)
        obtain ⟨incl, hw, hmem, hpw, hsum⟩ := ih (nth t.p i) (sum + nth t.v i) hp0 (by omega)
          (by push_cast at hf; omega) (by omega) (by omega)
        simp only [hge, if_true, hsw, hw, Option.map_some']
        refine ⟨i :: incl, ?_, ?_, ?_, ?_⟩
        · rw [hMi]; congr 2; ring
        · intro j hj
          rcases List.mem_cons.1 hj with rfl | hj
          · omega
          · have := hmem j hj; omega
        · exact List.Pairwise.cons (fun j hj => (hmem j hj).2) hpw
        · rw [List.map_cons, List.sum_cons, hsum, hMi]
      · have hMi : nth t.M i = nth t.M (i - 1) := by
          rw [hrec i (by omega) hin]; exact max_of_not_ge _ _ hge
        obtain ⟨incl, hw, hmem, hpw, hsum⟩ := ih (i - 1) sum (by omega) (by omega)
          (by push_cast at hf; omega) hs0 (by omega)
        simp only [hge, if_false, hw]
        refine ⟨incl, by rw [hMi], ?_, hpw, by rw [hsum, hMi]⟩
        intro j hj
        have := hmem j hj; omega
    · have hi0 : i = 0 := by omega
      subst hi0
      simp only [hc, if_false]
      exact ⟨[], by rw [hM0]; simp, fun j hj => by simp at hj, List.Pairwise.nil, by
        simp [hM0]⟩

/-- The predecessor loop on the loaded tables of an input that passes the ordering check:
it returns, and for every interval `i` whose start is not below the sentinel, `p[i]` is a
subscript in `0..n` with `f[j] <= s[i]` for all `j <= p[i]` and `f[j] > s[i]` for all
`j` in `p[i]+1..n`. -/
theorem fillP_input (inp : Input) (hord : inp.Ordered) (t0 : Tables)
    (hs : t0.s.length = TABSIZE) (hf : t0.f.length = TABSIZE) (hp : t0.p.length = TABSIZE)
    (hf0 : nth t0.f 0 = SENTINEL)
    (hrows : ∀ i, 1 ≤ i → i ≤ inp.n →
      nth t0.s i = inp.start i ∧ nth t0.f i = inp.finish i ∧ nth t0.v i = inp.value i) :
    ∃ p1, fillP t0.s t0.f inp.n (inp.n.toNat + 1) 1 t0.p = some p1 ∧ p1.length = TABSIZE ∧
      ∀ i, 1 ≤ i → i ≤ inp.n → -1 ≤ nth p1 i ∧ nth p1 i ≤ inp.n ∧
        (SENTINEL ≤ inp.start i →
          0 ≤ nth p1 i ∧
          (∀ j, 0 ≤ j → j ≤ nth p1 i → nth t0.f j ≤ inp.start i) ∧
          (∀ j, nth p1 i < j → j ≤ inp.n → inp.start i < nth t0.f j)) := by
  have hT : TABSIZE = 100 := rfl
  have hfits := inp.fits
  have hn : inp.n = inp.rows.length := rfl
  obtain ⟨p1, hp1, hlen, _, hhigh⟩ := fillP_spec t0.s t0.f inp.n (by omega) (by omega)
    (by omega) (inp.n.toNat + 1) 1 t0.p (le_refl _) (by push_cast; omega) (by omega) (by omega)
  refine ⟨p1, hp1, by rw [hlen, hp], ?_⟩
  intro i hi1 hi2
  have hb := hhigh i hi1 hi2
  rw [(hrows i hi1 hi2).1] at hb
  obtain ⟨h, hh, hlo, hhi⟩ :=
    binSearchLast_total t0.f (inp.n + 1) (inp.start i) (by omega) (by omega) (by omega)
  have heq : nth p1 i = h := by
    rw [hh] at hb; exact (Option.some.inj hb).symm
  refine ⟨by omega, by omega, ?_⟩
  intro hsent
  have hmono : ∀ a b, 0 ≤ a → a ≤ b → b < inp.n + 1 → nth t0.f b ≤ inp.start i →
      nth t0.f a ≤ inp.start i := by
    intro a b ha hab hb2 hle
    by_cases ha0 : a = 0
    · subst ha0; rw [hf0]; exact hsent
    · rw [(hrows a (by omega) (by omega)).2.1]
      rw [(hrows b (by omega) (by omega)).2.1] at hle
      exact le_trans (ordered_le inp hord a b (by omega) hab (by omega)) hle
  obtain ⟨h2, hh2, _, _, hle, hgt⟩ :=
    binSearchLast_spec t0.f (inp.start i) (inp.n + 1) (by omega) (by omega) (by omega) hmono
  have heq2 : nth p1 i = h2 := by
    rw [hh2] at hb; exact (Option.some.inj hb).symm
  rw [heq2]
  refine ⟨?_, hle, fun j a b => hgt j a (by omega)⟩
  by_contra hneg
  have := hgt 0 (by omega) (by omega)
  rw [hf0] at this
  omega

/-- The whole program on an input with non-decreasing finish times, `s[i] < f[i]` and
`s[i] >= -999999`: with fuel above `n` for the reconstruction loop it runs to the end, and
its final tables and output are as described. -/
theorem main_ok (inp : Input) (hord : inp.Ordered) (hprop : inp.Proper) (fuel : Nat)
    (hfuel : inp.rows.length + 1 ≤ fuel) :
    ∃ (t : Tables) (rows : List Out) (incl : List Int) (sum : Int),
      main fuel inp = some (t, Out.header :: rows ++ incl.map Out.incl ++ [Out.total sum]) ∧
      (∀ x ∈ rows, ∃ a b c d e g, x = Out.row a b c d e g) ∧
      (∀ i, 1 ≤ i → i ≤ inp.n → nth t.v i = inp.value i) ∧
      (∀ i, 1 ≤ i → i ≤ inp.n → 0 ≤ nth t.p i ∧ nth t.p i < i ∧
        ∀ j, 1 ≤ j → j ≤ inp.n → (j ≤ nth t.p i ↔ inp.finish j ≤ inp.start i)) ∧
      nth t.M 0 = 0 ∧
      (∀ i, 1 ≤ i → i ≤ inp.n →
        nth t.M i = max (wrap (inp.value i + nth t.M (nth t.p i))) (nth t.M (i - 1))) ∧
      sum = nth t.M inp.n ∧
      (∀ j ∈ incl, 1 ≤ j ∧ j ≤ inp.n) ∧
      incl.Pairwise (fun k j => j ≤ nth t.p k) ∧
      (incl.map inp.value).sum = sum := by
  have hT : TABSIZE = 100 := rfl
  have hfits := inp.fits
  have hn : inp.n = inp.rows.length := rfl
  obtain ⟨t0, hload, hs, hf, hv, hp, hM, hf0, hrows⟩ := load_spec inp
  have hpl : t0.p.length = TABSIZE := by rw [hp]; simp [Tables.zero]
  have hMl : t0.M.length = TABSIZE := by rw [hM]; simp [Tables.zero]
  obtain ⟨k, hk, hiff⟩ := orderScan_input inp t0 hf (fun i h1 h2 => (hrows i h1 h2).2.1)
  have hkn : ¬ k ≤ inp.n := by
    rw [hiff]
    rintro ⟨i, hi2, hin, hlt⟩
    have := ordered_adj inp hord i hi2 hin
    omega
  obtain ⟨p1, hp1, hp1len, hp1spec⟩ := fillP_input inp hord t0 hs hf hpl hf0 hrows
  have hpred : ∀ i, 1 ≤ i → i ≤ inp.n → 0 ≤ nth p1 i ∧ nth p1 i < i ∧
      ∀ j, 1 ≤ j → j ≤ inp.n → (j ≤ nth p1 i ↔ inp.finish j ≤ inp.start i) := by
    intro i hi1 hi2
    obtain ⟨hlt, hsent⟩ := proper_at inp hprop i hi1 hi2
    obtain ⟨_, _, h3⟩ := hp1spec i hi1 hi2
    obtain ⟨h0, hle, hgt⟩ := h3 hsent
    refine ⟨h0, ?_, ?_⟩
    · by_contra hc
      have := hle i (by omega) (by omega)
      rw [(hrows i hi1 hi2).2.1] at this
      omega
    · intro j hj1 hj2
      constructor
      · intro hj
        have := hle j (by omega) hj
        rwa [(hrows j hj1 hj2).2.1] at this
      · intro hfin
        by_contra hc
        have := hgt j (by omega) hj2
        rw [(hrows j hj1 hj2).2.1] at this
        omega
  have hw : wr t0.M 0 0 = some (t0.M.set (0 : Int).toNat 0) :=
    wr_eq _ (le_refl _) (by omega)
  obtain ⟨M1, hM1, hM1len, hM1low, hM1rec⟩ := fillM_spec t0.v p1 inp.n (by omega) (by omega)
    (fun i h1 h2 => ⟨(hpred i h1 h2).1, (hpred i h1 h2).2.1⟩) (inp.n.toNat + 1) 1
    (t0.M.set (0 : Int).toNat 0) (le_refl _) (by push_cast; omega) (by omega)
    (by rw [List.length_set]; omega)
  have hM1l : M1.length = TABSIZE := by rw [hM1len, List.length_set]; exact hMl
  have hM10 : nth M1 0 = 0 := by
    rw [hM1low 0 (le_refl _) (by omega), nth_set _ (le_refl _) (by omega) (le_refl _)]
    simp
  obtain ⟨rows, hrowsP, hrowsAll⟩ := printRows_spec { t0 with p := p1, M := M1 } inp.n
    (by show inp.n < t0.s.length; omega) (by show inp.n < t0.f.length; omega)
    (by show inp.n < t0.v.length; omega) (by show inp.n < p1.length; omega)
    (by show inp.n < M1.length; omega) (inp.n.toNat + 1) 1 (by omega)
    (by push_cast; omega) (by omega)
  have hvint : ∀ i, 1 ≤ i → i ≤ inp.n → IsInt (nth t0.v i) := by
    intro i h1 h2
    rw [(hrows i h1 h2).2.2]
    exact value_isInt inp i h1 h2
  have hMn := (table_bounds_at t0.v p1 M1 inp.n hM10 hM1rec inp.n (by omega) (le_refl _)).2.1
  obtain ⟨incl, hwalk, hmem, hpw, hsum⟩ := walk_spec { t0 with p := p1, M := M1 } inp.n
    (by show inp.n < t0.v.length; omega) (by show inp.n < p1.length; omega)
    (by show inp.n < M1.length; omega)
    (fun i h1 h2 => ⟨(hpred i h1 h2).1, (hpred i h1 h2).2.1⟩) hvint hM10 hM1rec fuel inp.n 0
    (by omega) (le_refl _) (by omega) (le_refl _) (by simpa using hMn)
  simp only [zero_add] at hwalk
  refine ⟨{ t0 with p := p1, M := M1 }, rows, incl, nth M1 inp.n, ?_, hrowsAll,
    fun i h1 h2 => (hrows i h1 h2).2.2, hpred, hM10, ?_, rfl, hmem, hpw, ?_⟩
  · simp only [main, hload, hk, hkn, if_false, hp1, hw, hM1, hrowsP, hwalk]
  · intro i h1 h2
    have := hM1rec i h1 h2
    rw [(hrows i h1 h2).2.2] at this
    exact this
  · rw [← hsum]
    congr 1
    apply List.map_congr_left
    intro j hj
    obtain ⟨hj1, hj2⟩ := hmem j hj
    exact ((hrows j hj1 hj2).2.2).symm

theorem feasible_mono (inp : Input) (i k : Int) (hik : i ≤ k) (S : Finset Int)
    (hS : inp.Feasible i S) : inp.Feasible k S :=
  ⟨fun j hj => ⟨(hS.1 j hj).1, le_trans (hS.1 j hj).2 hik⟩, hS.2⟩

theorem feasible_empty (inp : Input) (i : Int) : inp.Feasible i ∅ :=
  ⟨fun j hj => by simp at hj, fun j hj => by simp at hj⟩

/-- The total value of a set of intervals of an input whose values are at most `B` is at
most `n * B`. -/
theorem total_le_of_values (inp : Input) (B : Int) (hB : 0 ≤ B)
    (hv : ∀ r ∈ inp.rows, r.2.2 ≤ B) (S : Finset Int) (hS : inp.Feasible inp.n S) :
    inp.total S ≤ inp.n * B := by
  have hn : inp.n = inp.rows.length := rfl
  have hval : ∀ j ∈ S, inp.value j ≤ B := by
    intro j hj
    obtain ⟨h1, h2⟩ := hS.1 j hj
    have hk : (j - 1).toNat < inp.rows.length := by omega
    unfold Input.value
    rw [List.getD_eq_getElem _ _ hk]
    exact hv _ (List.getElem_mem _)
  have hsub : S ⊆ Finset.Icc 1 inp.n := by
    intro j hj
    rw [Finset.mem_Icc]
    exact hS.1 j hj
  have hcard : (S.card : Int) ≤ inp.n := by
    have h1 := Finset.card_le_card hsub
    rw [Int.card_Icc] at h1
    omega
  have h1 : inp.total S ≤ S.card • B := Finset.sum_le_card_nsmul S _ B hval
  have h2 : S.card • B = (S.card : Int) * B := by simp
  rw [h2] at h1
  exact le_trans h1 (mul_le_mul_of_nonneg_right hcard hB)

/-- The recurrence computes the optimum, as long as no pairwise non-overlapping set of
intervals has a total above the largest `int`: if `p` is the predecessor function and `M`
obeys `M 0 = 0` and `M i = max (v i + M (p i)) (M (i-1))` with the `int` sum of the
program, then `M i` is the largest total value of a pairwise non-overlapping set of
intervals among `1..i`. -/
theorem recurrence_optimal (inp : Input) (p M : Int → Int)
    (hpred : ∀ i, 1 ≤ i → i ≤ inp.n → 0 ≤ p i ∧ p i < i ∧
      ∀ j, 1 ≤ j → j ≤ inp.n → (j ≤ p i ↔ inp.finish j ≤ inp.start i))
    (hM0 : M 0 = 0)
    (hrec : ∀ i, 1 ≤ i → i ≤ inp.n → M i = max (wrap (inp.value i + M (p i))) (M (i - 1)))
    (hopt : ∀ S, inp.Feasible inp.n S → inp.total S ≤ 2147483647) :
    ∀ k : Nat, (k : Int) ≤ inp.n →
      (∃ S, inp.Feasible k S ∧ inp.total S = M k) ∧
      (∀ S, inp.Feasible k S → inp.total S ≤ M k) := by
  intro k
  induction k using Nat.strong_induction_on with
  | _ k ih =>
    intro hk
    rcases Nat.eq_zero_or_pos k with hk0 | hkpos
    · subst hk0
      simp only [Nat.cast_zero]
      constructor
      · refine ⟨∅, feasible_empty inp 0, ?_⟩
        simp [Input.total, hM0]
      · intro S hS
        have hemp : S = ∅ := by
          apply Finset.eq_empty_of_forall_not_mem
          intro j hj
          have := hS.1 j hj
          omega
        subst hemp
        simp [Input.total, hM0]
    · obtain ⟨hp0, hp1, hiff⟩ := hpred k (by omega) hk
      have hMk := hrec k (by omega) hk
      have hvk := value_isInt inp k (by omega) hk
      have ihp := ih (p k).toNat (by omega) (by omega)
      have ep : (((p k).toNat : Nat) : Int) = p k := by omega
      rw [ep] at ihp
      have ihm := ih (k - 1) (by omega) (by omega)
      have em : ((k - 1 : Nat) : Int) = (k : Int) - 1 := by omega
      rw [em] at ihm
      -- an optimal set among `1..p k`, and the set it makes with `k`
      obtain ⟨S1, hS1, hS1t⟩ := ihp.1
      have hq0 : 0 ≤ M (p k) := by
        have := ihp.2 ∅ (feasible_empty inp _)
        simpa [Input.total] using this
      have hq1 : M (p k) ≤ 2147483647 := by
        rw [← hS1t]
        exact hopt S1 (feasible_mono inp _ _ (by omega) S1 hS1)
      have hm0 : 0 ≤ M ((k : Int) - 1) := by
        have := ihm.2 ∅ (feasible_empty inp _)
        simpa [Input.total] using this
      have hnot : (k : Int) ∉ S1 := by
        intro hmem
        have := hS1.1 _ hmem
        omega
      have hins : inp.Feasible k (insert (k : Int) S1) := by
        constructor
        · intro j hj
          rcases Finset.mem_insert.1 hj with rfl | hj
          · omega
          · have := hS1.1 j hj; omega
        · intro j hj l hl hjl
          rcases Finset.mem_insert.1 hl with rfl | hl
          · rcases Finset.mem_insert.1 hj with rfl | hj
            · omega
            · have hb := hS1.1 j hj
              exact (hiff j hb.1 (by omega)).1 hb.2
          · rcases Finset.mem_insert.1 hj with rfl | hj
            · have := hS1.1 l hl; omega
            · exact hS1.2 j hj l hl hjl
      have hinst : inp.total (insert (k : Int) S1) = inp.value k + M (p k) := by
        unfold Input.total at hS1t ⊢
        rw [Finset.sum_insert hnot, hS1t]
      have hx1 : inp.value k + M (p k) ≤ 2147483647 := by
        rw [← hinst]
        exact hopt _ (feasible_mono inp _ _ hk _ hins)
      have hx : wrap (inp.value k + M (p k)) = inp.value k + M (p k) :=
        wrap_eq (by unfold IsInt at hvk; omega) hx1
      rw [hx] at hMk
      constructor
      · by_cases hge : inp.value k + M (p k) ≥ M ((k : Int) - 1)
        · exact ⟨insert (k : Int) S1, hins, by rw [hinst, hMk, max_of_ge _ _ hge]⟩
        · obtain ⟨S, hS, hSt⟩ := ihm.1
          refine ⟨S, ⟨?_, hS.2⟩, ?_⟩
          · intro j hj
            have := hS.1 j hj; omega
          · rw [hSt, hMk, max_of_not_ge _ _ hge]
      · intro S hS
        by_cases hmem : (k : Int) ∈ S
        · have hfe : inp.Feasible (p k) (S.erase (k : Int)) := by
            constructor
            · intro j hj
              obtain ⟨hne, hj⟩ := Finset.mem_erase.1 hj
              have hb := hS.1 j hj
              have hlt : j < (k : Int) := by omega
              have := (hiff j hb.1 (by omega)).2 (hS.2 j hj k hmem hlt)
              omega
            · intro j hj l hl hjl
              exact hS.2 j (Finset.mem_of_mem_erase hj) l (Finset.mem_of_mem_erase hl) hjl
          have h1 := ihp.2 _ hfe
          have h2 : inp.total S = inp.value k + inp.total (S.erase (k : Int)) := by
            unfold Input.total
            rw [Finset.add_sum_erase S (fun j => inp.value j) hmem]
          have h3 := le_max_fst (inp.value k + M (p k)) (M ((k : Int) - 1))
          rw [h2, hMk]
          omega
        · have hfe : inp.Feasible ((k : Int) - 1) S := by
            refine ⟨?_, hS.2⟩
            intro j hj
            have hb := hS.1 j hj
            have hne : j ≠ (k : Int) := by
              rintro rfl; exact hmem hj
            omega
          have h1 := ihm.2 _ hfe
          have h3 := le_max_snd (inp.value k + M (p k)) (M ((k : Int) - 1))
          rw [hMk]
          omega

theorem wr_length {s s1 : List Int} {i x : Int} (h : wr s i x = some s1) :
    s1.length = s.length := by
  unfold wr at h
  split at h
  · cases h; exact List.length_set _ _ _
  · cases h

theorem fillP_length (s f : List Int) (n : Int) (fuel : Nat) :
    ∀ (i : Int) (p p1 : List Int), fillP s f n fuel i p = some p1 → p1.length = p.length := by
  induction fuel with
  | zero => intro i p p1 h; simp [fillP] at h
  | succ fuel ih =>
    intro i p p1 h
    rw [fillP] at h
    split at h
    · split at h
      · cases h
      · split at h
        · cases h
        · split at h
          · cases h
          · rename_i p2 hw
            rw [ih _ _ _ h, wr_length hw]
    · cases h; rfl

theorem fillM_length (v p : List Int) (n : Int) (fuel : Nat) :
    ∀ (i : Int) (M M1 : List Int), fillM v p n fuel i M = some M1 → M1.length = M.length := by
  induction fuel with
  | zero => intro i M M1 h; simp [fillM] at h
  | succ fuel ih =>
    intro i M M1 h
    rw [fillM] at h
    split at h
    · split at h
      · split at h
        · split at h
          · cases h
          · rename_i M2 hw
            rw [ih _ _ _ h, wr_length hw]
        · cases h
      · cases h
    · cases h; rfl

/-- What a finished run on an input that passes the ordering check consists of: the
computed tables, each of `TABSIZE` entries, the table rows, and the result of the
reconstruction loop on those tables. -/
theorem main_ordered_shape (fuel : Nat) (inp : Input) (hord : inp.Ordered) (t : Tables)
    (out : List Out) (h : main fuel inp = some (t, out)) :
    computed inp = some t ∧
    (t.s.length = TABSIZE ∧ t.f.length = TABSIZE ∧ t.v.length = TABSIZE ∧
      t.p.length = TABSIZE ∧ t.M.length = TABSIZE) ∧
    ∃ rows incl sum, walk t fuel inp.n 0 = some (incl, sum) ∧
      out = Out.header :: rows ++ incl.map Out.incl ++ [Out.total sum] := by
  obtain ⟨t0, hload, hs, hf, hv, hp, hM, _, hrows⟩ := load_spec inp
  have hpl : t0.p.length = TABSIZE := by rw [hp]; simp [Tables.zero]
  have hMl : t0.M.length = TABSIZE := by rw [hM]; simp [Tables.zero]
  obtain ⟨k, hk, hiff⟩ := orderScan_input inp t0 hf (fun i h1 h2 => (hrows i h1 h2).2.1)
  have hkn : ¬ k ≤ inp.n := by
    rw [hiff]
    rintro ⟨i, hi2, hin, hlt⟩
    have := ordered_adj inp hord i hi2 hin
    omega
  obtain ⟨p1, M0, M1, rows, incl, sum, hp1, hM0, hM1, _, hwalk, rfl, rfl⟩ :=
    main_passed_shape fuel inp t0 k hload hk hkn t out h
  refine ⟨?_, ⟨hs, hf, hv, ?_, ?_⟩, rows, incl, sum, hwalk, rfl⟩
  · simp only [computed, hload, hp1, hM0, hM1]
  · show p1.length = TABSIZE
    rw [fillP_length _ _ _ _ _ _ _ hp1, hpl]
  · show M1.length = TABSIZE
    rw [fillM_length _ _ _ _ _ _ _ hM1, wr_length hM0, hMl]

theorem pairwise_mem_cases {α : Type} (R : α → α → Prop) :
    ∀ l : List α, l.Pairwise R → ∀ a ∈ l, ∀ b ∈ l, a = b ∨ R a b ∨ R b a
  | [], _, a, ha, _, _ => by simp at ha
  | x :: l, h, a, ha, b, hb => by
    rw [List.pairwise_cons] at h
    rcases List.mem_cons.1 ha with ha1 | ha1
    · rcases List.mem_cons.1 hb with hb1 | hb1
      · exact Or.inl (ha1.trans hb1.symm)
      · exact Or.inr (Or.inl (ha1 ▸ h.1 b hb1))
    · rcases List.mem_cons.1 hb with hb1 | hb1
      · exact Or.inr (Or.inr (hb1 ▸ h.1 a ha1))
      · exact pairwise_mem_cases R l h.2 a ha1 b hb1

/-- C2 as stated fails: the input `(0,1,2147483647), (1,2,1)` has non-decreasing finish
times, `s[i] < f[i]` and `s[i] >= -999999`; its two intervals do not overlap and their
values add up to 2147483648, but the `int` sum `v[2] + M[p[2]]` of the program is
`-2147483648`, and every run ends with `M[2] = 2147483647`, below that total. -/
theorem optimum_above_int_counterexample :
    overflowInput.Ordered ∧ overflowInput.Proper ∧
    overflowInput.Feasible 2 {1, 2} ∧ overflowInput.total {1, 2} = 2147483648 ∧
    (main 3 overflowInput).map (fun r => (nth r.1.p 2, nth r.1.M 1, nth r.1.M 2)) =
      some (1, 2147483647, 2147483647) ∧
    wrap (1 + 2147483647) = -2147483648 ∧
    ∀ fuel t out, main fuel overflowInput = some (t, out) →
      nth t.M 2 = 2147483647 ∧ nth t.M 2 < overflowInput.total {1, 2} := by
  have hfe : overflowInput.Feasible 2 {1, 2} := by
    constructor
    · intro j hj
      simp only [Finset.mem_insert, Finset.mem_singleton] at hj
      rcases hj with rfl | rfl <;> decide
    · intro j hj k hk hjk
      simp only [Finset.mem_insert, Finset.mem_singleton] at hj hk
      rcases hj with rfl | rfl <;> rcases hk with rfl | rfl
      · omega
      · decide
      · omega
      · omega
  have htot : overflowInput.total {1, 2} = 2147483648 := by
    unfold Input.total
    rw [Finset.sum_pair (by decide)]
    decide
  refine ⟨by decide, by decide, hfe, htot, by decide, by decide, ?_⟩
  intro fuel t out hm
  have hc := (main_ordered_shape fuel overflowInput (by decide) t out hm).1
  have key : (computed overflowInput).map (fun t => nth t.M 2) = some 2147483647 := by
    decide
  rw [hc] at key
  have hM : nth t.M 2 = 2147483647 := Option.some.inj key
  rw [hM, htot]
  exact ⟨rfl, by decide⟩

/-- C2, amended: on a scheduler input (at most 99 intervals) with non-decreasing finish
times, `s[i] < f[i]` and `s[i] >= -999999` for every `i`, in which no pairwise
non-overlapping set of intervals has a total value above 2147483647, the largest `int`,
the program runs to the end, and for every `i` in `0..n` the entry `M[i]` of its final
table is the maximum of the total value over the pairwise non-overlapping sets of
intervals among `1..i`: some such set has total `M[i]` and none has more. -/
theorem table_M_is_optimum (inp : Input) (hord : inp.Ordered) (hprop : inp.Proper)
    (hopt : ∀ S, inp.Feasible inp.n S → inp.total S ≤ 2147483647)
    (fuel : Nat) (hfuel : inp.rows.length + 1 ≤ fuel) :
    ∃ t out, main fuel inp = some (t, out) ∧
      ∀ i, 0 ≤ i → i ≤ inp.n →
        (∃ S, inp.Feasible i S ∧ inp.total S = nth t.M i) ∧
        (∀ S, inp.Feasible i S → inp.total S ≤ nth t.M i) := by
  obtain ⟨t, rows, incl, sum, hmain, _, _, hpred, hM0, hrec, _⟩ :=
    main_ok inp hord hprop fuel hfuel
  refine ⟨t, _, hmain, ?_⟩
  intro i hi0 hin
  have := recurrence_optimal inp (nth t.p) (nth t.M) hpred hM0 hrec hopt i.toNat (by omega)
  have e : ((i.toNat : Nat) : Int) = i := by omega
  rwa [e] at this

theorem table_M_is_optimum_witness :
    ∃ t out, main 4 ⟨[(1, 4, 3), (4, 5, 2), (0, 6, 4)], by decide, by decide⟩ =
        some (t, out) ∧
      ∀ i, 0 ≤ i → i ≤ Input.n ⟨[(1, 4, 3), (4, 5, 2), (0, 6, 4)], by decide, by decide⟩ →
        (∃ S, Input.Feasible ⟨[(1, 4, 3), (4, 5, 2), (0, 6, 4)], by decide, by decide⟩ i S ∧
          Input.total ⟨[(1, 4, 3), (4, 5, 2), (0, 6, 4)], by decide, by decide⟩ S =
            nth t.M i) ∧
        (∀ S, Input.Feasible ⟨[(1, 4, 3), (4, 5, 2), (0, 6, 4)], by decide, by decide⟩ i S →
          Input.total ⟨[(1, 4, 3), (4, 5, 2), (0, 6, 4)], by decide, by decide⟩ S ≤
            nth t.M i) :=
  table_M_is_optimum ⟨[(1, 4, 3), (4, 5, 2), (0, 6, 4)], by decide, by decide⟩ (by decide)
    (by decide)
    (fun S hS => le_trans (total_le_of_values _ 4 (by decide) (by decide) S hS) (by decide))
    4 (by decide)

/-- C3: on a scheduler input with non-decreasing finish times, `s[i] < f[i]` and
`s[i] >= -999999` for every `i`, the program prints the header, the table rows, the
"Include interval" lines and the sum line, and the `sum` it prints, which is the sum of
the values of the intervals it reports, equals `M[n]`. -/
theorem walk_sum_eq_M (inp : Input) (hord : inp.Ordered) (hprop : inp.Proper)
    (fuel : Nat) (hfuel : inp.rows.length + 1 ≤ fuel) :
    ∃ (t : Tables) (rows : List Out) (incl : List Int) (sum : Int),
      main fuel inp = some (t, Out.header :: rows ++ incl.map Out.incl ++ [Out.total sum]) ∧
      (∀ x ∈ rows, ∃ a b c d e g, x = Out.row a b c d e g) ∧
      sum = (incl.map inp.value).sum ∧ sum = nth t.M inp.n := by
  obtain ⟨t, rows, incl, sum, hmain, hrows, _, _, _, _, hsum, _, _, hsum2⟩ :=
    main_ok inp hord hprop fuel hfuel
  exact ⟨t, rows, incl, sum, hmain, hrows, hsum2.symm, hsum⟩

theorem walk_sum_eq_M_witness :
    ∃ (t : Tables) (rows : List Out) (incl : List Int) (sum : Int),
      main 4 ⟨[(1, 4, 3), (4, 5, 2), (0, 6, 4)], by decide, by decide⟩ =
        some (t, Out.header :: rows ++ incl.map Out.incl ++ [Out.total sum]) ∧
      (∀ x ∈ rows, ∃ a b c d e g, x = Out.row a b c d e g) ∧
      sum = (incl.map (Input.value ⟨[(1, 4, 3), (4, 5, 2), (0, 6, 4)], by decide, by decide⟩)).sum ∧
      sum = nth t.M (Input.n ⟨[(1, 4, 3), (4, 5, 2), (0, 6, 4)], by decide, by decide⟩) :=
  walk_sum_eq_M ⟨[(1, 4, 3), (4, 5, 2), (0, 6, 4)], by decide, by decide⟩ (by decide) (by decide) 4
    (by decide)

/-- C4: on a scheduler input with non-decreasing finish times, `s[i] < f[i]` and
`s[i] >= -999999` for every `i`, the intervals reported by "Include interval" are
intervals of the input, come in strictly decreasing order of index, and are pairwise
non-overlapping: for reported `j < k`, `f[j] <= s[k]`. -/
theorem included_decreasing_disjoint (inp : Input) (hord : inp.Ordered)
    (hprop : inp.Proper) (fuel : Nat) (hfuel : inp.rows.length + 1 ≤ fuel) :
    ∃ (t : Tables) (rows : List Out) (incl : List Int) (sum : Int),
      main fuel inp = some (t, Out.header :: rows ++ incl.map Out.incl ++ [Out.total sum]) ∧
      (∀ x ∈ rows, ∃ a b c d e g, x = Out.row a b c d e g) ∧
      (∀ j ∈ incl, 1 ≤ j ∧ j ≤ inp.n) ∧
      incl.Pairwise (· > ·) ∧
      (∀ j ∈ incl, ∀ k ∈ incl, j < k → inp.finish j ≤ inp.start k) := by
  obtain ⟨t, rows, incl, sum, hmain, hrows, _, hpred, _, _, _, hmem, hpw, _⟩ :=
    main_ok inp hord hprop fuel hfuel
  have hpw2 : incl.Pairwise (fun k j => k > j ∧ inp.finish j ≤ inp.start k) := by
    refine List.Pairwise.imp_of_mem ?_ hpw
    intro k j hk hj hjk
    obtain ⟨hk1, hk2⟩ := hmem k hk
    obtain ⟨hj1, hj2⟩ := hmem j hj
    obtain ⟨_, hlt, hiff⟩ := hpred k hk1 hk2
    exact ⟨by omega, (hiff j hj1 hj2).1 hjk⟩
  refine ⟨t, rows, incl, sum, hmain, hrows, hmem, hpw2.imp (fun h => h.1), ?_⟩
  intro j hj k hk hjk
  rcases pairwise_mem_cases _ incl hpw2 j hj k hk with h | h | h
  · omega
  · have := h.1; omega
  · exact h.2

theorem included_decreasing_disjoint_witness :
    ∃ (t : Tables) (rows : List Out) (incl : List Int) (sum : Int),
      main 4 ⟨[(1, 4, 3), (4, 5, 2), (0, 6, 4)], by decide, by decide⟩ =
        some (t, Out.header :: rows ++ incl.map Out.incl ++ [Out.total sum]) ∧
      (∀ x ∈ rows, ∃ a b c d e g, x = Out.row a b c d e g) ∧
      (∀ j ∈ incl, 1 ≤ j ∧ j ≤ Input.n ⟨[(1, 4, 3), (4, 5, 2), (0, 6, 4)], by decide, by decide⟩) ∧
      incl.Pairwise (· > ·) ∧
      (∀ j ∈ incl, ∀ k ∈ incl, j < k →
        Input.finish ⟨[(1, 4, 3), (4, 5, 2), (0, 6, 4)], by decide, by decide⟩ j ≤
          Input.start ⟨[(1, 4, 3), (4, 5, 2), (0, 6, 4)], by decide, by decide⟩ k) :=
  included_decreasing_disjoint ⟨[(1, 4, 3), (4, 5, 2), (0, 6, 4)], by decide, by decide⟩ (by decide)
    (by decide) 4 (by decide)

/-- C6 as stated fails: the one-interval input `(-1000000, 5, 1)` passes the ordering
check, yet it is not the case that the computed `p[1]` is the largest subscript `j` in
`0..n` with `f[j] <= s[1]`: the search returns `-1`, because the sentinel `f[0]` itself
is above `s[1]`. -/
theorem predecessor_below_sentinel_counterexample :
    belowSentinelInput.Ordered ∧ 1 ≤ belowSentinelInput.n ∧
    ¬ ∃ t0 p1, load belowSentinelInput.rows = some t0 ∧
      fillP t0.s t0.f belowSentinelInput.n (belowSentinelInput.n.toNat + 1) 1 t0.p = some p1 ∧
      0 ≤ nth p1 1 ∧ nth p1 1 ≤ belowSentinelInput.n ∧
      nth t0.f (nth p1 1) ≤ belowSentinelInput.start 1 ∧
      ∀ j, 0 ≤ j → j ≤ belowSentinelInput.n → nth t0.f j ≤ belowSentinelInput.start 1 →
        j ≤ nth p1 1 := by
  refine ⟨by decide, by decide, ?_⟩
  rintro ⟨t0, p1, hl, hp, h0, _⟩
  have key : ((load belowSentinelInput.rows).bind (fun t0 =>
      fillP t0.s t0.f belowSentinelInput.n (belowSentinelInput.n.toNat + 1) 1 t0.p)).map
        (fun p => nth p 1) = some (-1) := by decide
  rw [hl, Option.some_bind, hp, Option.map_some'] at key
  have := Option.some.inj key
  omega

/-- C6, amended: on a scheduler input that passes the ordering check, for every interval
`i` in `1..n` with `s[i] >= -999999`, the computed `p[i]` is the largest subscript `j` in
`0..n` with `f[j] <= s[i]`, where `f[0]` is the sentinel; it is never negative, and it is
0 when no real interval qualifies. -/
theorem predecessor_is_largest (inp : Input) (hord : inp.Ordered) (i : Int) (h1 : 1 ≤ i)
    (h2 : i ≤ inp.n) (hsent : SENTINEL ≤ inp.start i) :
    ∃ t0 p1, load inp.rows = some t0 ∧
      (∃ k, orderScan t0.f inp.n (inp.n.toNat + 1) 2 = some k ∧ ¬ k ≤ inp.n) ∧
      nth t0.f 0 = SENTINEL ∧ (∀ j, 1 ≤ j → j ≤ inp.n → nth t0.f j = inp.finish j) ∧
      fillP t0.s t0.f inp.n (inp.n.toNat + 1) 1 t0.p = some p1 ∧
      0 ≤ nth p1 i ∧ nth p1 i ≤ inp.n ∧
      nth t0.f (nth p1 i) ≤ inp.start i ∧
      (∀ j, 0 ≤ j → j ≤ inp.n → nth t0.f j ≤ inp.start i → j ≤ nth p1 i) ∧
      ((∀ j, 1 ≤ j → j ≤ inp.n → inp.start i < inp.finish j) → nth p1 i = 0) := by
  obtain ⟨t0, hload, hs, hf, hv, hp, hM, hf0, hrows⟩ := load_spec inp
  have hpl : t0.p.length = TABSIZE := by rw [hp]; simp [Tables.zero]
  obtain ⟨k, hk, hiff⟩ := orderScan_input inp t0 hf (fun i h1 h2 => (hrows i h1 h2).2.1)
  have hkn : ¬ k ≤ inp.n := by
    rw [hiff]
    rintro ⟨i, hi2, hin, hlt⟩
    have := ordered_adj inp hord i hi2 hin
    omega
  obtain ⟨p1, hp1, _, hspec⟩ := fillP_input inp hord t0 hs hf hpl hf0 hrows
  obtain ⟨_, hle, h3⟩ := hspec i h1 h2
  obtain ⟨h0, hlow, hhigh⟩ := h3 hsent
  refine ⟨t0, p1, hload, ⟨k, hk, hkn⟩, hf0, fun j a b => (hrows j a b).2.1, hp1, h0, hle,
    hlow _ h0 (le_refl _), ?_, ?_⟩
  · intro j hj0 hjn hj
    by_contra hc
    have := hhigh j (by omega) hjn
    omega
  · intro hnone
    by_contra hc
    have hpos : 1 ≤ nth p1 i := by omega
    have := hlow (nth p1 i) h0 (le_refl _)
    rw [(hrows _ hpos hle).2.1] at this
    have := hnone _ hpos hle
    omega

theorem predecessor_is_largest_witness :
    ∃ t0 p1, load (Input.rows ⟨[(1, 4, 3), (4, 5, 2), (0, 6, 4)], by decide, by decide⟩) = some t0 ∧
      (∃ k, orderScan t0.f (Input.n ⟨[(1, 4, 3), (4, 5, 2), (0, 6, 4)], by decide, by decide⟩)
        ((Input.n ⟨[(1, 4, 3), (4, 5, 2), (0, 6, 4)], by decide, by decide⟩).toNat + 1) 2 = some k ∧
        ¬ k ≤ Input.n ⟨[(1, 4, 3), (4, 5, 2), (0, 6, 4)], by decide, by decide⟩) ∧
      nth t0.f 0 = SENTINEL ∧
      (∀ j, 1 ≤ j → j ≤ Input.n ⟨[(1, 4, 3), (4, 5, 2), (0, 6, 4)], by decide, by decide⟩ →
        nth t0.f j = Input.finish ⟨[(1, 4, 3), (4, 5, 2), (0, 6, 4)], by decide, by decide⟩ j) ∧
      fillP t0.s t0.f (Input.n ⟨[(1, 4, 3), (4, 5, 2), (0, 6, 4)], by decide, by decide⟩)
        ((Input.n ⟨[(1, 4, 3), (4, 5, 2), (0, 6, 4)], by decide, by decide⟩).toNat + 1) 1 t0.p =
          some p1 ∧
      0 ≤ nth p1 2 ∧ nth p1 2 ≤ Input.n ⟨[(1, 4, 3), (4, 5, 2), (0, 6, 4)], by decide, by decide⟩ ∧
      nth t0.f (nth p1 2) ≤ Input.start ⟨[(1, 4, 3), (4, 5, 2), (0, 6, 4)], by decide, by decide⟩ 2 ∧
      (∀ j, 0 ≤ j → j ≤ Input.n ⟨[(1, 4, 3), (4, 5, 2), (0, 6, 4)], by decide, by decide⟩ →
        nth t0.f j ≤ Input.start ⟨[(1, 4, 3), (4, 5, 2), (0, 6, 4)], by decide, by decide⟩ 2 →
        j ≤ nth p1 2) ∧
      ((∀ j, 1 ≤ j → j ≤ Input.n ⟨[(1, 4, 3), (4, 5, 2), (0, 6, 4)], by decide, by decide⟩ →
        Input.start ⟨[(1, 4, 3), (4, 5, 2), (0, 6, 4)], by decide, by decide⟩ 2 <
          Input.finish ⟨[(1, 4, 3), (4, 5, 2), (0, 6, 4)], by decide, by decide⟩ j) → nth p1 2 = 0) :=
  predecessor_is_largest ⟨[(1, 4, 3), (4, 5, 2), (0, 6, 4)], by decide, by decide⟩ (by decide) 2
    (by decide) (by decide) (by decide)

theorem walk_fuel_mono (t : Tables) (fuel : Nat) :
    ∀ (i sum : Int) (r : List Int × Int), walk t fuel i sum = some r →
      ∀ k : Nat, walk t (fuel + k) i sum = some r := by
  induction fuel with
  | zero => intro i sum r h; simp [walk] at h
  | succ fuel ih =>
    intro i sum r h k
    have e : fuel + 1 + k = (fuel + k) + 1 := by omega
    rw [e, walk]
    rw [walk] at h
    split
    · rename_i hi
      simp only [hi, if_true] at h
      split
      · rename_i vi pi hv hp
        simp only [hv, hp] at h
        split
        · rename_i a b ha hb
          simp only [ha, hb] at h
          split
          · rename_i hge
            simp only [hge, if_true, Option.map_eq_some'] at h
            obtain ⟨r2, hr2, rfl⟩ := h
            rw [ih _ _ r2 hr2 k]
            rfl
          · rename_i hge
            simp only [hge, if_false] at h
            exact ih _ _ r h k
        · rename_i hne
          split at h
          · rename_i a b ha hb
            exact (hne a b ha hb).elim
          · cases h
      · rename_i hne
        split at h
        · rename_i vi pi hv hp
          exact (hne vi pi hv hp).elim
        · cases h
    · rename_i hi
      simp only [hi, if_false] at h
      exact h

/-- More fuel for the reconstruction loop does not change a finished run. -/
theorem main_fuel_mono (fuel : Nat) (inp : Input) (r : Tables × List Out)
    (h : main fuel inp = some r) (k : Nat) : main (fuel + k) inp = some r := by
  obtain ⟨t0, hload, _, hf, _, _, _, _, hrows⟩ := load_spec inp
  obtain ⟨j, hj, _⟩ := orderScan_input inp t0 hf (fun i h1 h2 => (hrows i h1 h2).2.1)
  by_cases hjn : j ≤ inp.n
  · simp only [main, hload, hj, hjn, if_true] at h ⊢
    exact h
  · obtain ⟨t, out⟩ := r
    obtain ⟨p1, M0, M1, rows, incl, sum, hp1, hM0, hM1, hrowsP, hwalk, rfl, rfl⟩ :=
      main_passed_shape fuel inp t0 j hload hj hjn t out h
    have hwalk2 := walk_fuel_mono _ fuel inp.n 0 (incl, sum) hwalk k
    simp only [main, hload, hj, hjn, if_false, hp1, hM0, hM1, hrowsP, hwalk2]

/-- The strict reconstruction loop on tables whose `p` and `M` obey `0 <= p[i] < i` and
the recurrence, and whose values are `int`s: from subscript `i` it ends within `i + 1`
evaluations of its condition and adds `M[i]` to the running sum. -/
theorem walkStrict_spec (t : Tables) (n : Int) (hv : n < t.v.length) (hp : n < t.p.length)
    (hM : n < t.M.length)
    (hpred : ∀ i, 1 ≤ i → i ≤ n → 0 ≤ nth t.p i ∧ nth t.p i < i)
    (hvint : ∀ i, 1 ≤ i → i ≤ n → IsInt (nth t.v i))
    (hM0 : nth t.M 0 = 0)
    (hrec : ∀ i, 1 ≤ i → i ≤ n →
      nth t.M i = max (wrap (nth t.v i + nth t.M (nth t.p i))) (nth t.M (i - 1)))
    (fuel : Nat) :
    ∀ (i sum : Int), 0 ≤ i → i ≤ n → i < fuel → 0 ≤ sum → sum + nth t.M i ≤ 2147483647 →
      ∃ incl, walkStrict t fuel i sum = some (incl, sum + nth t.M i) ∧
        (∀ j ∈ incl, 1 ≤ j ∧ j ≤ i) ∧
        (incl.map (nth t.v)).sum = nth t.M i := by
  induction fuel with
  | zero => intro i sum h0 _ hf; exfalso; simp at hf; omega
  | succ fuel ih =>
    intro i sum h0 hin hf hs0 hs1
    rw [walkStrict]
    by_cases hc : i > 0
    · obtain ⟨hp0, hp1⟩ := hpred i (by omega) hin
      have h1 : rd t.v i = some (nth t.v i) := rd_eq (by omega) (by omega)
      have h2 : rd t.p i = some (nth t.p i) := rd_eq (by omega) (by omega)
      have h3 : rd t.M (nth t.p i) = some (nth t.M (nth t.p i)) := rd_eq hp0 (by omega)
      have h4 : rd t.M (i - 1) = some (nth t.M (i - 1)) := rd_eq (by omega) (by omega)
      obtain ⟨hb0, hb1, hbm⟩ := table_bounds_at t.v t.p t.M n hM0 hrec i h0 hin
      obtain ⟨hq0, hq1, _⟩ :=
        table_bounds_at t.v t.p t.M n hM0 hrec (nth t.p i) hp0 (by omega)
      obtain ⟨hm0, _, _⟩ := table_bounds_at t.v t.p t.M n hM0 hrec (i - 1) (by omega) (by omega)
      have hqi := hbm (nth t.p i) hp0 (by omega)
      simp only [hc, if_true, h1, h2, h3, h4]
      by_cases hgt : wrap (nth t.v i + nth t.M (nth t.p i)) > nth t.M (i - 1)
      · have hx : wrap (nth t.v i + nth t.M (nth t.p i)) = nth t.v i + nth t.M (nth t.p i) :=
          wrap_exact _ _ (hvint i (by omega) hin) hq0 hq1 (by omega)
        have hMi : nth t.M i = nth t.v i + nth t.M (nth t.p i) := by
          rw [hrec i (by omega) hin, max_of_ge _ _ (le_of_lt hgt), hx]
        have hsw : wrap (sum + nth t.v i) = sum + nth t.v i :=
          wrap_eq (by omega) (by omega)
        obtain ⟨incl, hw, hmem, hsum⟩ := ih (nth t.p i) (sum + nth t.v i) hp0 (by omega)
          (by push_cast at hf; omega) (by omega) (by omega)
        simp only [hgt, if_true, hsw, hw, Option.map_some']
        refine ⟨i :: incl, ?_, ?_, ?_⟩
        · rw [hMi]; congr 2; ring
        · intro j hj
          rcases List.mem_cons.1 hj with rfl | hj
          · omega
          · have := hmem j hj; omega
        · rw [List.map_cons, List.sum_cons, hsum, hMi]
      · have hMi : nth t.M i = nth t.M (i - 1) := by
          rw [hrec i (by omega) hin]
          unfold max
          simp only [hgt, if_false]
        obtain ⟨incl, hw, hmem, hsum⟩ := ih (i - 1) sum (by omega) (by omega)
          (by push_cast at hf; omega) hs0 (by omega)
        simp only [hgt, if_false, hw]
        refine ⟨incl, by rw [hMi], ?_, by rw [hsum, hMi]⟩
        intro j hj
        have := hmem j hj; omega
    · have hi0 : i = 0 := by omega
      subst hi0
      simp only [hc, if_false]
      exact ⟨[], by rw [hM0]; simp, fun j hj => by simp at hj, by simp [hM0]⟩

theorem wr_some {s s1 : List Int} {i x : Int} (h : wr s i x = some s1) :
    0 ≤ i ∧ i < s.length ∧ s1 = s.set i.toNat x := by
  unfold wr at h
  split at h
  · rename_i hc
    exact ⟨hc.1, hc.2, (Option.some.inj h).symm⟩
  · cases h

theorem rd_some {s : List Int} {i x : Int} (h : rd s i = some x) :
    0 ≤ i ∧ i < s.length ∧ x = nth s i := by
  unfold rd at h
  split at h
  · rename_i hc
    obtain ⟨hlt, hx⟩ := List.getElem?_eq_some_iff.1 h
    refine ⟨hc, by omega, ?_⟩
    unfold nth
    rw [List.getD_eq_getElem _ _ hlt, hx]
  · cases h

/-- Whatever `p` holds, every finished run of the `M` loop leaves the entries below its
starting subscript alone, and each entry it writes is at least the entry before it. -/
theorem fillM_nondecreasing (v p : List Int) (n : Int) (fuel : Nat) :
    ∀ (i : Int) (M M1 : List Int), 1 ≤ i → fillM v p n fuel i M = some M1 →
      (∀ j, 0 ≤ j → j < i → nth M1 j = nth M j) ∧
      (∀ j, i ≤ j → j ≤ n → nth M1 (j - 1) ≤ nth M1 j) := by
  induction fuel with
  | zero => intro i M M1 _ h; simp [fillM] at h
  | succ fuel ih =>
    intro i M M1 hi h
    rw [fillM] at h
    split at h
    · split at h
      · rename_i vi pi _ _
        split at h
        · rename_i a b _ hb
          split at h
          · cases h
          · rename_i M2 hw
            obtain ⟨hw0, hw1, rfl⟩ := wr_some hw
            obtain ⟨_, _, rfl⟩ := rd_some hb
            obtain ⟨hlow, hhigh⟩ := ih (i + 1) _ M1 (by omega) h
            constructor
            · intro j hj0 hj1
              rw [hlow j hj0 (by omega), nth_set _ hw0 hw1 hj0, if_neg (by omega)]
            · intro j hj0 hj1
              by_cases hji : j = i
              · subst hji
                have e1 := hlow j (by omega) (by omega)
                have e2 := hlow (j - 1) (by omega) (by omega)
                rw [nth_set _ hw0 hw1 (by omega), if_pos rfl] at e1
                rw [nth_set _ hw0 hw1 (by omega), if_neg (by omega)] at e2
                rw [e1, e2]
                exact le_max_snd _ _
              · exact hhigh j (by omega) hj1
        · cases h
      · cases h
    · rename_i hc
      cases h
      exact ⟨fun _ _ _ => rfl, fun j a b => by omega⟩

/-- The `M` loop on any `p` with entries in `0..n`: it returns. -/
theorem fillM_total (v p : List Int) (n : Int) (hv : n < v.length) (hp : n < p.length)
    (hpred : ∀ i, 1 ≤ i → i ≤ n → 0 ≤ nth p i ∧ nth p i ≤ n) (fuel : Nat) :
    ∀ (i : Int) (M : List Int), 1 ≤ i → n + 1 - i < fuel → 0 < fuel → n < M.length →
      ∃ M1, fillM v p n fuel i M = some M1 := by
  induction fuel with
  | zero => intro i p _ _ h; exact absurd h (lt_irrefl _)
  | succ fuel ih =>
    intro i M hi hfu _ hM
    rw [fillM]
    by_cases hc : i ≤ n
    · obtain ⟨hp0, hp1⟩ := hpred i hi hc
      have h1 : rd v i = some (nth v i) := rd_eq (by omega) (by omega)
      have h2 : rd p i = some (nth p i) := rd_eq (by omega) (by omega)
      have h3 : rd M (nth p i) = some (nth M (nth p i)) := rd_eq hp0 (by omega)
      have h4 : rd M (i - 1) = some (nth M (i - 1)) := rd_eq (by omega) (by omega)
      have hw : wr M i (max (wrap (nth v i + nth M (nth p i))) (nth M (i - 1))) =
          some (M.set i.toNat (max (wrap (nth v i + nth M (nth p i))) (nth M (i - 1)))) :=
        wr_eq _ (by omega) (by omega)
      obtain ⟨M1, hM1⟩ := ih (i + 1)
        (M.set i.toNat (max (wrap (nth v i + nth M (nth p i))) (nth M (i - 1)))) (by omega)
        (by push_cast at hfu; omega) (by push_cast at hfu; omega)
        (by rw [List.length_set]; exact hM)
      simp only [hc, if_true, h1, h2, h3, h4, hw]
      exact ⟨M1, hM1⟩
    · simp only [hc, if_false]
      exact ⟨M, rfl⟩

/-- The predecessor loop on the loaded tables of any input, ordered or not: it returns,
and every `p[i]` lies between `-1` and `n`. -/
theorem fillP_bounds (inp : Input) (t0 : Tables) (hs : t0.s.length = TABSIZE)
    (hf : t0.f.length = TABSIZE) (hp : t0.p.length = TABSIZE) :
    ∃ p1, fillP t0.s t0.f inp.n (inp.n.toNat + 1) 1 t0.p = some p1 ∧ p1.length = TABSIZE ∧
      ∀ i, 1 ≤ i → i ≤ inp.n → -1 ≤ nth p1 i ∧ nth p1 i ≤ inp.n := by
  have hT : TABSIZE = 100 := rfl
  have hfits := inp.fits
  have hn : inp.n = inp.rows.length := rfl
  obtain ⟨p1, hp1, hlen, _, hhigh⟩ := fillP_spec t0.s t0.f inp.n (by omega) (by omega)
    (by omega) (inp.n.toNat + 1) 1 t0.p (le_refl _) (by push_cast; omega) (by omega) (by omega)
  refine ⟨p1, hp1, by rw [hlen, hp], ?_⟩
  intro i hi1 hi2
  have hb := hhigh i hi1 hi2
  obtain ⟨h, hh, hlo, hhi⟩ :=
    binSearchLast_total t0.f (inp.n + 1) (nth t0.s i) (by omega) (by omega) (by omega)
  have heq : nth p1 i = h := by
    rw [hh] at hb; exact (Option.some.inj hb).symm
  omega

theorem rd_take (a : List Int) (n i : Int) (h0 : 0 ≤ i) (h1 : i < n) :
    rd (a.take n.toNat) i = rd a i := by
  unfold rd
  simp only [h0, if_true]
  rw [List.getElem?_take_of_lt (by omega)]

theorem binSearchLoop_take (a : List Int) (key n : Int) (hb : n ≤ 1073741824)
    (fuel : Nat) :
    ∀ (low high : Int), 0 ≤ low → high < n →
      binSearchLoop (a.take n.toNat) key fuel low high = binSearchLoop a key fuel low high := by
  induction fuel with
  | zero => intro low high _ _; rfl
  | succ fuel ih =>
    intro low high h0 h1
    rw [binSearchLoop, binSearchLoop]
    by_cases hc : low ≤ high
    · obtain ⟨hm1, hm2⟩ := tdiv_two_bounds low high h0 hc
      obtain ⟨hw1, hw2, hw3⟩ := mid_wraps low high h0 hc (by omega)
      rw [hw1, hw2, hw3]
      simp only [hc, if_true]
      rw [rd_take a n _ (by omega) (by omega), ih _ high (by omega) h1,
        ih low _ h0 (by omega)]
    · simp only [hc, if_false]

theorem start_above_sentinel (inp : Input) (h : ∀ r ∈ inp.rows, SENTINEL ≤ r.1) (i : Int)
    (h1 : 1 ≤ i) (h2 : i ≤ inp.n) : SENTINEL ≤ inp.start i := by
  unfold Input.n at h2
  have hk : (i - 1).toNat < inp.rows.length := by omega
  unfold Input.start
  rw [List.getD_eq_getElem _ _ hk]
  exact h _ (List.getElem_mem _)

/-- The tables of every finished computation: `M[0] = 0`, and `M` is non-decreasing over
`0..n`, whatever the predecessors are. -/
theorem computed_nondecreasing (inp : Input) (t : Tables) (h : computed inp = some t) :
    nth t.M 0 = 0 ∧ ∀ i, 1 ≤ i → i ≤ inp.n → nth t.M (i - 1) ≤ nth t.M i := by
  unfold computed at h
  split at h
  · cases h
  · rename_i t0 _
    split at h
    · cases h
    · rename_i p1 _
      split at h
      · cases h
      · rename_i M0 hM0
        split at h
        · cases h
        · rename_i M1 hM1
          cases h
          obtain ⟨hw0, hw1, rfl⟩ := wr_some hM0
          obtain ⟨hlow, hmono⟩ := fillM_nondecreasing _ _ _ _ 1 _ M1 (le_refl _) hM1
          refine ⟨?_, hmono⟩
          show nth M1 0 = 0
          rw [hlow 0 (le_refl _) (by omega), nth_set _ hw0 hw1 (le_refl _)]
          simp

/-- The tables are computed on every input that passes the ordering check and has no
start below the sentinel, and every predecessor then lies in `0..n`. -/
theorem computed_total (inp : Input) (hord : inp.Ordered)
    (hsent : ∀ r ∈ inp.rows, SENTINEL ≤ r.1) :
    ∃ t, computed inp = some t ∧
      (∀ i, 1 ≤ i → i ≤ inp.n → 0 ≤ nth t.p i ∧ nth t.p i ≤ inp.n) := by
  have hT : TABSIZE = 100 := rfl
  have hfits := inp.fits
  have hn : inp.n = inp.rows.length := rfl
  obtain ⟨t0, hload, hs, hf, hv, hp, hM, hf0, hrows⟩ := load_spec inp
  have hpl : t0.p.length = TABSIZE := by rw [hp]; simp [Tables.zero]
  have hMl : t0.M.length = TABSIZE := by rw [hM]; simp [Tables.zero]
  obtain ⟨p1, hp1, hp1len, hp1spec⟩ := fillP_input inp hord t0 hs hf hpl hf0 hrows
  have hpred : ∀ i, 1 ≤ i → i ≤ inp.n → 0 ≤ nth p1 i ∧ nth p1 i ≤ inp.n := by
    intro i hi1 hi2
    obtain ⟨_, hle, h3⟩ := hp1spec i hi1 hi2
    exact ⟨(h3 (start_above_sentinel inp hsent i hi1 hi2)).1, hle⟩
  have hw : wr t0.M 0 0 = some (t0.M.set (0 : Int).toNat 0) :=
    wr_eq _ (le_refl _) (by omega)
  obtain ⟨M1, hM1⟩ := fillM_total t0.v p1 inp.n (by omega) (by omega)
    hpred (inp.n.toNat + 1) 1 (t0.M.set (0 : Int).toNat 0) (le_refl _) (by push_cast; omega)
    (by omega) (by rw [List.length_set]; omega)
  refine ⟨{ t0 with p := p1, M := M1 }, ?_, hpred⟩
  simp only [computed, hload, hp1, hw, hM1]

theorem nonneg_of_monotone (M : List Int) (n : Int) (h0 : nth M 0 = 0)
    (hmono : ∀ i, 1 ≤ i → i ≤ n → nth M (i - 1) ≤ nth M i) :
    ∀ d : Nat, (d : Int) ≤ n → 0 ≤ nth M d := by
  intro d
  induction d with
  | zero => intro _; simp [h0]
  | succ d ih =>
    intro hd
    push_cast at hd
    have h1 := ih (by omega)
    have h2 := hmono (d + 1) (by omega) hd
    simp only [add_sub_cancel_right] at h2
    push_cast
    omega

/-- C14 as stated fails: on the input `(1,4,3), (3,5,2), (0,6,4)` no part of the expected
outcome occurs; the program does not compute `M[3] = 5`, reports neither interval 1 nor
interval 2, and does not print the sum 5. -/
theorem scenario_not_five_counterexample :
    ¬ ∃ t out, main 4 scenarioInput = some (t, out) ∧
      (nth t.M 3 = 5 ∨ Out.incl 1 ∈ out ∨ Out.incl 2 ∈ out ∨ Out.total 5 ∈ out) := by
  rintro ⟨t, out, h, hor⟩
  have key : (main 4 scenarioInput).map (fun r => (nth r.1.M 3, r.2)) =
      some (4, [Out.header, Out.row 1 1 4 3 0 3, Out.row 2 3 5 2 0 3, Out.row 3 0 6 4 0 4,
        Out.incl 3, Out.total 4]) := by decide
  rw [h] at key
  simp only [Option.map_some', Option.some.injEq, Prod.mk.injEq] at key
  obtain ⟨hM, rfl⟩ := key
  rcases hor with h1 | h1 | h1 | h1
  · omega
  · revert h1; decide
  · revert h1; decide
  · revert h1; decide

/-- C14, amended: on the input `(1,4,3), (3,5,2), (0,6,4)` the program, given at least 4
evaluations of the reconstruction loop condition, prints the table with `p = 0, 0, 0` and
`M = 3, 3, 4`, reports interval 3 alone and prints the sum 4; `M[3] = 4` is the optimum,
because intervals 1 and 2 overlap (`s[2] = 3 < 4 = f[1]`). -/
theorem scenario_optimum_is_four (k : Nat) :
    ∃ t, main (4 + k) scenarioInput =
        some (t, [Out.header, Out.row 1 1 4 3 0 3, Out.row 2 3 5 2 0 3, Out.row 3 0 6 4 0 4,
          Out.incl 3, Out.total 4]) ∧
      nth t.M 3 = 4 ∧
      scenarioInput.start 2 < scenarioInput.finish 1 ∧
      (∀ S, scenarioInput.Feasible 3 S → scenarioInput.total S ≤ 4) := by
  have key : (main 4 scenarioInput).map (fun r => (nth r.1.M 3, r.2)) =
      some (4, [Out.header, Out.row 1 1 4 3 0 3, Out.row 2 3 5 2 0 3, Out.row 3 0 6 4 0 4,
        Out.incl 3, Out.total 4]) := by decide
  obtain ⟨t, rows, incl, sum, hmain, _, _, hpred, hM0, hrec, _⟩ :=
    main_ok scenarioInput (by decide) (by decide) 4 (by decide)
  rw [hmain] at key
  simp only [Option.map_some', Option.some.injEq, Prod.mk.injEq] at key
  obtain ⟨hM, hout⟩ := key
  rw [hout] at hmain
  refine ⟨t, main_fuel_mono 4 scenarioInput _ hmain k, hM, by decide, ?_⟩
  intro S hS
  have := (recurrence_optimal scenarioInput (nth t.p) (nth t.M) hpred hM0 hrec
    (fun S2 hS2 => le_trans (total_le_of_values scenarioInput 4 (by decide) (by decide) S2 hS2)
      (by decide)) 3 (by decide)).2 S hS
  simpa [hM] using this

/-- C15 as stated fails: the one-interval input `(5, 5, 1)` passes the ordering check;
its tables are computed with `p[1] = 1`, so a pass of the reconstruction loop at `i = 1`
reports interval 1 and continues at `i = p[1] = 1`, and the loop is still running after
any number of evaluations of its condition. The input `(-1000000, 5, 1)` passes the check
too, and no run on it is defined (its `M` loop reads `M[-1]`). -/
theorem walk_loops_on_zero_length_counterexample :
    zeroLengthInput.Ordered ∧
    (∃ t, computed zeroLengthInput = some t ∧ nth t.p 1 = 1 ∧
      (∀ fuel sum, walk t (fuel + 1) 1 sum =
        (walk t fuel 1 (wrap (sum + 1))).map (fun r => (1 :: r.1, r.2))) ∧
      ∀ fuel sum, walk t fuel 1 sum = none) ∧
    (∀ fuel, main fuel zeroLengthInput = none) ∧
    belowSentinelInput.Ordered ∧ ∀ fuel, main fuel belowSentinelInput = none := by
  have key : (computed zeroLengthInput).map
      (fun t => (nth t.p 1, rd t.v 1, rd t.p 1, rd t.M 1, rd t.M 0)) =
      some (1, some 1, some 1, some 1, some 0) := by decide
  have hex : ∃ t, computed zeroLengthInput = some t := by
    cases h : computed zeroLengthInput with
    | none => rw [h] at key; cases key
    | some t => exact ⟨t, rfl⟩
  obtain ⟨t, ht⟩ := hex
  rw [ht] at key
  simp only [Option.map_some', Option.some.injEq, Prod.mk.injEq] at key
  obtain ⟨hp1, hv, hp, hM1, hM0⟩ := key
  have hstep : ∀ fuel sum, walk t (fuel + 1) 1 sum =
      (walk t fuel 1 (wrap (sum + 1))).map (fun r => (1 :: r.1, r.2)) := by
    intro fuel sum
    have hw : wrap (1 + 1) ≥ 0 := by decide
    rw [walk]
    have e : (1 : Int) - 1 = 0 := rfl
    simp only [show (1 : Int) > 0 by decide, if_true, hv, hp, hM1, e, hM0, hw]
  have hloop : ∀ fuel sum, walk t fuel 1 sum = none := by
    intro fuel
    induction fuel with
    | zero => intro sum; rfl
    | succ f ih => intro sum; rw [hstep, ih]; rfl
  refine ⟨by decide, ⟨t, ht, hp1, hstep, hloop⟩, ?_, by decide, ?_⟩
  · intro fuel
    cases hm : main fuel zeroLengthInput with
    | none => rfl
    | some r =>
      exfalso
      obtain ⟨t2, out⟩ := r
      obtain ⟨hc, _, rows, incl, sum, hwalk, _⟩ :=
        main_ordered_shape fuel zeroLengthInput (by decide) t2 out hm
      rw [ht] at hc
      cases hc
      have hn : zeroLengthInput.n = 1 := by decide
      rw [hn, hloop] at hwalk
      cases hwalk
  · intro fuel
    have hc : computed belowSentinelInput = none := by decide
    cases hm : main fuel belowSentinelInput with
    | none => rfl
    | some r =>
      exfalso
      obtain ⟨t2, out⟩ := r
      have := (main_ordered_shape fuel belowSentinelInput (by decide) t2 out hm).1
      rw [hc] at this
      cases this

/-- C15, amended: on a scheduler input that passes the ordering check and has
`s[i] < f[i]` and `s[i] >= -999999` for every `i`, every predecessor satisfies
`0 <= p[i] < i`, so each pass of the reconstruction loop moves `i` to a smaller
subscript, and the loop has ended, and the program with it, within `n + 1` evaluations of
the loop condition, that is after at most `n` passes; more fuel changes nothing. -/
theorem walk_terminates_within_n (inp : Input) (hord : inp.Ordered) (hprop : inp.Proper) :
    ∃ t out, main (inp.rows.length + 1) inp = some (t, out) ∧
      (∀ k, main (inp.rows.length + 1 + k) inp = some (t, out)) ∧
      ∀ i, 1 ≤ i → i ≤ inp.n → 0 ≤ nth t.p i ∧ nth t.p i < i := by
  obtain ⟨t, rows, incl, sum, hmain, _, _, hpred, _⟩ :=
    main_ok inp hord hprop (inp.rows.length + 1) (le_refl _)
  exact ⟨t, _, hmain, fun k => main_fuel_mono _ inp _ hmain k,
    fun i h1 h2 => ⟨(hpred i h1 h2).1, (hpred i h1 h2).2.1⟩⟩

theorem walk_terminates_within_n_witness :
    ∃ t out, main (scenarioInput.rows.length + 1) scenarioInput = some (t, out) ∧
      (∀ k, main (scenarioInput.rows.length + 1 + k) scenarioInput = some (t, out)) ∧
      ∀ i, 1 ≤ i → i ≤ scenarioInput.n → 0 ≤ nth t.p i ∧ nth t.p i < i :=
  walk_terminates_within_n scenarioInput (by decide) (by decide)

/-- C16: the table `M` the program computes is non-decreasing: `max(x, y)` is never below
`y`, so whatever the first operand `v[i] + M[p[i]]` comes to, the entry stored in `M[i]`
is at least `M[i-1]`; in every computed table `M[0] = 0`, `M[i] >= M[i-1]` for every `i`
in `1..n`, and hence `M[i] >= 0`. It is the table of every finished run on an input that
passes the ordering check, and such an input with no start below the sentinel has one. -/
theorem table_M_nondecreasing (inp : Input) :
    (∀ x y : Int, y ≤ max x y) ∧
    (∀ t, computed inp = some t →
      nth t.M 0 = 0 ∧
      (∀ i, 1 ≤ i → i ≤ inp.n → nth t.M (i - 1) ≤ nth t.M i) ∧
      (∀ i, 0 ≤ i → i ≤ inp.n → 0 ≤ nth t.M i)) ∧
    (inp.Ordered → ∀ fuel t out, main fuel inp = some (t, out) → computed inp = some t) ∧
    (inp.Ordered → (∀ r ∈ inp.rows, SENTINEL ≤ r.1) → ∃ t, computed inp = some t) := by
  refine ⟨le_max_snd, ?_, ?_, ?_⟩
  · intro t ht
    obtain ⟨hM0, hmono⟩ := computed_nondecreasing inp t ht
    refine ⟨hM0, hmono, ?_⟩
    intro i hi0 hin
    have := nonneg_of_monotone t.M inp.n hM0 hmono i.toNat (by omega)
    have e : ((i.toNat : Nat) : Int) = i := by omega
    rwa [e] at this
  · intro hord fuel t out hm
    exact (main_ordered_shape fuel inp hord t out hm).1
  · intro hord hsent
    obtain ⟨t, ht, _⟩ := computed_total inp hord hsent
    exact ⟨t, ht⟩

theorem table_M_nondecreasing_witness :
    (computed scenarioInput).map (fun t => t.M.take 4) = some [0, 3, 3, 4] ∧
    ((∀ x y : Int, y ≤ max x y) ∧
    (∀ t, computed scenarioInput = some t →
      nth t.M 0 = 0 ∧
      (∀ i, 1 ≤ i → i ≤ scenarioInput.n → nth t.M (i - 1) ≤ nth t.M i) ∧
      (∀ i, 0 ≤ i → i ≤ scenarioInput.n → 0 ≤ nth t.M i)) ∧
    (scenarioInput.Ordered →
      ∀ fuel t out, main fuel scenarioInput = some (t, out) → computed scenarioInput = some t) ∧
    (scenarioInput.Ordered → (∀ r ∈ scenarioInput.rows, SENTINEL ≤ r.1) →
      ∃ t, computed scenarioInput = some t)) :=
  ⟨by decide, table_M_nondecreasing scenarioInput⟩

/-- C18: on a scheduler input with non-decreasing finish times, `s[i] < f[i]` and
`s[i] >= -999999` for every `i`, the reconstruction loop of the program (test `>=`) and
the same loop with the strict test `>`, run on the computed tables, both end and
accumulate the same sum, the one the program prints, each being the sum of the values of
the intervals it reports. -/
theorem strict_walk_same_sum (inp : Input) (hord : inp.Ordered) (hprop : inp.Proper)
    (fuel : Nat) (hfuel : inp.rows.length + 1 ≤ fuel) :
    ∃ (t : Tables) (rows : List Out) (incl incl2 : List Int) (sum : Int),
      main fuel inp = some (t, Out.header :: rows ++ incl.map Out.incl ++ [Out.total sum]) ∧
      walk t fuel inp.n 0 = some (incl, sum) ∧
      walkStrict t fuel inp.n 0 = some (incl2, sum) ∧
      (incl.map inp.value).sum = sum ∧ (incl2.map inp.value).sum = sum := by
  have hT : TABSIZE = 100 := rfl
  have hfits := inp.fits
  have hn : inp.n = inp.rows.length := rfl
  obtain ⟨t, rows0, incl0, sum0, hmain, _, hval, hpred, hM0, hrec, _⟩ :=
    main_ok inp hord hprop fuel hfuel
  obtain ⟨_, ⟨_, _, hvl, hpl, hMl⟩, rows, incl, sum, hwalk, hout⟩ :=
    main_ordered_shape fuel inp hord t _ hmain
  rw [hout] at hmain
  have hrec2 : ∀ i, 1 ≤ i → i ≤ inp.n →
      nth t.M i = max (wrap (nth t.v i + nth t.M (nth t.p i))) (nth t.M (i - 1)) := by
    intro i h1 h2
    rw [hval i h1 h2]; exact hrec i h1 h2
  have hvint : ∀ i, 1 ≤ i → i ≤ inp.n → IsInt (nth t.v i) := by
    intro i h1 h2
    rw [hval i h1 h2]; exact value_isInt inp i h1 h2
  have hMn := (table_bounds_at t.v t.p t.M inp.n hM0 hrec2 inp.n (by omega) (le_refl _)).2.1
  have hpred2 : ∀ i, 1 ≤ i → i ≤ inp.n → 0 ≤ nth t.p i ∧ nth t.p i < i :=
    fun i h1 h2 => ⟨(hpred i h1 h2).1, (hpred i h1 h2).2.1⟩
  obtain ⟨incl2, hws, hmem2, hsum2⟩ := walkStrict_spec t inp.n (by omega) (by omega)
    (by omega) hpred2 hvint hM0 hrec2 fuel inp.n 0 (by omega) (le_refl _) (by omega)
    (le_refl _) (by simpa using hMn)
  obtain ⟨incl1, hw1, hmem1, _, hsum1⟩ := walk_spec t inp.n (by omega) (by omega)
    (by omega) hpred2 hvint hM0 hrec2 fuel inp.n 0 (by omega) (le_refl _) (by omega)
    (le_refl _) (by simpa using hMn)
  simp only [zero_add] at hws hw1
  rw [hw1] at hwalk
  simp only [Option.some.injEq, Prod.mk.injEq] at hwalk
  obtain ⟨rfl, rfl⟩ := hwalk
  have hvals : ∀ l : List Int, (∀ j ∈ l, 1 ≤ j ∧ j ≤ inp.n) →
      l.map inp.value = l.map (nth t.v) := by
    intro l hl
    apply List.map_congr_left
    intro j hj
    exact (hval j (hl j hj).1 (hl j hj).2).symm
  refine ⟨t, rows, incl1, incl2, nth t.M inp.n, hmain, hw1, hws, ?_, ?_⟩
  · rw [hvals incl1 hmem1, hsum1]
  · rw [hvals incl2 hmem2, hsum2]

theorem strict_walk_same_sum_witness :
    (main 3 tieInput).map (fun r => r.2) =
      some [Out.header, Out.row 1 0 1 1 0 1, Out.row 2 0 2 1 0 1, Out.incl 2, Out.total 1] ∧
    (computed tieInput).bind (fun t => walkStrict t 3 2 0) = some ([1], 1) ∧
    ∃ (t : Tables) (rows : List Out) (incl incl2 : List Int) (sum : Int),
      main 3 tieInput =
        some (t, Out.header :: rows ++ incl.map Out.incl ++ [Out.total sum]) ∧
      walk t 3 tieInput.n 0 = some (incl, sum) ∧
      walkStrict t 3 tieInput.n 0 = some (incl2, sum) ∧
      (incl.map tieInput.value).sum = sum ∧ (incl2.map tieInput.value).sum = sum :=
  ⟨by decide, by decide, strict_walk_same_sum tieInput (by decide) (by decide) 3 (by decide)⟩

/-- C19: on a scheduler input (at most 99 intervals) with non-decreasing finish times,
`s[i] < f[i]` and `s[i] >= -999999` for every `i`, the program runs to the end without
touching a subscript outside a table; every computed predecessor satisfies
`0 <= p[i] < i`, so the subscripts `i`, `p[i]` and `i-1` used at interval `i` by the `M`
loop and by the reconstruction loop lie in `[0, n]`, inside the 100-entry tables, and the
entries `M[p[i]]` and `M[i-1]` read there have subscripts below `i`: they were written
by earlier passes of the `M` loop, or are `M[0]`. -/
theorem table_accesses_in_bounds (inp : Input) (hord : inp.Ordered) (hprop : inp.Proper)
    (fuel : Nat) (hfuel : inp.rows.length + 1 ≤ fuel) :
    ∃ t out, main fuel inp = some (t, out) ∧ computed inp = some t ∧
      (t.s.length = TABSIZE ∧ t.f.length = TABSIZE ∧ t.v.length = TABSIZE ∧
        t.p.length = TABSIZE ∧ t.M.length = TABSIZE) ∧
      0 ≤ inp.n ∧ inp.n ≤ 99 ∧ TABSIZE = 100 ∧
      ∀ i, 1 ≤ i → i ≤ inp.n →
        (0 ≤ nth t.p i ∧ nth t.p i < i) ∧
        (∀ x ∈ [i, nth t.p i, i - 1], 0 ≤ x ∧ x ≤ inp.n ∧ x < TABSIZE) ∧
        (∀ x ∈ [nth t.p i, i - 1], x < i) := by
  have hT : TABSIZE = 100 := rfl
  have hfits := inp.fits
  have hn : inp.n = inp.rows.length := rfl
  obtain ⟨t, rows0, incl0, sum0, hmain, _, _, hpred, _⟩ := main_ok inp hord hprop fuel hfuel
  obtain ⟨hc, hlen, _⟩ := main_ordered_shape fuel inp hord t _ hmain
  refine ⟨t, _, hmain, hc, hlen, by omega, by omega, hT, ?_⟩
  intro i h1 h2
  obtain ⟨hp0, hp1, _⟩ := hpred i h1 h2
  refine ⟨⟨hp0, hp1⟩, ?_, ?_⟩
  · intro x hx
    simp only [List.mem_cons, List.mem_singleton, List.not_mem_nil, or_false] at hx
    rcases hx with rfl | rfl | rfl <;> omega
  · intro x hx
    simp only [List.mem_cons, List.mem_singleton, List.not_mem_nil, or_false] at hx
    rcases hx with rfl | rfl <;> omega

theorem table_accesses_in_bounds_witness :
    ∃ t out, main 4 scenarioInput = some (t, out) ∧ computed scenarioInput = some t ∧
      (t.s.length = TABSIZE ∧ t.f.length = TABSIZE ∧ t.v.length = TABSIZE ∧
        t.p.length = TABSIZE ∧ t.M.length = TABSIZE) ∧
      0 ≤ scenarioInput.n ∧ scenarioInput.n ≤ 99 ∧ TABSIZE = 100 ∧
      ∀ i, 1 ≤ i → i ≤ scenarioInput.n →
        (0 ≤ nth t.p i ∧ nth t.p i < i) ∧
        (∀ x ∈ [i, nth t.p i, i - 1], 0 ≤ x ∧ x ≤ scenarioInput.n ∧ x < TABSIZE) ∧
        (∀ x ∈ [nth t.p i, i - 1], x < i) :=
  table_accesses_in_bounds scenarioInput (by decide) (by decide) 4 (by decide)

/-- C20 as stated fails: on the array of `n = 2^30 + 1 = 1073741825` entries `-999999`
and the key 0, `binSearchLast(a, n, key)` returns no value: after 30 passes `low = high =
2^30`, the `int` sum `low + high` is `-2^31`, and the next pass reads `a[-1073741824]`, a
subscript outside `[0, n-1]`. -/
theorem binSearchLast_reads_below_zero_counterexample :
    (0 : Int) ≤ (List.replicate 1073741825 (-999999 : Int)).length ∧
    binSearchLast (List.replicate 1073741825 (-999999 : Int)) 1073741825 0 = none ∧
    (∀ fuel,
      binSearchLoop (List.replicate 1073741825 (-999999 : Int)) 0 (fuel + 30) 0 1073741824 =
        binSearchLoop (List.replicate 1073741825 (-999999 : Int)) 0 fuel
          1073741824 1073741824) ∧
    wrap (1073741824 + 1073741824) = -2147483648 ∧
    Int.tdiv (wrap (1073741824 + 1073741824)) 2 = -1073741824 ∧
    rd (List.replicate 1073741825 (-999999 : Int))
      (Int.tdiv (wrap (1073741824 + 1073741824)) 2) = none := by
  have hlen : (((List.replicate 1073741825 (-999999 : Int)).length : Nat) : Int) =
      1073741825 := by
    rw [List.length_replicate]; rfl
  have hall : ∀ j, 0 ≤ j → j < 1073741825 →
      nth (List.replicate 1073741825 (-999999 : Int)) j ≤ 0 := by
    intro j h0 h1
    rw [nth_replicate 1073741825 (-999999) j h0 (by exact_mod_cast h1)]
    decide
  obtain ⟨hnone, hclimb⟩ := binSearchLast_overflow _ 0 hlen hall
  obtain ⟨h1, h2, h3, _⟩ :=
    binSearchLoop_overflow (List.replicate 1073741825 (-999999 : Int)) 0 0
  exact ⟨by rw [hlen]; decide, hnone, hclimb, h1, h2, h3⟩

/-- C20, amended: for an array `a` of at least `n` ints, `0 <= n <= 2^30 = 1073741824`,
sorted or not, and any key, `binSearchLast(a, n, key)` terminates and returns a value `h`
with `-1 <= h <= n-1` (`-1` when `n = 0`); it reads only subscripts in `[0, n-1]`, since
it returns the same on the array cut down to its first `n` elements. So on any scheduler
input, whatever the order between the sentinel and the finish times, every predecessor
the program computes lies between `-1` and `n`. -/
theorem binSearchLast_any_array (a : List Int) (n key : Int) (h0 : 0 ≤ n)
    (hn : n ≤ a.length) (hb : n ≤ 1073741824) (inp : Input) :
    (∃ h, binSearchLast a n key = some h ∧ -1 ≤ h ∧ h ≤ n - 1 ∧ (n = 0 → h = -1) ∧
      binSearchLast (a.take n.toNat) n key = some h) ∧
    (∃ t0 p1, load inp.rows = some t0 ∧
      fillP t0.s t0.f inp.n (inp.n.toNat + 1) 1 t0.p = some p1 ∧
      ∀ i, 1 ≤ i → i ≤ inp.n → -1 ≤ nth p1 i ∧ nth p1 i ≤ inp.n) := by
  constructor
  · obtain ⟨h, hh, h1, h2⟩ := binSearchLast_total a n key h0 hn hb
    refine ⟨h, hh, h1, h2, fun hz => by omega, ?_⟩
    rw [← hh]
    unfold binSearchLast
    rw [wrap_eq (by omega : -2147483648 ≤ n - 1) (by omega)]
    exact binSearchLoop_take a key n hb (n.toNat + 1) 0 (n - 1) (le_refl _) (by omega)
  · obtain ⟨t0, hload, hs, hf, _, hp, _, _, _⟩ := load_spec inp
    have hpl : t0.p.length = TABSIZE := by rw [hp]; simp [Tables.zero]
    obtain ⟨p1, hp1, _, hb⟩ := fillP_bounds inp t0 hs hf hpl
    exact ⟨t0, p1, hload, hp1, hb⟩

theorem binSearchLast_any_array_witness :
    binSearchLast [-999999, -2000000] 2 (-1500000) = some (-1) ∧
    ((∃ h, binSearchLast [-999999, -2000000] 2 (-1500000) = some h ∧ -1 ≤ h ∧ h ≤ 2 - 1 ∧
      ((2 : Int) = 0 → h = -1) ∧
      binSearchLast (([-999999, -2000000] : List Int).take (2 : Int).toNat) 2 (-1500000) =
        some h) ∧
    (∃ t0 p1, load belowSentinelInput.rows = some t0 ∧
      fillP t0.s t0.f belowSentinelInput.n (belowSentinelInput.n.toNat + 1) 1 t0.p =
        some p1 ∧
      ∀ i, 1 ≤ i → i ≤ belowSentinelInput.n →
        -1 ≤ nth p1 i ∧ nth p1 i ≤ belowSentinelInput.n)) :=
  ⟨by decide, binSearchLast_any_array [-999999, -2000000] 2 (-1500000) (by decide)
    (by decide) (by decide) belowSentinelInput⟩

end WisBs
